import Mathlib

/-!
# Verification of the graph-component / tree-conversion core (`src/tree.js`)

Shallow embedding of the JavaScript source of the repository
`graph-network-minimal-crossing`.  A JavaScript object mapping node ids to
neighbor arrays is modelled as an ordered association list
`AdjList := List (String × List String)`; list order models the object's key
enumeration order, `obj[k] = v` is `objSet` (update in place, append when
absent), `delete obj[k]` is a key filter, and a read of a missing entry that
the JS code would then dereference (a `TypeError` at run time) makes the
embedded function return `none`.  Every neighbor array the source ever stores
is freshly allocated there (spread/filter/`[...new Set]`), so value semantics
are faithful.  Recursive DFS routines take explicit fuel; the fuel supplied by
the wrappers is justified below where needed.
-/

set_option autoImplicit false

/-- A JavaScript object with `String` keys and `β` values, as an ordered
association list (JS enumeration order = list order, keys unique in any state
actually built by the code). -/
abbrev JsObj (β : Type) := List (String × β)

/-- Adjacency list: node id ↦ array of neighbor ids (`src/tree.js` data model). -/
abbrev AdjList := JsObj (List String)

/-- Property read `obj[k]`: value of the first entry with key `k`. -/
def lookupA {β : Type} : JsObj β → String → Option β
  | [], _ => none
  | (k, v) :: rest, n => if k = n then some v else lookupA rest n

/-- Read with a default, used where the JS code guards the access. -/
def valD (g : AdjList) (n : String) : List String :=
  (lookupA g n).getD []

/-- JS truthiness of `obj[k]` for array/object-valued entries: key presence. -/
def keyMem {β : Type} (g : JsObj β) (n : String) : Prop :=
  (lookupA g n).isSome

instance {β : Type} (g : JsObj β) (n : String) : Decidable (keyMem g n) := by
  unfold keyMem; infer_instance

/-- `Object.keys(obj)` in enumeration order. -/
def keysOf {β : Type} (g : JsObj β) : List String :=
  g.map Prod.fst

/-- Property write `obj[k] = v`: replace the (unique) entry in place, or append
a new entry at the end when the key is absent. -/
def objSet {β : Type} : JsObj β → String → β → JsObj β
  | [], n, v => [(n, v)]
  | (k, w) :: rest, n, v => if k = n then (k, v) :: rest else (k, w) :: objSet rest n v

/-- Worker for `dedupFirst`: keep each element's first occurrence, tracking
the elements already seen. -/
def dedupSeen : List String → List String → List String
  | [], _ => []
  | x :: xs, seen => if x ∈ seen then dedupSeen xs seen else x :: dedupSeen xs (x :: seen)

/-- First-occurrence deduplication, the meaning of `[...new Set(list)]`. -/
def dedupFirst (l : List String) : List String := dedupSeen l []

/-!
## `src/tree.js` adjacency-list primitives
-/

/-- The neighbor-registration loop of `addNodeToAdjacencyList`
(`src/tree.js` lines 54–58): every neighbor not yet present as a key is added
with an empty neighbor list (the recursive call with `[]` reduces to exactly
that append). -/
def registerNbrs (g : AdjList) (neighbors : List String) : AdjList :=
  neighbors.foldl (fun acc nb => if keyMem acc nb then acc else acc ++ [(nb, [])]) g

/-- `addNodeToAdjacencyList(adjList, node, neighbors)` (`src/tree.js` 51–64).
After registering absent neighbors, stores
`[...new Set([...adjList[node], ...neighbors])]` when `node` is present and
`neighbors` verbatim when it is not. -/
def addNodeToAdjacencyList (g : AdjList) (node : String) (neighbors : List String) : AdjList :=
  objSet (registerNbrs g neighbors) node
    (match lookupA (registerNbrs g neighbors) node with
     | some old => dedupFirst (old ++ neighbors)
     | none => neighbors)

/-- `addEdgeToAdjacencyList(adjList, parent, child, bidirectional)`
(`src/tree.js` 74–79).  The `bidirectional: true` branch calls
`addEdgeToAdjacencyList_bidirectional`, which is not defined anywhere in the
repository, so that branch raises a `ReferenceError`: embedded as `none`. -/
def addEdgeToAdjacencyList (g : AdjList) (parentNode childNode : String) (bidirectional : Bool) :
    Option AdjList :=
  if bidirectional then none
  else some (addNodeToAdjacencyList g parentNode [childNode])

/-- `removeNodeFromAdjacencyList(adjList, node)` (`src/tree.js` 87–93):
filter `node` out of every neighbor list, then delete its own entry. -/
def removeNodeFromAdjacencyList (g : AdjList) (node : String) : AdjList :=
  (g.map (fun kv => (kv.1, kv.2.filter (fun nb => nb ≠ node)))).filter
    (fun kv => kv.1 ≠ node)

/-- One direction of `removeEdgeFromAdjacencyList`
(`src/tree.js` line 107): `adjList[parent] = adjList[parent].filter(n => n !== child)`.
Reading `adjList[parent]` when `parent` is not a key yields `undefined`, and
`.filter` on it throws: `none`. -/
def removeEdgeOnce (g : AdjList) (parentNode childNode : String) : Option AdjList :=
  (lookupA g parentNode).map (fun l => objSet g parentNode (l.filter (fun n => n ≠ childNode)))

/-- `removeEdgeFromAdjacencyList(adjList, parent, child, bidirectional)`
(`src/tree.js` 103–108); the bidirectional case first removes the reverse
direction via the recursive call (whose own flag defaults to `false`). -/
def removeEdgeFromAdjacencyList (g : AdjList) (parentNode childNode : String)
    (bidirectional : Bool) : Option AdjList :=
  if bidirectional then
    (removeEdgeOnce g childNode parentNode).bind
      (fun g1 => removeEdgeOnce g1 parentNode childNode)
  else removeEdgeOnce g parentNode childNode

/-- `mergeAdjacencyListsOfUnconnectedGraphs(a, b, ...)` is
`Object.assign({}, ...)` (`src/tree.js` 624–634); assigning one source object
into an accumulator. -/
def objAssign (a b : AdjList) : AdjList :=
  b.foldl (fun acc kv => objSet acc kv.1 kv.2) a

/-- Variadic `Object.assign({}, ...adjLists)`. -/
def mergeAdjacencyListsOfUnconnectedGraphs (ls : List AdjList) : AdjList :=
  ls.foldl objAssign []

/-- `getReverseAdjacencyList(adjacencyList)` (`src/tree.js` 605–621); also the
exact code of the reverse-edge construction inlined in
`treeAdjacencyListToNestedList` (lines 18–25). -/
def getReverseAdjacencyList (g : AdjList) : AdjList :=
  g.foldl
    (fun acc kv =>
      kv.2.foldl
        (fun acc2 nb =>
          let acc3 := if keyMem acc2 nb then acc2 else objSet acc2 nb []
          objSet acc3 nb (valD acc3 nb ++ [kv.1]))
        acc)
    []

/-!
## Tree classification (`src/tree.js`)
-/

/-- `getIndegrees(adjacencyList)` (`src/tree.js` 116–126).  Note the faithful
quirk: `inDegree[node] = 0` runs unconditionally for every key, discarding
counts contributed by earlier keys' edges. -/
def getIndegrees (g : AdjList) : JsObj Nat :=
  g.foldl
    (fun ind kv =>
      let ind1 := objSet ind kv.1 0
      kv.2.foldl (fun acc nb => objSet acc nb ((lookupA acc nb).getD 0 + 1)) ind1)
    []

/-- `getNodesWithZeroIndegree(adjacencyList)` (`src/tree.js` 153–158). -/
def getNodesWithZeroIndegree (g : AdjList) : List String :=
  let ind := getIndegrees g
  (keysOf ind).filter (fun node => (lookupA ind node).getD 0 = 0)

/-- The forward-reachability DFS used by `isDirectedTree` (`src/tree.js`
236–243); also the DFS of `getNumberofReachableNodes` (171–178).  Returns the
visited list; `none` on a missing-entry dereference or fuel exhaustion. -/
def dfsF (g : AdjList) : Nat → String → List String → Option (List String)
  | 0, _, _ => none
  | fuel + 1, node, vis =>
    let vis1 := vis ++ [node]
    match lookupA g node with
    | none => none
    | some nbrs =>
      nbrs.foldl
        (fun st nb => st.bind (fun v => if nb ∈ v then some v else dfsF g fuel nb v))
        (some vis1)

/-- The root-candidate loop of `isDirectedTree` (`src/tree.js` 233–250). -/
def isDirectedTreeGo (g : AdjList) : List String → Option (Option String)
  | [] => some none
  | root :: rest =>
    match dfsF g (g.length + 1) root [] with
    | none => none
    | some vis =>
      if vis.length = (keysOf g).length then some (some root) else isDirectedTreeGo g rest

/-- `isDirectedTree(adjList)` (`src/tree.js` 214–252).  JS returns the root id,
or `false` (no zero-indegree candidate) or `null` (no candidate spans the
graph); both falsy results are embedded as `some none`, a thrown `TypeError`
as `none`. -/
def isDirectedTree (g : AdjList) : Option (Option String) :=
  let roots := getNodesWithZeroIndegree g
  if roots.isEmpty then some none
  else isDirectedTreeGo g roots

/-- Inner loop body of `makeAdjacencyListBidirectional` (`src/tree.js`
592–599): install the neighbor's own (copied) list when absent — spreading
`adjacencyList[neighbor]` throws when the neighbor is not a key — then append
the reverse edge unless already present. -/
def biInnerStep (g : AdjList) (node : String) (st : Option AdjList) (nb : String) :
    Option AdjList :=
  st.bind (fun s =>
    let install : Option AdjList :=
      if keyMem s nb then some s else (lookupA g nb).map (fun l => objSet s nb l)
    install.map (fun s3 => if node ∈ valD s3 nb then s3 else objSet s3 nb (valD s3 nb ++ [node])))

/-- Outer loop body of `makeAdjacencyListBidirectional` (`src/tree.js`
586–600): copy the node's own list when not already present, then patch the
reverse edges of its neighbors. -/
def biOuterStep (g : AdjList) (st : Option AdjList) (kv : String × List String) :
    Option AdjList :=
  st.bind (fun s =>
    let s1 := if keyMem s kv.1 then s else objSet s kv.1 kv.2
    kv.2.foldl (biInnerStep g kv.1) (some s1))

/-- `makeAdjacencyListBidirectional(adjacencyList)` (`src/tree.js` 578–602). -/
def makeAdjacencyListBidirectional (g : AdjList) : Option AdjList :=
  g.foldl (biOuterStep g) (some [])

/-- The cycle-hunting DFS of `isUndirectedAcyclicGraph` (`src/tree.js`
312–325).  `parent = none` models the JS `null`; an early `return true` is
modelled by a pass-through state (the skipped iterations would not change
anything).  Result flag `true` means a cycle was found. -/
def dfsCyc (bg : AdjList) : Nat → String → Option String → List String →
    Option (List String × Bool)
  | 0, _, _, _ => none
  | fuel + 1, node, parent, vis =>
    let vis1 := vis ++ [node]
    match lookupA bg node with
    | none => none
    | some nbrs =>
      nbrs.foldl
        (fun st nb =>
          st.bind (fun vb =>
            match vb with
            | (v, true) => some (v, true)
            | (v, false) =>
              if nb ∈ v then
                if some nb = parent then some (v, false) else some (v, true)
              else dfsCyc bg fuel nb (some node) v))
        (some (vis1, false))

/-- `isUndirectedAcyclicGraph(adjacencyList)` (`src/tree.js` 299–328):
symmetrize, take the FIRST key as root, run one cycle-hunting DFS from it and
negate.  There is no check that the visited set spans all keys.  On an empty
graph `Object.keys(...)[0]` is `undefined` and the DFS dereferences a missing
entry: `none`. -/
def isUndirectedAcyclicGraph (g : AdjList) : Option Bool :=
  (makeAdjacencyListBidirectional g).bind (fun bg =>
    match keysOf bg with
    | [] => none
    | root :: _ => (dfsCyc bg (bg.length + 1) root none []).map (fun vb => !vb.2))

/-- `isUndirectedTree(adjList)` (`src/tree.js` 255–257): delegates verbatim to
`isUndirectedAcyclicGraph`. -/
def isUndirectedTree (g : AdjList) : Option Bool :=
  isUndirectedAcyclicGraph g

/-!
## Connected components (`src/tree.js` 331–558)
-/

/-- The DFS of `getConnectedComponents_directed` (`src/tree.js` 507–523):
record the node with its verbatim neighbor list, recurse forward along edges,
then reverse-scan every key of the whole graph for edges pointing at `node`
("weak" connectivity).  `component[node] = adjList[node]` with `node` absent
would store `undefined` and the following `for..of` would throw: `none`. -/
def dfsCC (g : AdjList) : Nat → String → List String → AdjList → Option (List String × AdjList)
  | 0, _, _, _ => none
  | fuel + 1, node, vis, comp =>
    let vis1 := vis ++ [node]
    match lookupA g node with
    | none => none
    | some nbrs =>
      let comp1 := objSet comp node nbrs
      ((nbrs.foldl
          (fun st nb => st.bind (fun vc =>
            if nb ∈ vc.1 then some vc else dfsCC g fuel nb vc.1 vc.2))
          (some (vis1, comp1))).bind
        (fun vc0 =>
          (keysOf g).foldl
            (fun st k => st.bind (fun vc =>
              if k ∈ vc.1 then some vc
              else if node ∈ valD g k then dfsCC g fuel k vc.1 vc.2
              else some vc))
            (some vc0)))

/-- Forward-edge loop step of `dfsCC`, named for the proofs below. -/
def ccFwdStep (g : AdjList) (fuel : Nat) (st : Option (List String × AdjList)) (nb : String) :
    Option (List String × AdjList) :=
  st.bind (fun vc => if nb ∈ vc.1 then some vc else dfsCC g fuel nb vc.1 vc.2)

/-- Reverse-scan loop step of `dfsCC`, named for the proofs below. -/
def ccRevStep (g : AdjList) (fuel : Nat) (node : String)
    (st : Option (List String × AdjList)) (k : String) : Option (List String × AdjList) :=
  st.bind (fun vc =>
    if k ∈ vc.1 then some vc
    else if node ∈ valD g k then dfsCC g fuel k vc.1 vc.2
    else some vc)

/-- `dfsCC` at positive fuel, phrased with the named loop steps. -/
theorem dfsCC_succ (g : AdjList) (fuel : Nat) (node : String) (vis : List String)
    (comp : AdjList) :
    dfsCC g (fuel + 1) node vis comp =
      match lookupA g node with
      | none => none
      | some nbrs =>
        ((nbrs.foldl (ccFwdStep g fuel) (some (vis ++ [node], objSet comp node nbrs))).bind
          (fun vc0 => (keysOf g).foldl (ccRevStep g fuel node) (some vc0))) := rfl

/-- `getConnectedComponents_directed(adjList)` (`src/tree.js` 490–526): scan
keys in order, starting a fresh component DFS at each unvisited key.
Fuel `g.length + 1` bounds the DFS depth: every nested call targets an
unvisited key of `g` and immediately visits it. -/
def getConnectedComponents_directed (g : AdjList) : Option (List AdjList) :=
  ((keysOf g).foldl
      (fun st node => st.bind (fun vcs =>
        if node ∈ vcs.1 then some vcs
        else (dfsCC g (g.length + 1) node vcs.1 []).map (fun vc => (vc.1, vcs.2 ++ [vc.2]))))
      (some ([], []))).map Prod.snd

/-- Outer loop step of `getConnectedComponents_directed`, named for proofs. -/
def ccOuterStep (g : AdjList) (st : Option (List String × List AdjList)) (node : String) :
    Option (List String × List AdjList) :=
  st.bind (fun vcs =>
    if node ∈ vcs.1 then some vcs
    else (dfsCC g (g.length + 1) node vcs.1 []).map (fun vc => (vc.1, vcs.2 ++ [vc.2])))

/-- `getConnectedComponents_directed` phrased with the named outer step. -/
theorem getConnectedComponents_directed_eq (g : AdjList) :
    getConnectedComponents_directed g =
      ((keysOf g).foldl (ccOuterStep g) (some ([], []))).map Prod.snd := rfl

/-- The DFS of `getConnectedComponents_undirected` (`src/tree.js` 546–555):
forward edges only. -/
def dfsCU (g : AdjList) : Nat → String → List String → AdjList → Option (List String × AdjList)
  | 0, _, _, _ => none
  | fuel + 1, node, vis, comp =>
    let vis1 := vis ++ [node]
    match lookupA g node with
    | none => none
    | some nbrs =>
      let comp1 := objSet comp node nbrs
      nbrs.foldl
        (fun st nb => st.bind (fun vc =>
          if nb ∈ vc.1 then some vc else dfsCU g fuel nb vc.1 vc.2))
        (some (vis1, comp1))

/-- `getConnectedComponents_undirected(adjList)` (`src/tree.js` 529–558). -/
def getConnectedComponents_undirected (g : AdjList) : Option (List AdjList) :=
  ((keysOf g).foldl
      (fun st node => st.bind (fun vcs =>
        if node ∈ vcs.1 then some vcs
        else (dfsCU g (g.length + 1) node vcs.1 []).map (fun vc => (vc.1, vcs.2 ++ [vc.2]))))
      (some ([], []))).map Prod.snd

/-- `getConnectedComponents(adjList, bidirectional = false)`
(`src/tree.js` 331–343). -/
def getConnectedComponents (g : AdjList) (bidirectional : Bool) : Option (List AdjList) :=
  if bidirectional then getConnectedComponents_undirected g
  else getConnectedComponents_directed g

/-!
## Component-level insert/remove operations (`src/tree.js` 346–487)
-/

/-- The inner search of the neighbor-component gathering loop
(`src/tree.js` 364–374): find the first component containing the neighbor and
splice it out (`components.splice(components.indexOf(component), 1)`). -/
def removeFirstContaining : List AdjList → String → Option (AdjList × List AdjList)
  | [], _ => none
  | c :: rest, nb =>
    if keyMem c nb then some (c, rest)
    else (removeFirstContaining rest nb).map (fun cr => (cr.1, c :: cr.2))

/-- The gathering loop of `addNodetoAdjacencyListComponents`: for each
neighbor in order, move the first component containing it (if any) from the
partition into the gathered list.  (The source's `includes` re-check never
fires because a found component is spliced out immediately.) -/
def gatherNeighborComponents (cs : List AdjList) (neighbors : List String) :
    List AdjList × List AdjList :=
  neighbors.foldl
    (fun rg nb =>
      match removeFirstContaining rg.1 nb with
      | some cr => (cr.2, rg.2 ++ [cr.1])
      | none => rg)
    (cs, [])

/-- `addNodetoAdjacencyListComponents(components, node, neighbors)`
(`src/tree.js` 346–383, the lower-case `to` matches the source). -/
def addNodetoAdjacencyListComponents (cs : List AdjList) (node : String)
    (neighbors : List String) : List AdjList :=
  if neighbors.isEmpty then cs ++ [[(node, [])]]
  else
    let rg := gatherNeighborComponents cs neighbors
    let merged := mergeAdjacencyListsOfUnconnectedGraphs rg.2
    rg.1 ++ [addNodeToAdjacencyList merged node neighbors]

/-- `removeNodeFromAdjacencyListComponents(components, node)`
(`src/tree.js` 386–414): strip the node from the first component holding it;
drop the component if it became empty, replace it by its connected fragments
(computed with the `bidirectional = false` default, i.e. the weak/directed
scan) if it split, otherwise leave it in place. -/
def removeNodeFromAdjacencyListComponents : List AdjList → String → Option (List AdjList)
  | [], _ => some []
  | c :: rest, node =>
    if keyMem c node then
      let c1 := removeNodeFromAdjacencyList c node
      if c1.isEmpty then some rest
      else
        (getConnectedComponents c1 false).map (fun frags =>
          if frags.length > 1 then rest ++ frags else c1 :: rest)
    else (removeNodeFromAdjacencyListComponents rest node).map (fun cs1 => c :: cs1)

/-- `addEdgeToAdjacencyListComponents(components, parent, child)`
(`src/tree.js` 417–457).  Element identity in the JS array is modelled
positionally: `indexOf` of a found component is its index, `indexOf(undefined)`
is `-1` and `splice(-1, 1)` silently removes the LAST element of the array
(a no-op on an empty array).  When neither endpoint is found, both variables
are `undefined`, the `===` branch is taken, and `addEdgeToAdjacencyList`
dereferences `undefined`: `none`. -/
def addEdgeToAdjacencyListComponents (cs : List AdjList) (parentNode childNode : String) :
    Option (List AdjList) :=
  let ip := cs.findIdx? (fun comp => decide (keyMem comp parentNode))
  let ic := cs.findIdx? (fun comp => decide (keyMem comp childNode))
  match ip, ic with
  | none, none => none
  | some a, some b =>
    if a = b then
      (addEdgeToAdjacencyList ((cs.get? a).getD []) parentNode childNode false).map
        (fun comp1 => cs.set a comp1)
    else
      let cs2 := (cs.eraseIdx a).eraseIdx (if a < b then b - 1 else b)
      let merged := objAssign (objAssign [] ((cs.get? a).getD [])) ((cs.get? b).getD [])
      (addEdgeToAdjacencyList merged parentNode childNode false).map
        (fun merged1 => cs2 ++ [merged1])
  | some a, none =>
      let cs2 := (cs.eraseIdx a).dropLast
      let merged := objAssign [] ((cs.get? a).getD [])
      (addEdgeToAdjacencyList merged parentNode childNode false).map
        (fun merged1 => cs2 ++ [merged1])
  | none, some b =>
      let cs2 := if b = cs.length - 1 then cs.dropLast.dropLast else (cs.dropLast).eraseIdx b
      let merged := objAssign [] ((cs.get? b).getD [])
      (addEdgeToAdjacencyList merged parentNode childNode false).map
        (fun merged1 => cs2 ++ [merged1])

/-- `removeEdgeFromAdjacencyListComponents(components, parent, child)`
(`src/tree.js` 460–487): find the first component containing BOTH endpoints
(none found leaves `parentComponent` `undefined` and the edge removal throws),
remove the edge in place, then split the component if the weak-connectivity
re-scan (`bidirectional = false` default) finds more than one fragment. -/
def removeEdgeFromAdjacencyListComponents (cs : List AdjList) (parentNode childNode : String) :
    Option (List AdjList) :=
  match cs.findIdx? (fun comp => decide (keyMem comp parentNode ∧ keyMem comp childNode)) with
  | none => none
  | some i =>
    (removeEdgeFromAdjacencyList ((cs.get? i).getD []) parentNode childNode false).bind
      (fun comp1 =>
        (getConnectedComponents comp1 false).map (fun frags =>
          if frags.length > 1 then (cs.eraseIdx i) ++ frags else cs.set i comp1))

/-!
## Rooted nested-list output (`src/tree.js` 10–42, `src/unnamed/part_005` 1–21)
-/

/-- The output `{ id, children: [...] }` objects. -/
inductive NestedTree : Type where
  | node (id : String) (children : List NestedTree)

/-- The `id` field. -/
def NestedTree.id : NestedTree → String
  | .node i _ => i

/-- The `children` field. -/
def NestedTree.children : NestedTree → List NestedTree
  | .node _ cs => cs

mutual

/-- All node ids of a rooted tree, in preorder. -/
def idsOf : NestedTree → List String
  | .node i cs => i :: idsOfList cs

/-- All node ids of a forest, in preorder. -/
def idsOfList : List NestedTree → List String
  | [] => []
  | t :: ts => idsOf t ++ idsOfList ts

end

/-- The JS default-root logic `if (!root) root = Object.keys(adjList)[0]`
(`src/tree.js` 11–13, `src/unnamed/part_005` 4–6): a missing, `null` or
empty-string root (all falsy) is replaced by the first key; `none` here means
the JS variable is `undefined` (empty object) and the DFS throws. -/
def resolveRoot (g : AdjList) (root : Option String) : Option String :=
  match root with
  | some r => if r = "" then (keysOf g).head? else some r
  | none => (keysOf g).head?

/-- Fuel that dominates the depth of any converter DFS: every call visits a
previously unvisited node drawn from the keys, the neighbor values, or the
root. -/
def convFuel (g : AdjList) : Nat :=
  g.length + (g.map (fun kv => kv.2.length)).sum + 1

/-- The DFS of `treeAdjacencyListToNestedList` (`src/tree.js` 27–39):
candidate children are the de-duplicated concatenation of forward neighbors
and reverse edges, and the visited set is re-tested immediately before each
recursive call (`if (!visited.has(child))`). -/
def dfsNested (g rev : AdjList) : Nat → String → List String →
    Option (List String × NestedTree)
  | 0, _, _ => none
  | fuel + 1, node, vis =>
    let vis1 := vis ++ [node]
    match lookupA g node with
    | none => none
    | some nbrs =>
      let children := dedupFirst (nbrs ++ valD rev node)
      (children.foldl
          (fun st child => st.bind (fun vts =>
            if child ∈ vts.1 then some vts
            else (dfsNested g rev fuel child vts.1).map (fun vt => (vt.1, vts.2 ++ [vt.2]))))
          (some (vis1, []))).map
        (fun vts => (vts.1, NestedTree.node node vts.2))

/-- Child loop step of `dfsNested`, named for the proofs below. -/
def nestedStep (g rev : AdjList) (fuel : Nat)
    (st : Option (List String × List NestedTree)) (child : String) :
    Option (List String × List NestedTree) :=
  st.bind (fun vts =>
    if child ∈ vts.1 then some vts
    else (dfsNested g rev fuel child vts.1).map (fun vt => (vt.1, vts.2 ++ [vt.2])))

/-- `dfsNested` at positive fuel, phrased with the named loop step. -/
theorem dfsNested_succ (g rev : AdjList) (fuel : Nat) (node : String) (vis : List String) :
    dfsNested g rev (fuel + 1) node vis =
      match lookupA g node with
      | none => none
      | some nbrs =>
        ((dedupFirst (nbrs ++ valD rev node)).foldl (nestedStep g rev fuel)
            (some (vis ++ [node], []))).map
          (fun vts => (vts.1, NestedTree.node node vts.2)) := rfl

/-- `treeAdjacencyListToNestedList(adjList, root = null)` (`src/tree.js`
10–42). -/
def treeAdjacencyListToNestedList (g : AdjList) (root : Option String) : Option NestedTree :=
  match resolveRoot g root with
  | none => none
  | some r =>
    let rev := getReverseAdjacencyList g
    (dfsNested g rev (convFuel g) r []).map Prod.snd

namespace Part005

/-- `makeAdjacencyListBidirectional(adjacencyList)` of
`src/unnamed/part_005` (371–388): never throws; pushes every forward edge
(duplicates included) and appends each missing reverse edge. -/
def makeAdjacencyListBidirectional (g : AdjList) : AdjList :=
  g.foldl
    (fun s kv =>
      let s1 := if keyMem s kv.1 then s else objSet s kv.1 []
      kv.2.foldl
        (fun s2 nb =>
          let s3 := objSet s2 kv.1 (valD s2 kv.1 ++ [nb])
          if keyMem s3 nb then
            if kv.1 ∈ valD s3 nb then s3 else objSet s3 nb (valD s3 nb ++ [kv.1])
          else objSet s3 nb [kv.1])
        s1)
    []

/-- The DFS of the `src/unnamed/part_005` variant of
`treeAdjacencyListToNestedList` (lines 9–18): the children are filtered
against the visited set ONCE, before the loop, and each child is then visited
unconditionally — there is no re-check inside `forEach`. -/
def dfs5 (bi : AdjList) : Nat → String → List String → Option (List String × NestedTree)
  | 0, _, _ => none
  | fuel + 1, node, vis =>
    let vis1 := vis ++ [node]
    match lookupA bi node with
    | none => none
    | some nbrs =>
      let children := nbrs.filter (fun child => child ∉ vis1)
      (children.foldl
          (fun st child => st.bind (fun vts =>
            (dfs5 bi fuel child vts.1).map (fun vt => (vt.1, vts.2 ++ [vt.2]))))
          (some (vis1, []))).map
        (fun vts => (vts.1, NestedTree.node node vts.2))

/-- `treeAdjacencyListToNestedList(adjList, root = null, bidirectional = true)`
of `src/unnamed/part_005` (lines 1–21). -/
def treeAdjacencyListToNestedList (g : AdjList) (root : Option String)
    (bidirectional : Bool) : Option NestedTree :=
  let biAdjList := if bidirectional then g else makeAdjacencyListBidirectional g
  match resolveRoot biAdjList root with
  | none => none
  | some r => (dfs5 biAdjList (convFuel biAdjList) r []).map Prod.snd

end Part005

/-!
## Association-list infrastructure lemmas
-/

theorem lookupA_eq_none_iff {β : Type} (g : JsObj β) (n : String) :
    lookupA g n = none ↔ n ∉ keysOf g := by
  induction g with
  | nil => simp [lookupA, keysOf]
  | cons kv rest ih =>
    obtain ⟨k, v⟩ := kv
    by_cases h : k = n
    · subst h
      simp [lookupA, keysOf]
    · simp only [lookupA, if_neg h, keysOf, List.map_cons, List.mem_cons]
      rw [ih]
      simp [keysOf, Ne.symm h]

theorem keyMem_iff_mem_keysOf {β : Type} (g : JsObj β) (n : String) :
    keyMem g n ↔ n ∈ keysOf g := by
  unfold keyMem
  rw [Option.isSome_iff_ne_none]
  constructor
  · intro h
    by_contra hn
    exact h ((lookupA_eq_none_iff g n).mpr hn)
  · intro h hn
    exact (lookupA_eq_none_iff g n).mp hn h

theorem lookupA_isSome_iff {β : Type} (g : JsObj β) (n : String) :
    (lookupA g n).isSome ↔ n ∈ keysOf g :=
  keyMem_iff_mem_keysOf g n

theorem mem_keysOf_of_lookupA {β : Type} {g : JsObj β} {n : String} {v : β}
    (h : lookupA g n = some v) : n ∈ keysOf g := by
  rw [← lookupA_isSome_iff, h]; rfl

theorem lookupA_objSet_self {β : Type} (g : JsObj β) (n : String) (v : β) :
    lookupA (objSet g n v) n = some v := by
  induction g with
  | nil => simp [objSet, lookupA]
  | cons kv rest ih =>
    obtain ⟨k, w⟩ := kv
    by_cases h : k = n <;> simp [objSet, lookupA, h, ih]

theorem lookupA_objSet_ne {β : Type} (g : JsObj β) (n m : String) (v : β) (h : m ≠ n) :
    lookupA (objSet g n v) m = lookupA g m := by
  induction g with
  | nil =>
    simp only [objSet, lookupA]
    rw [if_neg (fun hh => h hh.symm)]
  | cons kv rest ih =>
    obtain ⟨k, w⟩ := kv
    by_cases hk : k = n
    · subst hk
      have hkm : ¬ k = m := fun hm => h (hm ▸ rfl)
      simp [objSet, lookupA, hkm]
    · simp only [objSet, lookupA, if_neg hk]
      by_cases hm : k = m
      · simp [lookupA, hm]
      · simp [lookupA, hm, ih]

theorem keysOf_objSet_of_mem {β : Type} {g : JsObj β} {n : String} (v : β)
    (h : n ∈ keysOf g) : keysOf (objSet g n v) = keysOf g := by
  induction g with
  | nil => simp [keysOf] at h
  | cons kv rest ih =>
    obtain ⟨k, w⟩ := kv
    by_cases hk : k = n
    · simp [objSet, keysOf, hk]
    · have hr : n ∈ keysOf rest := by
        simp only [keysOf, List.map_cons, List.mem_cons] at h
        rcases h with h1 | h1
        · exact absurd h1.symm hk
        · exact h1
      simp only [objSet, keysOf, List.map_cons, if_neg hk]
      rw [show List.map Prod.fst (objSet rest n v) = keysOf (objSet rest n v) from rfl, ih hr]
      rfl

theorem keysOf_objSet_of_not_mem {β : Type} {g : JsObj β} {n : String} (v : β)
    (h : n ∉ keysOf g) : keysOf (objSet g n v) = keysOf g ++ [n] := by
  induction g with
  | nil => simp [objSet, keysOf]
  | cons kv rest ih =>
    obtain ⟨k, w⟩ := kv
    simp only [keysOf, List.map_cons, List.mem_cons] at h
    push_neg at h
    have hk : ¬ k = n := fun hh => h.1 hh.symm
    simp only [objSet, keysOf, List.map_cons, if_neg hk, List.cons_append]
    rw [show List.map Prod.fst (objSet rest n v) = keysOf (objSet rest n v) from rfl,
      ih (by simpa [keysOf] using h.2)]
    rfl

theorem mem_keysOf_objSet {β : Type} (g : JsObj β) (n m : String) (v : β) :
    m ∈ keysOf (objSet g n v) ↔ m ∈ keysOf g ∨ m = n := by
  by_cases h : n ∈ keysOf g
  · rw [keysOf_objSet_of_mem v h]
    constructor
    · exact Or.inl
    · rintro (hm | hm)
      · exact hm
      · exact hm ▸ h
  · rw [keysOf_objSet_of_not_mem v h]; simp

theorem keysOf_objSet_nodup {β : Type} {g : JsObj β} {n : String} (v : β)
    (h : (keysOf g).Nodup) : (keysOf (objSet g n v)).Nodup := by
  by_cases hn : n ∈ keysOf g
  · rwa [keysOf_objSet_of_mem v hn]
  · rw [keysOf_objSet_of_not_mem v hn]
    simpa [List.nodup_append] using ⟨h, hn⟩

theorem lookupA_append {β : Type} (g h : JsObj β) (n : String) :
    lookupA (g ++ h) n = ((lookupA g n).orElse (fun _ => lookupA h n)) := by
  induction g with
  | nil => simp [lookupA]
  | cons kv rest ih =>
    obtain ⟨k, v⟩ := kv
    by_cases hk : k = n <;> simp [lookupA, hk, ih]

theorem keysOf_append {β : Type} (g h : JsObj β) :
    keysOf (g ++ h) = keysOf g ++ keysOf h := by
  simp [keysOf]

theorem mem_dedupSeen (l : List String) :
    ∀ (seen : List String) (x : String), x ∈ dedupSeen l seen ↔ x ∈ l ∧ x ∉ seen := by
  induction l with
  | nil => intro seen x; simp [dedupSeen]
  | cons y ys ih =>
    intro seen x
    by_cases hy : y ∈ seen
    · rw [dedupSeen, if_pos hy, ih]
      constructor
      · rintro ⟨h1, h2⟩
        exact ⟨List.mem_cons_of_mem _ h1, h2⟩
      · rintro ⟨h1, h2⟩
        rcases List.mem_cons.mp h1 with h1 | h1
        · exact absurd (h1 ▸ hy) h2
        · exact ⟨h1, h2⟩
    · rw [dedupSeen, if_neg hy]
      by_cases hx : x = y
      · subst hx
        simp [hy]
      · simp only [List.mem_cons, hx, false_or]
        rw [ih]
        simp [hx]

theorem nodup_dedupSeen (l : List String) : ∀ (seen : List String), (dedupSeen l seen).Nodup := by
  induction l with
  | nil => intro seen; simp [dedupSeen]
  | cons y ys ih =>
    intro seen
    by_cases hy : y ∈ seen
    · rw [dedupSeen, if_pos hy]; exact ih seen
    · rw [dedupSeen, if_neg hy]
      refine List.nodup_cons.mpr ⟨fun hc => ?_, ih _⟩
      exact ((mem_dedupSeen ys (y :: seen) y).mp hc).2 (List.mem_cons_self _ _)

theorem dedupSeen_eq_filter (b : List String) (hb : b.Nodup) :
    ∀ (seen : List String), dedupSeen b seen = b.filter (fun y => y ∉ seen) := by
  induction b with
  | nil => intro seen; rfl
  | cons y ys ih =>
    intro seen
    rcases List.nodup_cons.mp hb with ⟨hy, hys⟩
    by_cases h : y ∈ seen
    · rw [dedupSeen, if_pos h, List.filter_cons_of_neg (by simpa using h)]
      exact ih hys seen
    · rw [dedupSeen, if_neg h, List.filter_cons_of_pos (by simpa using h)]
      rw [ih hys (y :: seen)]
      congr 1
      apply List.filter_congr
      intro a ha
      have hay : a ≠ y := fun hh => hy (hh ▸ ha)
      simp [hay]

theorem dedupSeen_append_ex : ∀ (a b seen : List String),
    ∃ s2, dedupSeen (a ++ b) seen = dedupSeen a seen ++ dedupSeen b s2 ∧
      (∀ x, x ∈ s2 ↔ x ∈ a ∨ x ∈ seen) := by
  intro a
  induction a with
  | nil =>
    intro b seen
    exact ⟨seen, rfl, by simp⟩
  | cons y ys ih =>
    intro b seen
    by_cases hy : y ∈ seen
    · obtain ⟨s2, h1, h2⟩ := ih b seen
      refine ⟨s2, ?_, ?_⟩
      · rw [List.cons_append, dedupSeen, if_pos hy, dedupSeen, if_pos hy, h1]
      · intro x
        rw [h2 x]
        constructor
        · rintro (h | h)
          · exact Or.inl (List.mem_cons_of_mem _ h)
          · exact Or.inr h
        · rintro (h | h)
          · rcases List.mem_cons.mp h with h | h
            · exact Or.inr (h ▸ hy)
            · exact Or.inl h
          · exact Or.inr h
    · obtain ⟨s2, h1, h2⟩ := ih b (y :: seen)
      refine ⟨s2, ?_, ?_⟩
      · rw [List.cons_append, dedupSeen, if_neg hy, dedupSeen, if_neg hy, h1,
          List.cons_append]
      · intro x
        rw [h2 x]
        simp only [List.mem_cons]
        tauto

theorem mem_dedupFirst (l : List String) (x : String) : x ∈ dedupFirst l ↔ x ∈ l := by
  rw [dedupFirst, mem_dedupSeen]
  simp

theorem nodup_dedupFirst (l : List String) : (dedupFirst l).Nodup :=
  nodup_dedupSeen l []

theorem dedupFirst_eq_self {l : List String} (h : l.Nodup) : dedupFirst l = l := by
  rw [dedupFirst, dedupSeen_eq_filter l h []]
  exact List.filter_eq_self.mpr (fun a _ => by simp)

theorem dedupFirst_append {a b : List String} (ha : a.Nodup) (hb : b.Nodup) :
    dedupFirst (a ++ b) = a ++ b.filter (fun y => y ∉ a) := by
  obtain ⟨s2, h1, h2⟩ := dedupSeen_append_ex a b []
  rw [dedupFirst, h1]
  rw [show dedupSeen a [] = dedupFirst a from rfl, dedupFirst_eq_self ha]
  congr 1
  rw [dedupSeen_eq_filter b hb s2]
  apply List.filter_congr
  intro x _
  have := h2 x
  simp only [List.not_mem_nil, or_false] at this
  by_cases hx : x ∈ a
  · simp [this, hx]
  · simp [this, hx]

/-!
## Lemmas about the adjacency-list primitives
-/

theorem registerNbrs_lookup_mem (g : AdjList) (nbrs : List String) (k : String)
    (h : k ∈ keysOf g) : lookupA (registerNbrs g nbrs) k = lookupA g k := by
  induction nbrs generalizing g with
  | nil => rfl
  | cons nb rest ih =>
    show lookupA (registerNbrs (if keyMem g nb then g else g ++ [(nb, [])]) rest) k = _
    by_cases hm : keyMem g nb
    · rw [if_pos hm, ih g h]
    · rw [if_neg hm, ih _ (by rw [keysOf_append]; exact List.mem_append_left _ h)]
      rw [lookupA_append]
      rcases Option.isSome_iff_exists.mp ((lookupA_isSome_iff g k).mpr h) with ⟨v, hv⟩
      simp [hv]

theorem registerNbrs_lookup_not_mem (g : AdjList) (nbrs : List String) (k : String)
    (h : k ∉ keysOf g) :
    lookupA (registerNbrs g nbrs) k = if k ∈ nbrs then some [] else none := by
  induction nbrs generalizing g with
  | nil =>
    show lookupA g k = _
    simp [lookupA_eq_none_iff, h]
  | cons nb rest ih =>
    show lookupA (registerNbrs (if keyMem g nb then g else g ++ [(nb, [])]) rest) k = _
    by_cases hk : k = nb
    · subst hk
      by_cases hm : keyMem g k
      · exact absurd ((keyMem_iff_mem_keysOf g k).mp hm) h
      · rw [if_neg hm,
          registerNbrs_lookup_mem _ rest k
            (by rw [keysOf_append]; exact List.mem_append_right _ (by simp [keysOf]))]
        rw [lookupA_append, (lookupA_eq_none_iff g k).mpr h]
        simp [lookupA]
    · by_cases hm : keyMem g nb
      · rw [if_pos hm, ih g h]
        simp [hk]
      · rw [if_neg hm, ih _ (by
          rw [keysOf_append]
          intro hc
          rcases List.mem_append.mp hc with hc | hc
          · exact h hc
          · simp [keysOf] at hc
            exact hk hc)]
        simp [hk]

theorem registerNbrs_mem_keysOf (g : AdjList) (nbrs : List String) (k : String) :
    k ∈ keysOf (registerNbrs g nbrs) ↔ k ∈ keysOf g ∨ k ∈ nbrs := by
  by_cases h : k ∈ keysOf g
  · have := registerNbrs_lookup_mem g nbrs k h
    rw [← lookupA_isSome_iff, this, lookupA_isSome_iff]
    tauto
  · rw [← lookupA_isSome_iff, registerNbrs_lookup_not_mem g nbrs k h]
    by_cases hn : k ∈ nbrs <;> simp [hn, h]

theorem registerNbrs_keys_nodup (g : AdjList) (nbrs : List String)
    (h : (keysOf g).Nodup) : (keysOf (registerNbrs g nbrs)).Nodup := by
  induction nbrs generalizing g with
  | nil => exact h
  | cons nb rest ih =>
    show (keysOf (registerNbrs (if keyMem g nb then g else g ++ [(nb, [])]) rest)).Nodup
    by_cases hm : keyMem g nb
    · rw [if_pos hm]; exact ih g h
    · rw [if_neg hm]
      refine ih _ ?_
      rw [keysOf_append]
      rw [List.nodup_append]
      refine ⟨h, List.nodup_singleton _, ?_⟩
      intro a ha hb
      simp only [keysOf, List.map_cons, List.map_nil, List.mem_singleton] at hb
      subst hb
      exact hm ((keyMem_iff_mem_keysOf g a).mpr ha)

theorem addNode_mem_keysOf (g : AdjList) (n : String) (nbrs : List String) (k : String) :
    k ∈ keysOf (addNodeToAdjacencyList g n nbrs) ↔ k ∈ keysOf g ∨ k = n ∨ k ∈ nbrs := by
  unfold addNodeToAdjacencyList
  rw [mem_keysOf_objSet, registerNbrs_mem_keysOf]
  tauto

theorem addNode_keys_nodup (g : AdjList) (n : String) (nbrs : List String)
    (h : (keysOf g).Nodup) : (keysOf (addNodeToAdjacencyList g n nbrs)).Nodup := by
  unfold addNodeToAdjacencyList
  exact keysOf_objSet_nodup _ (registerNbrs_keys_nodup g nbrs h)

theorem addNode_lookup_self_of_some {g : AdjList} {n : String} {old : List String}
    (nbrs : List String) (h : lookupA g n = some old) :
    lookupA (addNodeToAdjacencyList g n nbrs) n = some (dedupFirst (old ++ nbrs)) := by
  unfold addNodeToAdjacencyList
  rw [registerNbrs_lookup_mem g nbrs n (mem_keysOf_of_lookupA h), h, lookupA_objSet_self]

theorem addNode_lookup_self_of_none {g : AdjList} {n : String} (nbrs : List String)
    (h1 : n ∉ keysOf g) (h2 : n ∉ nbrs) :
    lookupA (addNodeToAdjacencyList g n nbrs) n = some nbrs := by
  unfold addNodeToAdjacencyList
  rw [registerNbrs_lookup_not_mem g nbrs n h1, if_neg h2, lookupA_objSet_self]

theorem addNode_lookup_self_of_none_mem {g : AdjList} {n : String} (nbrs : List String)
    (h1 : n ∉ keysOf g) (h2 : n ∈ nbrs) :
    lookupA (addNodeToAdjacencyList g n nbrs) n = some (dedupFirst nbrs) := by
  unfold addNodeToAdjacencyList
  rw [registerNbrs_lookup_not_mem g nbrs n h1, if_pos h2, lookupA_objSet_self]
  rfl

theorem addNode_lookup_other {g : AdjList} {n k : String} (nbrs : List String)
    (hk : k ≠ n) (h : k ∈ keysOf g) :
    lookupA (addNodeToAdjacencyList g n nbrs) k = lookupA g k := by
  unfold addNodeToAdjacencyList
  rw [lookupA_objSet_ne _ _ _ _ hk, registerNbrs_lookup_mem g nbrs k h]

theorem addNode_lookup_fresh {g : AdjList} {n k : String} (nbrs : List String)
    (hk : k ≠ n) (h1 : k ∉ keysOf g) (h2 : k ∈ nbrs) :
    lookupA (addNodeToAdjacencyList g n nbrs) k = some [] := by
  unfold addNodeToAdjacencyList
  rw [lookupA_objSet_ne _ _ _ _ hk, registerNbrs_lookup_not_mem g nbrs k h1, if_pos h2]

theorem removeNode_keysOf (g : AdjList) (n : String) :
    keysOf (removeNodeFromAdjacencyList g n) = (keysOf g).filter (fun k => k ≠ n) := by
  induction g with
  | nil => rfl
  | cons kv rest ih =>
    obtain ⟨k, v⟩ := kv
    have hdef : removeNodeFromAdjacencyList ((k, v) :: rest) n
        = List.filter (fun kv => decide (kv.1 ≠ n))
            ((k, v.filter (fun nb => nb ≠ n)) ::
              List.map (fun kv => (kv.1, kv.2.filter (fun nb => nb ≠ n))) rest) := rfl
    rw [hdef]
    have hkeys : keysOf ((k, v) :: rest) = k :: keysOf rest := rfl
    rw [hkeys]
    by_cases hk : k = n
    · rw [List.filter_cons_of_neg (by simp [hk]), List.filter_cons_of_neg (by simp [hk])]
      exact ih
    · rw [List.filter_cons_of_pos (by simp [hk]), List.filter_cons_of_pos (by simp [hk])]
      have : keysOf ((k, v.filter (fun nb => nb ≠ n)) ::
          List.filter (fun kv => decide (kv.1 ≠ n))
            (List.map (fun kv => (kv.1, kv.2.filter (fun nb => nb ≠ n))) rest))
          = k :: keysOf (removeNodeFromAdjacencyList rest n) := rfl
      rw [this, ih]

theorem removeNode_lookup (g : AdjList) (n k : String) (hk : k ≠ n) :
    lookupA (removeNodeFromAdjacencyList g n) k
      = (lookupA g k).map (fun l => l.filter (fun nb => nb ≠ n)) := by
  induction g with
  | nil => rfl
  | cons kv rest ih =>
    obtain ⟨kk, v⟩ := kv
    have hdef : removeNodeFromAdjacencyList ((kk, v) :: rest) n
        = List.filter (fun kv => decide (kv.1 ≠ n))
            ((kk, v.filter (fun nb => nb ≠ n)) ::
              List.map (fun kv => (kv.1, kv.2.filter (fun nb => nb ≠ n))) rest) := rfl
    rw [hdef]
    by_cases h1 : kk = n
    · rw [List.filter_cons_of_neg (by simp [h1])]
      have h2 : ¬ kk = k := fun hh => hk (by rw [← hh, h1])
      have hr : lookupA ((kk, v) :: rest) k = lookupA rest k := by
        simp only [lookupA, if_neg h2]
      rw [hr]
      exact ih
    · rw [List.filter_cons_of_pos (by simp [h1])]
      by_cases h2 : kk = k
      · simp only [lookupA, if_pos h2]
        rfl
      · have hr : lookupA ((kk, v) :: rest) k = lookupA rest k := by
          simp only [lookupA, if_neg h2]
        have hl : lookupA ((kk, v.filter (fun nb => nb ≠ n)) ::
            List.filter (fun kv => decide (kv.1 ≠ n))
              (List.map (fun kv => (kv.1, kv.2.filter (fun nb => nb ≠ n))) rest)) k
            = lookupA (removeNodeFromAdjacencyList rest n) k := by
          simp only [lookupA, if_neg h2]
          rfl
        rw [hl, hr]
        exact ih

theorem removeNode_of_absent (g : AdjList) (n : String)
    (h1 : n ∉ keysOf g) (h2 : ∀ kv ∈ g, n ∉ kv.2) :
    removeNodeFromAdjacencyList g n = g := by
  induction g with
  | nil => rfl
  | cons kv rest ih =>
    obtain ⟨k, v⟩ := kv
    have h1r : n ∉ keysOf rest := fun hc =>
      h1 (by simp only [keysOf, List.map_cons, List.mem_cons]; exact Or.inr hc)
    have hk : ¬ k = n := fun hh => h1 (by simp [keysOf, hh])
    have hdef : removeNodeFromAdjacencyList ((k, v) :: rest) n
        = List.filter (fun kv => decide (kv.1 ≠ n))
            ((k, v.filter (fun nb => nb ≠ n)) ::
              List.map (fun kv => (kv.1, kv.2.filter (fun nb => nb ≠ n))) rest) := rfl
    rw [hdef, List.filter_cons_of_pos (by simp [hk])]
    have hv : v.filter (fun nb => nb ≠ n) = v :=
      List.filter_eq_self.mpr (fun a ha => by
        have : a ≠ n := fun hh => h2 (k, v) (by simp) (hh ▸ ha)
        simpa using this)
    rw [hv]
    have hrest := ih h1r (fun kv hkv => h2 kv (List.mem_cons_of_mem _ hkv))
    exact congrArg (List.cons (k, v)) hrest

theorem objSet_lookup_self_eq {g : AdjList} {p : String} {l : List String}
    (h : lookupA g p = some l) : objSet g p l = g := by
  induction g with
  | nil => simp [lookupA] at h
  | cons kv rest ih =>
    obtain ⟨k, v⟩ := kv
    by_cases hk : k = p
    · subst hk
      have h2 : v = l := by simpa [lookupA] using h
      simp [objSet, h2]
    · simp only [lookupA, if_neg hk] at h
      simp [objSet, hk, ih h]

theorem removeEdgeOnce_noop {g : AdjList} {p c : String} {l : List String}
    (h : lookupA g p = some l) (hc : c ∉ l) : removeEdgeOnce g p c = some g := by
  unfold removeEdgeOnce
  rw [h]
  show some (objSet g p (l.filter (fun n => n ≠ c))) = some g
  rw [List.filter_eq_self.mpr (fun a ha => by
    have : a ≠ c := fun hh => hc (hh ▸ ha)
    simpa using this)]
  rw [objSet_lookup_self_eq h]

theorem objAssign_mem_keysOf (a b : AdjList) (k : String) :
    k ∈ keysOf (objAssign a b) ↔ k ∈ keysOf a ∨ k ∈ keysOf b := by
  unfold objAssign
  induction b generalizing a with
  | nil => simp [keysOf]
  | cons kv rest ih =>
    obtain ⟨kk, v⟩ := kv
    simp only [List.foldl_cons]
    rw [ih, mem_keysOf_objSet]
    simp only [keysOf, List.map_cons, List.mem_cons]
    tauto

theorem objAssign_keys_nodup (a b : AdjList) (h : (keysOf a).Nodup) :
    (keysOf (objAssign a b)).Nodup := by
  unfold objAssign
  induction b generalizing a with
  | nil => exact h
  | cons kv rest ih =>
    simp only [List.foldl_cons]
    exact ih _ (keysOf_objSet_nodup _ h)

theorem merge_mem_keysOf (ls : List AdjList) (k : String) :
    k ∈ keysOf (mergeAdjacencyListsOfUnconnectedGraphs ls) ↔ ∃ f ∈ ls, k ∈ keysOf f := by
  unfold mergeAdjacencyListsOfUnconnectedGraphs
  have main : ∀ (acc : AdjList),
      k ∈ keysOf (ls.foldl objAssign acc) ↔ k ∈ keysOf acc ∨ ∃ f ∈ ls, k ∈ keysOf f := by
    induction ls with
    | nil => intro acc; simp
    | cons c rest ih =>
      intro acc
      simp only [List.foldl_cons]
      rw [ih, objAssign_mem_keysOf]
      simp only [List.mem_cons]
      constructor
      · rintro ((h | h) | ⟨f, hf, h⟩)
        · exact Or.inl h
        · exact Or.inr ⟨c, Or.inl rfl, h⟩
        · exact Or.inr ⟨f, Or.inr hf, h⟩
      · rintro (h | ⟨f, (hf | hf), h⟩)
        · exact Or.inl (Or.inl h)
        · exact Or.inl (Or.inr (hf ▸ h))
        · exact Or.inr ⟨f, hf, h⟩
  rw [main []]
  simp [keysOf]

theorem merge_keys_nodup (ls : List AdjList) :
    (keysOf (mergeAdjacencyListsOfUnconnectedGraphs ls)).Nodup := by
  unfold mergeAdjacencyListsOfUnconnectedGraphs
  have main : ∀ (acc : AdjList), (keysOf acc).Nodup →
      (keysOf (ls.foldl objAssign acc)).Nodup := by
    induction ls with
    | nil => exact fun acc h => h
    | cons c rest ih =>
      intro acc h
      simp only [List.foldl_cons]
      exact ih _ (objAssign_keys_nodup _ _ h)
  exact main [] (by simp [keysOf])

/-!
## Partition predicates
-/

/-- No shared key between two components. -/
def disjointKeys (a b : AdjList) : Prop := ∀ x ∈ keysOf a, x ∉ keysOf b

instance (a b : AdjList) : Decidable (disjointKeys a b) := by
  unfold disjointKeys; infer_instance

/-- No node id is a key of two distinct components of the partition. -/
def PartitionDisjoint (cs : List AdjList) : Prop := List.Pairwise disjointKeys cs

instance (cs : List AdjList) : Decidable (PartitionDisjoint cs) := by
  unfold PartitionDisjoint; infer_instance

/-- Some component of the partition has `x` as a key. -/
def inPartition (cs : List AdjList) (x : String) : Prop := ∃ c ∈ cs, x ∈ keysOf c

instance (cs : List AdjList) (x : String) : Decidable (inPartition cs x) := by
  unfold inPartition; infer_instance

/-!
## C2: `isUndirectedTree` never checks connectivity
-/

/-- C2: the spec claims `isUndirectedTree` returns `true` only for graphs that
are both acyclic and connected ("the DFS visited-set spans every key"), and in
particular returns `false` on the disconnected input
`{"0":["1"],"2":["3"]}`.  The code has no such check: on the spec's own input
it actually throws a `TypeError` (the symmetrization spreads
`adjList["1"]`, which is `undefined`), and on the well-formed disconnected
acyclic forest `{"0":["1"],"1":["0"],"2":["3"],"3":["2"]}` it returns `true`,
because `isUndirectedAcyclicGraph` only runs a cycle hunt from the first key
and never compares the visited-set size with the node count. -/
theorem isUndirectedTree_missing_connectivity_check :
    isUndirectedTree [("0", ["1"]), ("2", ["3"])] = none ∧
    isUndirectedTree [("0", ["1"]), ("1", ["0"]), ("2", ["3"]), ("3", ["2"])] = some true :=
  ⟨rfl, rfl⟩

/-!
## C5: the directed-tree scenario
-/

/-- C5: on `{"0":["1","2"],"1":[],"2":["3"],"3":[]}` `isDirectedTree` returns
the root `"0"`, and building the nested list from root `"0"` — with either
implementation, `src/tree.js` or `src/unnamed/part_005` — yields exactly
`{id:"0", children:[{id:"1",children:[]},{id:"2",children:[{id:"3",children:[]}]}]}`
in that child order. -/
theorem directed_tree_scenario_eval :
    isDirectedTree [("0", ["1", "2"]), ("1", []), ("2", ["3"]), ("3", [])] = some (some "0") ∧
    treeAdjacencyListToNestedList [("0", ["1", "2"]), ("1", []), ("2", ["3"]), ("3", [])]
        (some "0")
      = some (.node "0" [.node "1" [], .node "2" [.node "3" []]]) ∧
    Part005.treeAdjacencyListToNestedList [("0", ["1", "2"]), ("1", []), ("2", ["3"]), ("3", [])]
        (some "0") true
      = some (.node "0" [.node "1" [], .node "2" [.node "3" []]]) :=
  ⟨rfl, rfl, rfl⟩

/-!
## C6: `addNodeToAdjacencyList`
-/

/-- C6 counterexample: when the node is not yet a key, the input neighbor list
is stored verbatim, so duplicate input entries survive, contradicting the
claim that the stored neighbor list never contains duplicates. -/
theorem addNode_duplicate_neighbors_kept :
    valD (addNodeToAdjacencyList [] "a" ["b", "b"]) "a" = ["b", "b"] ∧
    ¬ (valD (addNodeToAdjacencyList [] "a" ["b", "b"]) "a").Nodup :=
  ⟨rfl, by decide⟩

/-- C6 (amended): for duplicate-free input neighbors, `addNodeToAdjacencyList`
always succeeds, registers every absent neighbor as a key with an empty list,
and stores for `node` a duplicate-free list: the pre-existing entries in order
followed by the genuinely new entries in input order (the absent-node case
stores the input list itself). -/
theorem addNode_registers_and_dedups (g : AdjList) (node : String) (nbrs : List String)
    (hn : nbrs.Nodup) :
    (∀ nb ∈ nbrs, nb ∈ keysOf (addNodeToAdjacencyList g node nbrs)) ∧
    (∀ nb ∈ nbrs, nb ∉ keysOf g → nb ≠ node →
      lookupA (addNodeToAdjacencyList g node nbrs) nb = some []) ∧
    (valD (addNodeToAdjacencyList g node nbrs) node).Nodup ∧
    (node ∉ keysOf g → valD (addNodeToAdjacencyList g node nbrs) node = nbrs) ∧
    (∀ old, lookupA g node = some old → old.Nodup →
      valD (addNodeToAdjacencyList g node nbrs) node
        = old ++ nbrs.filter (fun x => x ∉ old)) := by
  refine ⟨?_, ?_, ?_, ?_, ?_⟩
  · intro nb hnb
    rw [addNode_mem_keysOf]
    exact Or.inr (Or.inr hnb)
  · intro nb hnb h1 h2
    exact addNode_lookup_fresh nbrs h2 h1 hnb
  · match hg : lookupA g node with
    | some old =>
      rw [valD, addNode_lookup_self_of_some nbrs hg]
      exact nodup_dedupFirst _
    | none =>
      have h1 : node ∉ keysOf g := (lookupA_eq_none_iff g node).mp hg
      by_cases h2 : node ∈ nbrs
      · rw [valD, addNode_lookup_self_of_none_mem nbrs h1 h2]
        exact nodup_dedupFirst _
      · rw [valD, addNode_lookup_self_of_none nbrs h1 h2]
        exact hn
  · intro h1
    by_cases h2 : node ∈ nbrs
    · rw [valD, addNode_lookup_self_of_none_mem nbrs h1 h2]
      simp [dedupFirst_eq_self hn]
    · rw [valD, addNode_lookup_self_of_none nbrs h1 h2]
      rfl
  · intro old hg ho
    rw [valD, addNode_lookup_self_of_some nbrs hg]
    simp only [Option.getD_some]
    exact dedupFirst_append ho hn

/-- C6 witness. -/
theorem addNode_registers_and_dedups_witness :
    (∀ nb ∈ ["c", "b"], nb ∈ keysOf (addNodeToAdjacencyList [("a", ["b"])] "a" ["c", "b"])) ∧
    (∀ nb ∈ ["c", "b"], nb ∉ keysOf [("a", ["b"])] → nb ≠ "a" →
      lookupA (addNodeToAdjacencyList [("a", ["b"])] "a" ["c", "b"]) nb = some []) ∧
    (valD (addNodeToAdjacencyList [("a", ["b"])] "a" ["c", "b"]) "a").Nodup ∧
    ("a" ∉ keysOf [("a", ["b"])] →
      valD (addNodeToAdjacencyList [("a", ["b"])] "a" ["c", "b"]) "a" = ["c", "b"]) ∧
    (∀ old, lookupA [("a", ["b"])] "a" = some old → old.Nodup →
      valD (addNodeToAdjacencyList [("a", ["b"])] "a" ["c", "b"]) "a"
        = old ++ ["c", "b"].filter (fun x => x ∉ old)) :=
  addNode_registers_and_dedups [("a", ["b"])] "a" ["c", "b"] (by decide)

/-!
## C8: removing a non-existent node or edge
-/

/-- C8 counterexample: removing the id `"b"`, absent from the key set but
present as a dangling neighbor, changes the graph; and removing an edge whose
parent is not a key throws (`undefined.filter`) instead of being a no-op. -/
theorem silent_noop_counterexample :
    removeNodeFromAdjacencyList [("a", ["b"])] "b" ≠ [("a", ["b"])] ∧
    removeEdgeFromAdjacencyList [] "x" "y" false = none :=
  ⟨by decide, rfl⟩

/-- C8 (amended): removing a node id that appears neither as a key nor inside
any neighbor list leaves the graph unchanged (and never faults), and removing
a non-existent edge is a silent no-op provided the parent node IS a key; with
an absent parent key the removal faults instead. -/
theorem remove_absent_noop :
    (∀ (g : AdjList) (node : String), node ∉ keysOf g → (∀ kv ∈ g, node ∉ kv.2) →
      removeNodeFromAdjacencyList g node = g) ∧
    (∀ (g : AdjList) (p c : String) (l : List String), lookupA g p = some l → c ∉ l →
      removeEdgeFromAdjacencyList g p c false = some g) := by
  constructor
  · exact removeNode_of_absent
  · intro g p c l h hc
    show removeEdgeOnce g p c = some g
    exact removeEdgeOnce_noop h hc

/-- C8 witness. -/
theorem remove_absent_noop_witness :
    removeNodeFromAdjacencyList [("a", [])] "z" = [("a", [])] ∧
    removeEdgeFromAdjacencyList [("a", ["b"])] "a" "z" false = some [("a", ["b"])] :=
  ⟨remove_absent_noop.1 [("a", [])] "z" (by decide) (by decide),
   remove_absent_noop.2 [("a", ["b"])] "a" "z" ["b"] (by decide) (by decide)⟩

/-!
## C1 counterexample and C4/C7 counterexamples
-/

/-- C1 counterexample: inserting the same isolated node twice yields two
components that both carry the key `"a"`, violating the claimed partition
disjointness after the second operation. -/
theorem components_partition_duplicate_insert :
    addNodetoAdjacencyListComponents (addNodetoAdjacencyListComponents [] "a" []) "a" []
      = [[("a", [])], [("a", [])]] ∧
    ¬ PartitionDisjoint [[("a", [])], [("a", [])]] :=
  ⟨rfl, by decide⟩

/-- C4 counterexample: the `src/unnamed/part_005` conversion filters the
children against the visited set only once, before the loop, so a cross edge
duplicates a node: on `{"0":["1","2"],"1":["2"],"2":[]}` with root `"0"` the
id `"2"` appears twice in the produced structure. -/
theorem part005_nested_list_duplicates_id :
    Part005.treeAdjacencyListToNestedList [("0", ["1", "2"]), ("1", ["2"]), ("2", [])]
        (some "0") true
      = some (.node "0" [.node "1" [.node "2" []], .node "2" []]) ∧
    ¬ (idsOf (.node "0" [.node "1" [.node "2" []], .node "2" []])).Nodup :=
  ⟨rfl, by decide⟩

/-- C7 counterexample: on a graph with a neighbor id absent from the key set,
`makeAdjacencyListBidirectional` (`src/tree.js`) spreads the missing entry and
throws, so it does not return the symmetric closure for every input graph. -/
theorem makeBidirectional_dangling_faults :
    makeAdjacencyListBidirectional [("a", ["b"])] = none := rfl

/-!
## Shape of the `src/tree.js` nested-list DFS (C4, C10)
-/

theorem idsOfList_append (ts1 ts2 : List NestedTree) :
    idsOfList (ts1 ++ ts2) = idsOfList ts1 ++ idsOfList ts2 := by
  induction ts1 with
  | nil => rfl
  | cons t ts ih =>
    show idsOf t ++ idsOfList (ts ++ ts2) = (idsOf t ++ idsOfList ts) ++ idsOfList ts2
    rw [ih, List.append_assoc]

theorem nestedFold_none (g rev : AdjList) (fuel : Nat) (l : List String) :
    l.foldl (nestedStep g rev fuel) none = none := by
  induction l with
  | nil => rfl
  | cons c rest ih => exact ih

theorem nestedFold_shape (g rev : AdjList) (fuel : Nat)
    (hM : ∀ (node : String) (vis v' : List String) (t : NestedTree),
      dfsNested g rev fuel node vis = some (v', t) → t.id = node ∧ v' = vis ++ idsOf t) :
    ∀ (children : List String) (v0 : List String) (ts0 : List NestedTree)
      (v' : List String) (ts' : List NestedTree),
      children.foldl (nestedStep g rev fuel) (some (v0, ts0)) = some (v', ts') →
      ∃ tsNew, ts' = ts0 ++ tsNew ∧ v' = v0 ++ idsOfList tsNew := by
  intro children
  induction children with
  | nil =>
    intro v0 ts0 v' ts' h
    simp only [List.foldl_nil, Option.some.injEq, Prod.mk.injEq] at h
    obtain ⟨hv, hts⟩ := h
    refine ⟨[], ?_, ?_⟩
    · rw [← hts]
      simp
    · rw [← hv]
      simp [idsOfList]
  | cons child rest ih =>
    intro v0 ts0 v' ts' h
    rw [List.foldl_cons] at h
    by_cases hc : child ∈ v0
    · rw [show nestedStep g rev fuel (some (v0, ts0)) child = some (v0, ts0) from by
        simp [nestedStep, hc]] at h
      exact ih v0 ts0 v' ts' h
    · match hd : dfsNested g rev fuel child v0 with
      | none =>
        rw [show nestedStep g rev fuel (some (v0, ts0)) child = none from by
          simp [nestedStep, hc, hd]] at h
        rw [nestedFold_none] at h
        exact absurd h (by simp)
      | some (v1, t1) =>
        rw [show nestedStep g rev fuel (some (v0, ts0)) child = some (v1, ts0 ++ [t1]) from by
          simp [nestedStep, hc, hd]] at h
        obtain ⟨hid, hv1⟩ := hM child v0 v1 t1 hd
        obtain ⟨tsNew, hts, hv⟩ := ih v1 (ts0 ++ [t1]) v' ts' h
        refine ⟨t1 :: tsNew, ?_, ?_⟩
        · rw [hts, List.append_assoc]
          rfl
        · rw [hv, hv1, List.append_assoc]
          rfl

theorem dfsNested_shape (g rev : AdjList) :
    ∀ (fuel : Nat) (node : String) (vis v' : List String) (t : NestedTree),
      dfsNested g rev fuel node vis = some (v', t) →
      t.id = node ∧ v' = vis ++ idsOf t := by
  intro fuel
  induction fuel with
  | zero =>
    intro node vis v' t h
    exact absurd h (by simp [dfsNested])
  | succ fuel ih =>
    intro node vis v' t h
    rw [dfsNested_succ] at h
    match hl : lookupA g node with
    | none => rw [hl] at h; exact absurd h (by simp)
    | some nbrs =>
      rw [hl] at h
      dsimp only at h
      match hf : (dedupFirst (nbrs ++ valD rev node)).foldl (nestedStep g rev fuel)
          (some (vis ++ [node], [])) with
      | none => rw [hf] at h; exact absurd h (by simp)
      | some (v2, ts2) =>
        rw [hf] at h
        simp only [Option.map_some', Option.some.injEq, Prod.mk.injEq] at h
        obtain ⟨hv2, ht⟩ := h
        obtain ⟨tsNew, hts, hv⟩ := nestedFold_shape g rev fuel ih _ _ _ _ _ hf
        have htsNew : ts2 = tsNew := by simpa using hts
        subst htsNew
        refine ⟨by rw [← ht]; rfl, ?_⟩
        rw [← ht, ← hv2, hv]
        show vis ++ [node] ++ idsOfList ts2 = vis ++ (node :: idsOfList ts2)
        simp

theorem nestedFold_nodup (g rev : AdjList) (fuel : Nat)
    (hN : ∀ (node : String) (vis v' : List String) (t : NestedTree),
      dfsNested g rev fuel node vis = some (v', t) → vis.Nodup → node ∉ vis → v'.Nodup) :
    ∀ (children : List String) (v0 : List String) (ts0 : List NestedTree)
      (v' : List String) (ts' : List NestedTree),
      children.foldl (nestedStep g rev fuel) (some (v0, ts0)) = some (v', ts') →
      v0.Nodup → v'.Nodup := by
  intro children
  induction children with
  | nil =>
    intro v0 ts0 v' ts' h h0
    simp only [List.foldl_nil, Option.some.injEq, Prod.mk.injEq] at h
    exact h.1 ▸ h0
  | cons child rest ih =>
    intro v0 ts0 v' ts' h h0
    rw [List.foldl_cons] at h
    by_cases hc : child ∈ v0
    · rw [show nestedStep g rev fuel (some (v0, ts0)) child = some (v0, ts0) from by
        simp [nestedStep, hc]] at h
      exact ih v0 ts0 v' ts' h h0
    · match hd : dfsNested g rev fuel child v0 with
      | none =>
        rw [show nestedStep g rev fuel (some (v0, ts0)) child = none from by
          simp [nestedStep, hc, hd]] at h
        rw [nestedFold_none] at h
        exact absurd h (by simp)
      | some (v1, t1) =>
        rw [show nestedStep g rev fuel (some (v0, ts0)) child = some (v1, ts0 ++ [t1]) from by
          simp [nestedStep, hc, hd]] at h
        exact ih v1 (ts0 ++ [t1]) v' ts' h (hN child v0 v1 t1 hd h0 hc)

theorem dfsNested_nodup (g rev : AdjList) :
    ∀ (fuel : Nat) (node : String) (vis v' : List String) (t : NestedTree),
      dfsNested g rev fuel node vis = some (v', t) → vis.Nodup → node ∉ vis → v'.Nodup := by
  intro fuel
  induction fuel with
  | zero =>
    intro node vis v' t h
    exact absurd h (by simp [dfsNested])
  | succ fuel ih =>
    intro node vis v' t h h0 hn
    rw [dfsNested_succ] at h
    match hl : lookupA g node with
    | none => rw [hl] at h; exact absurd h (by simp)
    | some nbrs =>
      rw [hl] at h
      dsimp only at h
      match hf : (dedupFirst (nbrs ++ valD rev node)).foldl (nestedStep g rev fuel)
          (some (vis ++ [node], [])) with
      | none => rw [hf] at h; exact absurd h (by simp)
      | some (v2, ts2) =>
        rw [hf] at h
        simp only [Option.map_some', Option.some.injEq, Prod.mk.injEq] at h
        have h1 : (vis ++ [node]).Nodup := by
          rw [List.nodup_append]
          exact ⟨h0, List.nodup_singleton _, by
            intro a ha hb
            rw [List.mem_singleton] at hb
            exact hn (hb ▸ ha)⟩
        have := nestedFold_nodup g rev fuel ih _ _ _ _ _ hf h1
        exact h.1 ▸ this

/-- C4 (amended): the `src/tree.js` implementation of
`treeAdjacencyListToNestedList` — the one that re-tests the visited set
immediately before each recursive call — produces, whenever it returns at all,
a nested structure in which every node id occurs at most once, for ANY
adjacency list and any root, cycles and cross edges included.  (The
`src/unnamed/part_005` variant does not have this property; see the
counterexample.) -/
theorem nested_list_ids_nodup (g : AdjList) (root : Option String) (t : NestedTree)
    (h : treeAdjacencyListToNestedList g root = some t) : (idsOf t).Nodup := by
  unfold treeAdjacencyListToNestedList at h
  match hr : resolveRoot g root with
  | none => rw [hr] at h; exact absurd h (by simp)
  | some r =>
    rw [hr] at h
    dsimp only at h
    match hd : dfsNested g (getReverseAdjacencyList g) (convFuel g) r [] with
    | none => rw [hd] at h; exact absurd h (by simp)
    | some (v', t') =>
      rw [hd] at h
      simp only [Option.map_some', Option.some.injEq] at h
      obtain ⟨-, hv⟩ := dfsNested_shape g (getReverseAdjacencyList g) (convFuel g) r [] v' t' hd
      have hn := dfsNested_nodup g (getReverseAdjacencyList g) (convFuel g) r [] v' t' hd
        (by simp) (by simp)
      rw [hv] at hn
      simpa using h ▸ hn

/-- C4 witness: on the cross-edge graph of the counterexample, the
`src/tree.js` implementation succeeds and its output has duplicate-free ids. -/
theorem nested_list_ids_nodup_witness :
    treeAdjacencyListToNestedList [("0", ["1", "2"]), ("1", ["2"]), ("2", [])] (some "0")
      = some (.node "0" [.node "1" [.node "2" []]]) ∧
    (idsOf (.node "0" [.node "1" [.node "2" []]])).Nodup :=
  ⟨rfl, nested_list_ids_nodup [("0", ["1", "2"]), ("1", ["2"]), ("2", [])] (some "0") _ rfl⟩

/-- C10: calling `treeAdjacencyListToNestedList` on a non-empty adjacency list
without supplying a root starts the DFS at the first key, so the id of the
top-level node of any returned structure is that first key (node ids are
strings, so `toString` is the identity). -/
theorem default_root_is_first_key (k : String) (v : List String) (rest : AdjList)
    (t : NestedTree) (h : treeAdjacencyListToNestedList ((k, v) :: rest) none = some t) :
    t.id = k := by
  unfold treeAdjacencyListToNestedList at h
  rw [show resolveRoot ((k, v) :: rest) none = some k from rfl] at h
  dsimp only at h
  match hd : dfsNested ((k, v) :: rest) (getReverseAdjacencyList ((k, v) :: rest))
      (convFuel ((k, v) :: rest)) k [] with
  | none => rw [hd] at h; exact absurd h (by simp)
  | some (v', t') =>
    rw [hd] at h
    simp only [Option.map_some', Option.some.injEq] at h
    obtain ⟨hid, -⟩ := dfsNested_shape _ _ _ _ _ _ _ hd
    exact h ▸ hid

/-- C10 witness. -/
theorem default_root_is_first_key_witness :
    treeAdjacencyListToNestedList [("5", ["6"]), ("6", [])] none
      = some (.node "5" [.node "6" []]) ∧
    (NestedTree.node "5" [.node "6" []]).id = "5" :=
  ⟨rfl, default_root_is_first_key "5" ["6"] [("6", [])] (.node "5" [.node "6" []]) rfl⟩

/-!
## Symmetric-closure machinery (C7, C9)
-/

/-- Every id appearing as a neighbor also appears as a key (the spec's §3
well-formedness condition on adjacency graphs). -/
def NoDangling (g : AdjList) : Prop := ∀ kv ∈ g, ∀ nb ∈ kv.2, nb ∈ keysOf g

instance (g : AdjList) : Decidable (NoDangling g) := by
  unfold NoDangling; infer_instance

theorem lookupA_mem {β : Type} : ∀ {g : JsObj β} {u : String} {l : β},
    lookupA g u = some l → (u, l) ∈ g := by
  intro g
  induction g with
  | nil => intro u l h; exact absurd h (by simp [lookupA])
  | cons kv rest ih =>
    intro u l h
    obtain ⟨k, v⟩ := kv
    by_cases hk : k = u
    · subst hk
      have h2 : v = l := by simpa [lookupA] using h
      simp [h2]
    · simp only [lookupA, if_neg hk] at h
      exact List.mem_cons_of_mem _ (ih h)

theorem lookupA_of_mem_nodup {β : Type} : ∀ {g : JsObj β} {u : String} {l : β},
    (keysOf g).Nodup → (u, l) ∈ g → lookupA g u = some l := by
  intro g
  induction g with
  | nil => intro u l _ h; simp at h
  | cons kv rest ih =>
    intro u l hnd h
    obtain ⟨k, v⟩ := kv
    rcases List.mem_cons.mp h with h1 | h1
    · rw [Prod.mk.injEq] at h1
      obtain ⟨hu, hv⟩ := h1
      simp only [lookupA]
      rw [if_pos hu.symm, hv]
    · have hk : ¬ k = u := by
        intro hh
        subst hh
        have : k ∈ keysOf rest := by
          simpa [keysOf] using ⟨l, h1⟩
        exact (List.nodup_cons.mp (by simpa [keysOf] using hnd)).1 this
      simp only [lookupA, if_neg hk]
      exact ih (List.nodup_cons.mp (by simpa [keysOf] using hnd)).2 h1

theorem mem_valD_cases {g : AdjList} {v x : String} (h : x ∈ valD g v) :
    ∃ l, lookupA g v = some l ∧ x ∈ l := by
  unfold valD at h
  match hl : lookupA g v with
  | none => rw [hl] at h; simp at h
  | some l => rw [hl] at h; exact ⟨l, rfl, h⟩

theorem mem_keysOf_of_mem_valD {g : AdjList} {v x : String} (h : x ∈ valD g v) :
    v ∈ keysOf g := by
  obtain ⟨l, hl, -⟩ := mem_valD_cases h
  exact mem_keysOf_of_lookupA hl

theorem noDangling_mem_valD {g : AdjList} (hcl : NoDangling g) {v x : String}
    (h : x ∈ valD g v) : x ∈ keysOf g := by
  obtain ⟨l, hl, hx⟩ := mem_valD_cases h
  exact hcl (v, l) (lookupA_mem hl) x hx

/-- Invariant of the outer loop of `makeAdjacencyListBidirectional` after the
entries with keys `dk` have been processed: the state's keys are those
processed keys together with their neighbors, and an edge `v → x` is recorded
exactly when it is an original edge of an installed node or the reverse of an
already-processed edge. -/
def BiInv (g : AdjList) (dk : List String) (s : AdjList) : Prop :=
  (∀ v, v ∈ keysOf s ↔ (v ∈ dk ∨ ∃ u ∈ dk, v ∈ valD g u)) ∧
  (keysOf s).Nodup ∧
  (∀ v x, x ∈ valD s v ↔ (v ∈ keysOf s ∧
    (x ∈ valD g v ∨ (x ∈ dk ∧ v ∈ valD g x))))

/-- Invariant inside the inner loop: the current node is installed and the
reverse edges of the neighbor prefix `p` are patched. -/
def BiInvMid (g : AdjList) (dk : List String) (node : String) (p : List String)
    (s : AdjList) : Prop :=
  (∀ v, v ∈ keysOf s ↔ (v ∈ dk ∨ v = node ∨ (∃ u ∈ dk, v ∈ valD g u) ∨ v ∈ p)) ∧
  (keysOf s).Nodup ∧
  (∀ v x, x ∈ valD s v ↔ (v ∈ keysOf s ∧
    (x ∈ valD g v ∨ (x ∈ dk ∧ v ∈ valD g x) ∨ (x = node ∧ v ∈ p))))

theorem valD_objSet_self (s : AdjList) (n : String) (l : List String) :
    valD (objSet s n l) n = l := by
  rw [valD, lookupA_objSet_self]
  rfl

theorem valD_objSet_ne (s : AdjList) (n m : String) (l : List String) (h : m ≠ n) :
    valD (objSet s n l) m = valD s m := by
  rw [valD, lookupA_objSet_ne _ _ _ _ h, valD]

theorem valD_eq_of_lookup {g : AdjList} {v : String} {l : List String}
    (h : lookupA g v = some l) : valD g v = l := by
  rw [valD, h]
  rfl

theorem biInv_start (g : AdjList) : BiInv g [] [] := by
  refine ⟨?_, by simp [keysOf], ?_⟩
  · intro v; simp [keysOf]
  · intro v x
    simp [valD, lookupA, keysOf]

theorem biInvMid_start {g : AdjList} {dk : List String} {s : AdjList} {node : String}
    {nbrs : List String} (hInv : BiInv g dk s) (hl : lookupA g node = some nbrs) :
    BiInvMid g dk node [] (if keyMem s node then s else objSet s node nbrs) := by
  obtain ⟨hK, hN, hM⟩ := hInv
  by_cases hmem : keyMem s node
  · rw [if_pos hmem]
    refine ⟨?_, hN, ?_⟩
    · intro v
      rw [hK v]
      constructor
      · rintro (h | h)
        · exact Or.inl h
        · exact Or.inr (Or.inr (Or.inl h))
      · rintro (h | h | h | h)
        · exact Or.inl h
        · subst h
          exact (hK v).mp ((keyMem_iff_mem_keysOf s v).mp hmem)
        · exact Or.inr h
        · simp at h
    · intro v x
      rw [hM v x]
      simp
  · rw [if_neg hmem]
    have hfresh : node ∉ keysOf s := fun h => hmem ((keyMem_iff_mem_keysOf s node).mpr h)
    refine ⟨?_, keysOf_objSet_nodup _ hN, ?_⟩
    · intro v
      rw [mem_keysOf_objSet, hK v]
      constructor
      · rintro ((h | h) | h)
        · exact Or.inl h
        · exact Or.inr (Or.inr (Or.inl h))
        · exact Or.inr (Or.inl h)
      · rintro (h | h | h | h)
        · exact Or.inl (Or.inl h)
        · exact Or.inr h
        · exact Or.inl (Or.inr h)
        · simp at h
    · intro v x
      by_cases hv : v = node
      · subst hv
        rw [valD_objSet_self, valD_eq_of_lookup hl]
        constructor
        · intro hx
          exact ⟨by rw [mem_keysOf_objSet]; exact Or.inr rfl, Or.inl hx⟩
        · rintro ⟨-, hx | hx | hx⟩
          · exact hx
          · exact absurd ((hK v).mpr (Or.inr ⟨x, hx.1, hx.2⟩)) hfresh
          · simp at hx
      · rw [valD_objSet_ne _ _ _ _ hv, hM v x, mem_keysOf_objSet]
        constructor
        · rintro ⟨h1, h2⟩
          refine ⟨Or.inl h1, ?_⟩
          rcases h2 with h2 | h2
          · exact Or.inl h2
          · exact Or.inr (Or.inl h2)
        · rintro ⟨h1, h2⟩
          rcases h1 with h1 | h1
          · refine ⟨h1, ?_⟩
            rcases h2 with h2 | h2 | h2
            · exact Or.inl h2
            · exact Or.inr h2
            · simp at h2
          · exact absurd h1 hv

theorem objSet_objSet {β : Type} (s : JsObj β) (n : String) (a b : β) :
    objSet (objSet s n a) n b = objSet s n b := by
  induction s with
  | nil => simp [objSet]
  | cons kv rest ih =>
    obtain ⟨k, v⟩ := kv
    by_cases hk : k = n <;> simp [objSet, hk, ih]

theorem biInvMid_present {g : AdjList} {dk : List String} {node : String}
    {p : List String} {s : AdjList} {nb : String}
    (hInv : BiInvMid g dk node p s) (h1 : nb ∈ keysOf s) (l : List String)
    (hl : ∀ x, x ∈ l ↔ (x ∈ valD s nb ∨ x = node)) :
    BiInvMid g dk node (p ++ [nb]) (objSet s nb l) := by
  obtain ⟨hK, hN, hM⟩ := hInv
  have hkeys : keysOf (objSet s nb l) = keysOf s := keysOf_objSet_of_mem l h1
  refine ⟨?_, by rw [hkeys]; exact hN, ?_⟩
  · intro v
    rw [hkeys]
    constructor
    · intro h
      rcases (hK v).mp h with h | h | h | h
      · exact Or.inl h
      · exact Or.inr (Or.inl h)
      · exact Or.inr (Or.inr (Or.inl h))
      · exact Or.inr (Or.inr (Or.inr (List.mem_append_left _ h)))
    · rintro (h | h | h | h)
      · exact (hK v).mpr (Or.inl h)
      · exact (hK v).mpr (Or.inr (Or.inl h))
      · exact (hK v).mpr (Or.inr (Or.inr (Or.inl h)))
      · rcases List.mem_append.mp h with h | h
        · exact (hK v).mpr (Or.inr (Or.inr (Or.inr h)))
        · rw [List.mem_singleton] at h
          exact h ▸ h1
  · intro v x
    by_cases hv : v = nb
    · subst hv
      rw [valD_objSet_self, hkeys]
      constructor
      · intro hx
        rcases (hl x).mp hx with hx | hx
        · rcases (hM v x).mp hx with ⟨hk1, hc⟩
          refine ⟨hk1, ?_⟩
          rcases hc with hc | hc | hc
          · exact Or.inl hc
          · exact Or.inr (Or.inl hc)
          · exact Or.inr (Or.inr ⟨hc.1, List.mem_append_left _ hc.2⟩)
        · exact ⟨h1, Or.inr (Or.inr ⟨hx, List.mem_append_right _ (by simp)⟩)⟩
      · rintro ⟨hk1, hc⟩
        rcases hc with hc | hc | hc
        · exact (hl x).mpr (Or.inl ((hM v x).mpr ⟨hk1, Or.inl hc⟩))
        · exact (hl x).mpr (Or.inl ((hM v x).mpr ⟨hk1, Or.inr (Or.inl hc)⟩))
        · exact (hl x).mpr (Or.inr hc.1)
    · rw [valD_objSet_ne _ _ _ _ hv, hkeys]
      rw [hM v x]
      constructor
      · rintro ⟨hk1, hc⟩
        refine ⟨hk1, ?_⟩
        rcases hc with hc | hc | hc
        · exact Or.inl hc
        · exact Or.inr (Or.inl hc)
        · exact Or.inr (Or.inr ⟨hc.1, List.mem_append_left _ hc.2⟩)
      · rintro ⟨hk1, hc⟩
        refine ⟨hk1, ?_⟩
        rcases hc with hc | hc | hc
        · exact Or.inl hc
        · exact Or.inr (Or.inl hc)
        · rcases List.mem_append.mp hc.2 with hp | hp
          · exact Or.inr (Or.inr ⟨hc.1, hp⟩)
          · rw [List.mem_singleton] at hp
            exact absurd hp hv

theorem biInvMid_fresh {g : AdjList} {dk : List String} {node : String}
    {p : List String} {s : AdjList} {nb : String} {gl : List String}
    (hInv : BiInvMid g dk node p s) (h1 : nb ∉ keysOf s)
    (hgl : lookupA g nb = some gl) (l : List String)
    (hl : ∀ x, x ∈ l ↔ (x ∈ gl ∨ x = node)) :
    BiInvMid g dk node (p ++ [nb]) (objSet s nb l) := by
  obtain ⟨hK, hN, hM⟩ := hInv
  have hkeys : keysOf (objSet s nb l) = keysOf s ++ [nb] := keysOf_objSet_of_not_mem l h1
  have hgv : valD g nb = gl := valD_eq_of_lookup hgl
  refine ⟨?_, by
    rw [hkeys, List.nodup_append]
    exact ⟨hN, List.nodup_singleton _, fun a ha hb => by
      rw [List.mem_singleton] at hb
      exact h1 (hb ▸ ha)⟩, ?_⟩
  · intro v
    rw [hkeys, List.mem_append, List.mem_singleton]
    constructor
    · rintro (h | h)
      · rcases (hK v).mp h with h | h | h | h
        · exact Or.inl h
        · exact Or.inr (Or.inl h)
        · exact Or.inr (Or.inr (Or.inl h))
        · exact Or.inr (Or.inr (Or.inr (List.mem_append_left _ h)))
      · exact Or.inr (Or.inr (Or.inr (List.mem_append_right _ (by simp [h]))))
    · rintro (h | h | h | h)
      · exact Or.inl ((hK v).mpr (Or.inl h))
      · exact Or.inl ((hK v).mpr (Or.inr (Or.inl h)))
      · exact Or.inl ((hK v).mpr (Or.inr (Or.inr (Or.inl h))))
      · rcases List.mem_append.mp h with h | h
        · exact Or.inl ((hK v).mpr (Or.inr (Or.inr (Or.inr h))))
        · rw [List.mem_singleton] at h
          exact Or.inr h
  · intro v x
    by_cases hv : v = nb
    · subst hv
      rw [valD_objSet_self, hkeys]
      constructor
      · intro hx
        refine ⟨by rw [List.mem_append]; exact Or.inr (by simp), ?_⟩
        rcases (hl x).mp hx with hx | hx
        · exact Or.inl (hgv ▸ hx)
        · exact Or.inr (Or.inr ⟨hx, List.mem_append_right _ (by simp)⟩)
      · rintro ⟨-, hc⟩
        rcases hc with hc | hc | hc
        · exact (hl x).mpr (Or.inl (hgv ▸ hc))
        · exact absurd ((hK v).mpr (Or.inr (Or.inr (Or.inl ⟨x, hc.1, hc.2⟩)))) h1
        · exact (hl x).mpr (Or.inr hc.1)
    · rw [valD_objSet_ne _ _ _ _ hv, hkeys, hM v x]
      constructor
      · rintro ⟨hk1, hc⟩
        refine ⟨by rw [List.mem_append]; exact Or.inl hk1, ?_⟩
        rcases hc with hc | hc | hc
        · exact Or.inl hc
        · exact Or.inr (Or.inl hc)
        · exact Or.inr (Or.inr ⟨hc.1, List.mem_append_left _ hc.2⟩)
      · rintro ⟨hk1, hc⟩
        rw [List.mem_append, List.mem_singleton] at hk1
        rcases hk1 with hk1 | hk1
        · refine ⟨hk1, ?_⟩
          rcases hc with hc | hc | hc
          · exact Or.inl hc
          · exact Or.inr (Or.inl hc)
          · rcases List.mem_append.mp hc.2 with hp | hp
            · exact Or.inr (Or.inr ⟨hc.1, hp⟩)
            · rw [List.mem_singleton] at hp
              exact absurd hp hv
        · exact absurd hk1 hv

theorem biInnerStep_preserves {g : AdjList} {dk : List String} {node : String}
    {p : List String} {s : AdjList} {nb : String}
    (hInv : BiInvMid g dk node p s) (hg : nb ∈ keysOf g) :
    ∃ s2, biInnerStep g node (some s) nb = some s2 ∧
      BiInvMid g dk node (p ++ [nb]) s2 := by
  obtain ⟨gl, hgl⟩ := Option.isSome_iff_exists.mp ((lookupA_isSome_iff g nb).mpr hg)
  by_cases hmem : keyMem s nb
  · obtain ⟨sl, hsl⟩ := Option.isSome_iff_exists.mp hmem
    have hslv : valD s nb = sl := valD_eq_of_lookup hsl
    by_cases hnode : node ∈ valD s nb
    · refine ⟨s, by simp [biInnerStep, hmem, hnode], ?_⟩
      have hres := biInvMid_present hInv ((keyMem_iff_mem_keysOf s nb).mp hmem)
        (valD s nb) (fun x => by
          constructor
          · exact Or.inl
          · rintro (h | h)
            · exact h
            · exact h ▸ hnode)
      rwa [hslv, objSet_lookup_self_eq hsl] at hres
    · refine ⟨objSet s nb (valD s nb ++ [node]), by simp [biInnerStep, hmem, hnode], ?_⟩
      exact biInvMid_present hInv ((keyMem_iff_mem_keysOf s nb).mp hmem)
        (valD s nb ++ [node]) (fun x => by
          rw [List.mem_append, List.mem_singleton])
  · have hfresh : nb ∉ keysOf s := fun h => hmem ((keyMem_iff_mem_keysOf s nb).mpr h)
    by_cases hnode : node ∈ gl
    · refine ⟨objSet s nb gl, ?_, ?_⟩
      · simp [biInnerStep, hmem, hgl, valD_objSet_self, hnode]
      · exact biInvMid_fresh hInv hfresh hgl gl (fun x => by
          constructor
          · exact Or.inl
          · rintro (h | h)
            · exact h
            · exact h ▸ hnode)
    · refine ⟨objSet s nb (gl ++ [node]), ?_, ?_⟩
      · simp [biInnerStep, hmem, hgl, valD_objSet_self, hnode, objSet_objSet]
      · exact biInvMid_fresh hInv hfresh hgl (gl ++ [node]) (fun x => by
          rw [List.mem_append, List.mem_singleton])

theorem biInner_fold {g : AdjList} {dk : List String} {node : String} :
    ∀ (q p : List String) (s : AdjList), BiInvMid g dk node p s →
      (∀ nb ∈ q, nb ∈ keysOf g) →
      ∃ s3, q.foldl (biInnerStep g node) (some s) = some s3 ∧
        BiInvMid g dk node (p ++ q) s3 := by
  intro q
  induction q with
  | nil =>
    intro p s h _
    refine ⟨s, rfl, ?_⟩
    rw [List.append_nil]
    exact h
  | cons nb rest ih =>
    intro p s h hq
    obtain ⟨s2, hs2, hInv2⟩ := biInnerStep_preserves h (hq nb (by simp))
    rw [List.foldl_cons, hs2]
    obtain ⟨s3, hs3, hInv3⟩ := ih (p ++ [nb]) s2 hInv2 (fun x hx => hq x (by simp [hx]))
    refine ⟨s3, hs3, ?_⟩
    rwa [List.append_assoc, List.singleton_append] at hInv3

theorem biInv_step {g : AdjList} {dk : List String} {node : String} {nbrs : List String}
    {s : AdjList} (h : BiInvMid g dk node nbrs s) (hv : valD g node = nbrs) :
    BiInv g (dk ++ [node]) s := by
  obtain ⟨hK, hN, hM⟩ := h
  refine ⟨?_, hN, ?_⟩
  · intro v
    rw [hK v]
    constructor
    · rintro (h | h | h | h)
      · exact Or.inl (List.mem_append_left _ h)
      · exact Or.inl (List.mem_append_right _ (by simp [h]))
      · obtain ⟨u, hu, hvu⟩ := h
        exact Or.inr ⟨u, List.mem_append_left _ hu, hvu⟩
      · exact Or.inr ⟨node, List.mem_append_right _ (by simp), by rw [hv]; exact h⟩
    · rintro (h | ⟨u, hu, hvu⟩)
      · rcases List.mem_append.mp h with h | h
        · exact Or.inl h
        · rw [List.mem_singleton] at h
          exact Or.inr (Or.inl h)
      · rcases List.mem_append.mp hu with hu | hu
        · exact Or.inr (Or.inr (Or.inl ⟨u, hu, hvu⟩))
        · rw [List.mem_singleton] at hu
          subst hu
          rw [hv] at hvu
          exact Or.inr (Or.inr (Or.inr hvu))
  · intro v x
    rw [hM v x]
    constructor
    · rintro ⟨hk1, hc⟩
      refine ⟨hk1, ?_⟩
      rcases hc with hc | hc | hc
      · exact Or.inl hc
      · exact Or.inr ⟨List.mem_append_left _ hc.1, hc.2⟩
      · exact Or.inr ⟨List.mem_append_right _ (by simp [hc.1]),
          by rw [hc.1, hv]; exact hc.2⟩
    · rintro ⟨hk1, hc⟩
      refine ⟨hk1, ?_⟩
      rcases hc with hc | hc
      · exact Or.inl hc
      · rcases List.mem_append.mp hc.1 with hd | hd
        · exact Or.inr (Or.inl ⟨hd, hc.2⟩)
        · rw [List.mem_singleton] at hd
          refine Or.inr (Or.inr ⟨hd, ?_⟩)
          have := hc.2
          rw [hd, hv] at this
          exact this

theorem biOuter_fold {g : AdjList} (hnd : (keysOf g).Nodup) (hcl : NoDangling g) :
    ∀ (todo done : AdjList), g = done ++ todo →
      ∀ (s : AdjList), BiInv g (keysOf done) s →
      ∃ bg, todo.foldl (biOuterStep g) (some s) = some bg ∧
        BiInv g (keysOf done ++ keysOf todo) bg := by
  intro todo
  induction todo with
  | nil =>
    intro done hg s h
    refine ⟨s, rfl, ?_⟩
    rw [show keysOf ([] : AdjList) = [] from rfl, List.append_nil]
    exact h
  | cons kv rest ih =>
    intro done hg s h
    obtain ⟨node, nbrs⟩ := kv
    have hmemg : (node, nbrs) ∈ g := by
      rw [hg]
      exact List.mem_append_right _ (by simp)
    have hlg : lookupA g node = some nbrs := lookupA_of_mem_nodup hnd hmemg
    have hstart := biInvMid_start h hlg
    have hq : ∀ nb ∈ nbrs, nb ∈ keysOf g := fun nb hnb => hcl (node, nbrs) hmemg nb hnb
    obtain ⟨s2, hs2, hInv2⟩ := biInner_fold nbrs [] _ hstart hq
    rw [List.nil_append] at hInv2
    rw [List.foldl_cons,
      show biOuterStep g (some s) (node, nbrs)
        = nbrs.foldl (biInnerStep g node)
            (some (if keyMem s node then s else objSet s node nbrs)) from rfl,
      hs2]
    have hInv3 : BiInv g (keysOf done ++ [node]) s2 :=
      biInv_step hInv2 (valD_eq_of_lookup hlg)
    have hdone2 : keysOf (done ++ [(node, nbrs)]) = keysOf done ++ [node] := by
      rw [keysOf_append]
      rfl
    obtain ⟨bg, hbg, hInvR⟩ := ih (done ++ [(node, nbrs)])
      (by rw [hg, List.append_assoc, List.singleton_append]) s2 (by rw [hdone2]; exact hInv3)
    refine ⟨bg, hbg, ?_⟩
    rw [hdone2] at hInvR
    rwa [List.append_assoc, List.singleton_append] at hInvR

theorem makeBidirectional_spec (g : AdjList) (hnd : (keysOf g).Nodup)
    (hcl : NoDangling g) :
    ∃ bg, makeAdjacencyListBidirectional g = some bg ∧
      (∀ v, v ∈ keysOf bg ↔ v ∈ keysOf g) ∧ (keysOf bg).Nodup ∧
      (∀ v x, x ∈ valD bg v ↔ (x ∈ valD g v ∨ v ∈ valD g x)) ∧ NoDangling bg := by
  obtain ⟨bg, hbg, hK, hN, hM⟩ := biOuter_fold hnd hcl g [] rfl [] (biInv_start g)
  rw [show keysOf ([] : AdjList) = [] from rfl, List.nil_append] at hK hM
  have hKeys : ∀ v, v ∈ keysOf bg ↔ v ∈ keysOf g := by
    intro v
    rw [hK v]
    constructor
    · rintro (h | ⟨u, hu, hvu⟩)
      · exact h
      · exact noDangling_mem_valD hcl hvu
    · exact Or.inl
  have hMem : ∀ v x, x ∈ valD bg v ↔ (x ∈ valD g v ∨ v ∈ valD g x) := by
    intro v x
    rw [hM v x]
    constructor
    · rintro ⟨-, hc | hc⟩
      · exact Or.inl hc
      · exact Or.inr hc.2
    · rintro (hc | hc)
      · exact ⟨(hKeys v).mpr (mem_keysOf_of_mem_valD hc), Or.inl hc⟩
      · exact ⟨(hKeys v).mpr (noDangling_mem_valD hcl hc),
          Or.inr ⟨mem_keysOf_of_mem_valD hc, hc⟩⟩
  refine ⟨bg, hbg, hKeys, hN, hMem, ?_⟩
  intro kv hkv nb hnb
  have hlbg : lookupA bg kv.1 = some kv.2 := lookupA_of_mem_nodup hN hkv
  have hv : nb ∈ valD bg kv.1 := by
    rw [valD_eq_of_lookup hlbg]
    exact hnb
  rcases (hMem kv.1 nb).mp hv with hc | hc
  · exact (hKeys nb).mpr (noDangling_mem_valD hcl hc)
  · exact (hKeys nb).mpr (mem_keysOf_of_mem_valD hc)

/-- C7 (amended): for every input graph with unique keys whose neighbor ids
all appear as keys, `makeAdjacencyListBidirectional` returns a fresh mapping
that is the symmetric closure of the input: same key set, and `u` is a
neighbor of `v` exactly when the input has the edge `v → u` or the edge
`u → v`.  (The embedding is pure, so the input argument is never modified.)
For an input with a dangling neighbor id the function instead throws — see
the counterexample. -/
theorem makeBidirectional_symmetric_closure (g : AdjList)
    (hnd : (keysOf g).Nodup) (hcl : NoDangling g) :
    ∃ bg, makeAdjacencyListBidirectional g = some bg ∧
      (∀ v, v ∈ keysOf bg ↔ v ∈ keysOf g) ∧
      (∀ u v, u ∈ valD bg v ↔ (u ∈ valD g v ∨ v ∈ valD g u)) := by
  obtain ⟨bg, h1, h2, -, h4, -⟩ := makeBidirectional_spec g hnd hcl
  exact ⟨bg, h1, h2, fun u v => h4 v u⟩

/-- C7 witness. -/
theorem makeBidirectional_symmetric_closure_witness :
    makeAdjacencyListBidirectional [("0", ["1"]), ("1", [])]
      = some [("0", ["1"]), ("1", ["0"])] ∧
    ("1" ∈ valD [("0", ["1"]), ("1", ["0"])] "0" ↔
      ("1" ∈ valD [("0", ["1"]), ("1", [])] "0" ∨ "0" ∈ valD [("0", ["1"]), ("1", [])] "1")) := by
  obtain ⟨bg, h1, h2, h3⟩ := makeBidirectional_symmetric_closure [("0", ["1"]), ("1", [])]
    (by decide) (by decide)
  have h0 : makeAdjacencyListBidirectional [("0", ["1"]), ("1", [])]
      = some [("0", ["1"]), ("1", ["0"])] := rfl
  have hbg : bg = [("0", ["1"]), ("1", ["0"])] := Option.some.inj (h1.symm.trans h0)
  exact ⟨h0, hbg ▸ h3 "1" "0"⟩

/-- C9: for every graph with unique keys whose neighbor ids all appear as
keys, `makeAdjacencyListBidirectional` is idempotent up to per-node edge sets:
applying it twice succeeds and yields, for every node, the same key set and
the same set of neighbors as applying it once. -/
theorem makeBidirectional_idempotent (g : AdjList) (hnd : (keysOf g).Nodup)
    (hcl : NoDangling g) :
    ∃ bg bbg, makeAdjacencyListBidirectional g = some bg ∧
      makeAdjacencyListBidirectional bg = some bbg ∧
      (∀ v, v ∈ keysOf bbg ↔ v ∈ keysOf bg) ∧
      (∀ v x, x ∈ valD bbg v ↔ x ∈ valD bg v) := by
  obtain ⟨bg, h1, hK1, hN1, hM1, hD1⟩ := makeBidirectional_spec g hnd hcl
  obtain ⟨bbg, h2, hK2, hN2, hM2, hD2⟩ := makeBidirectional_spec bg hN1 hD1
  refine ⟨bg, bbg, h1, h2, fun v => hK2 v, fun v x => ?_⟩
  rw [hM2 v x]
  constructor
  · rintro (h | h)
    · exact h
    · rcases (hM1 x v).mp h with hc | hc
      · exact (hM1 v x).mpr (Or.inr hc)
      · exact (hM1 v x).mpr (Or.inl hc)
  · exact Or.inl

/-- C9 witness. -/
theorem makeBidirectional_idempotent_witness :
    makeAdjacencyListBidirectional [("0", ["1"]), ("1", [])]
      = some [("0", ["1"]), ("1", ["0"])] ∧
    makeAdjacencyListBidirectional [("0", ["1"]), ("1", ["0"])]
      = some [("0", ["1"]), ("1", ["0"])] ∧
    ("0" ∈ valD [("0", ["1"]), ("1", ["0"])] "1" ↔
      "0" ∈ valD [("0", ["1"]), ("1", ["0"])] "1") := by
  obtain ⟨bg, bbg, h1, h2, hK, hM⟩ := makeBidirectional_idempotent
    [("0", ["1"]), ("1", [])] (by decide) (by decide)
  have h0 : makeAdjacencyListBidirectional [("0", ["1"]), ("1", [])]
      = some [("0", ["1"]), ("1", ["0"])] := rfl
  have e1 : bg = [("0", ["1"]), ("1", ["0"])] := Option.some.inj (h1.symm.trans h0)
  subst e1
  have h0b : makeAdjacencyListBidirectional [("0", ["1"]), ("1", ["0"])]
      = some [("0", ["1"]), ("1", ["0"])] := rfl
  have e2 : bbg = [("0", ["1"]), ("1", ["0"])] := Option.some.inj (h2.symm.trans h0b)
  subst e2
  exact ⟨h0, h0b, hM "1" "0"⟩

/-!
## Weak connectivity and the directed-components DFS (C1, C3)
-/

/-- One weak (direction-ignoring) adjacency step of `g`. -/
def weakAdj (g : AdjList) (x y : String) : Prop :=
  y ∈ valD g x ∨ x ∈ valD g y

instance (g : AdjList) (x y : String) : Decidable (weakAdj g x y) := by
  unfold weakAdj; infer_instance

theorem weakAdj_symm {g : AdjList} {x y : String} (h : weakAdj g x y) : weakAdj g y x :=
  h.symm

/-- Weak reachability: the reflexive-transitive closure of `weakAdj`. -/
def WeakReach (g : AdjList) : String → String → Prop :=
  Relation.ReflTransGen (weakAdj g)

theorem weakReach_symm {g : AdjList} {x y : String} (h : WeakReach g x y) :
    WeakReach g y x :=
  Relation.ReflTransGen.symmetric (fun _ _ hh => weakAdj_symm hh) h

/-- What one `dfsCC` call guarantees on success: the visited list is extended
by a block `new` of keys of `g` containing `node`, the component object gains
exactly the entries for `new` with their verbatim `g` neighbor lists, every
new node is weakly reachable from `node`, and every weak neighbor of a new
node is visited by the end of the call. -/
def DfsCCPost (g : AdjList) (node : String) (vis : List String) (comp : AdjList)
    (v' : List String) (c' : AdjList) : Prop :=
  ∃ new, v' = vis ++ new ∧ node ∈ new ∧ (∀ x ∈ new, x ∈ keysOf g) ∧ v'.Nodup ∧
    keysOf c' = keysOf comp ++ new ∧
    (∀ k ∈ new, lookupA c' k = lookupA g k) ∧
    (∀ k, k ∉ new → lookupA c' k = lookupA comp k) ∧
    (∀ x ∈ new, WeakReach g node x) ∧
    (∀ x ∈ new, ∀ y, weakAdj g x y → y ∈ v')

/-- What one of the two inner loops of `dfsCC` guarantees on success, with
`cond` the loop's firing condition (always true for the forward loop; "has an
edge into the current node" for the reverse scan). -/
def FoldPost (g : AdjList) (cond : String → Prop) (l : List String)
    (v0 : List String) (c0 : AdjList) (v1 : List String) (c1 : AdjList) : Prop :=
  ∃ add, v1 = v0 ++ add ∧ (∀ x ∈ add, x ∈ keysOf g) ∧ v1.Nodup ∧
    keysOf c1 = keysOf c0 ++ add ∧
    (∀ k ∈ add, lookupA c1 k = lookupA g k) ∧
    (∀ k, k ∉ add → lookupA c1 k = lookupA c0 k) ∧
    (∀ x ∈ add, ∃ e ∈ l, cond e ∧ WeakReach g e x) ∧
    (∀ x ∈ add, ∀ y, weakAdj g x y → y ∈ v1) ∧
    (∀ e ∈ l, cond e → e ∈ v1)

theorem ccFold_none (φ : Option (List String × AdjList) → String →
      Option (List String × AdjList))
    (hnone : ∀ e, φ none e = none) (l : List String) : l.foldl φ none = none := by
  induction l with
  | nil => rfl
  | cons e rest ih => rw [List.foldl_cons, hnone e]; exact ih

theorem ccFoldAux_shape (g : AdjList) (fuel : Nat) (cond : String → Prop)
    (φ : Option (List String × AdjList) → String → Option (List String × AdjList))
    (hnone : ∀ e, φ none e = none)
    (hskip : ∀ v c e, e ∈ v → φ (some (v, c)) e = some (v, c))
    (hgo : ∀ v c e, e ∉ v → cond e → φ (some (v, c)) e = dfsCC g fuel e v c)
    (hmiss : ∀ v c e, e ∉ v → ¬ cond e → φ (some (v, c)) e = some (v, c))
    (IH : ∀ (node : String) (vis : List String) (comp : AdjList)
      (v' : List String) (c' : AdjList),
      dfsCC g fuel node vis comp = some (v', c') →
      (vis.Nodup ∧ (∀ x ∈ vis, x ∈ keysOf g) ∧ node ∉ vis ∧ keysOf comp ⊆ vis) →
      DfsCCPost g node vis comp v' c') :
    ∀ (l : List String) (v0 : List String) (c0 : AdjList)
      (v1 : List String) (c1 : AdjList),
      l.foldl φ (some (v0, c0)) = some (v1, c1) →
      v0.Nodup → (∀ x ∈ v0, x ∈ keysOf g) → keysOf c0 ⊆ v0 →
      FoldPost g cond l v0 c0 v1 c1 := by
  intro l
  induction l with
  | nil =>
    intro v0 c0 v1 c1 h _ _ _
    simp only [List.foldl_nil, Option.some.injEq, Prod.mk.injEq] at h
    obtain ⟨hv, hc⟩ := h
    subst hv; subst hc
    exact ⟨[], by simp, by simp, by assumption, by simp, by simp,
      fun k _ => rfl, by simp, by simp, by simp⟩
  | cons e rest ih =>
    intro v0 c0 v1 c1 h h1 h2 h3
    rw [List.foldl_cons] at h
    by_cases he : e ∈ v0
    · rw [hskip v0 c0 e he] at h
      obtain ⟨add, ha1, ha2, ha3, ha4, ha5, ha6, ha7, ha8, ha9⟩ := ih v0 c0 v1 c1 h h1 h2 h3
      refine ⟨add, ha1, ha2, ha3, ha4, ha5, ha6, ?_, ha8, ?_⟩
      · intro x hx
        obtain ⟨e2, he2, hc2, hr2⟩ := ha7 x hx
        exact ⟨e2, List.mem_cons_of_mem _ he2, hc2, hr2⟩
      · intro e2 he2 hc2
        rcases List.mem_cons.mp he2 with he2 | he2
        · subst he2
          rw [ha1]
          exact List.mem_append_left _ he
        · exact ha9 e2 he2 hc2
    · by_cases hcond : cond e
      · rw [hgo v0 c0 e he hcond] at h
        match hd : dfsCC g fuel e v0 c0 with
        | none =>
          rw [hd, ccFold_none φ hnone] at h
          exact absurd h (by simp)
        | some (vm, cm) =>
          rw [hd] at h
          obtain ⟨new, hn1, hn2, hn3, hn4, hn5, hn6, hn7, hn8, hn9⟩ :=
            IH e v0 c0 vm cm hd ⟨h1, h2, he, h3⟩
          have hvm2 : ∀ x ∈ vm, x ∈ keysOf g := by
            intro x hx
            rw [hn1] at hx
            rcases List.mem_append.mp hx with hx | hx
            · exact h2 x hx
            · exact hn3 x hx
          have hcm : keysOf cm ⊆ vm := by
            intro x hx
            rw [hn5] at hx
            rw [hn1]
            rcases List.mem_append.mp hx with hx | hx
            · exact List.mem_append_left _ (h3 hx)
            · exact List.mem_append_right _ hx
          obtain ⟨add2, hb1, hb2, hb3, hb4, hb5, hb6, hb7, hb8, hb9⟩ :=
            ih vm cm v1 c1 h hn4 hvm2 hcm
          have hdisj : ∀ x ∈ new, x ∉ add2 := by
            intro x hx hx2
            have : v1 = v0 ++ new ++ add2 := by rw [hb1, hn1]
            rw [this] at hb3
            rcases List.nodup_append.mp hb3 with ⟨-, -, hd2⟩
            exact hd2 (List.mem_append_right _ hx) hx2
          refine ⟨new ++ add2, ?_, ?_, hb3, ?_, ?_, ?_, ?_, ?_, ?_⟩
          · rw [hb1, hn1, List.append_assoc]
          · intro x hx
            rcases List.mem_append.mp hx with hx | hx
            · exact hn3 x hx
            · exact hb2 x hx
          · rw [hb4, hn5, List.append_assoc]
          · intro k hk
            rcases List.mem_append.mp hk with hk | hk
            · rw [hb6 k (hdisj k hk), hn6 k hk]
            · exact hb5 k hk
          · intro k hk
            rw [List.mem_append] at hk
            push_neg at hk
            rw [hb6 k hk.2, hn7 k hk.1]
          · intro x hx
            rcases List.mem_append.mp hx with hx | hx
            · exact ⟨e, List.mem_cons_self _ _, hcond, hn8 x hx⟩
            · obtain ⟨e2, he2, hc2, hr2⟩ := hb7 x hx
              exact ⟨e2, List.mem_cons_of_mem _ he2, hc2, hr2⟩
          · intro x hx y hy
            rcases List.mem_append.mp hx with hx | hx
            · have := hn9 x hx y hy
              rw [hb1]
              exact List.mem_append_left _ this
            · exact hb8 x hx y hy
          · intro e2 he2 hc2
            rcases List.mem_cons.mp he2 with he2 | he2
            · subst he2
              rw [hb1, hn1]
              exact List.mem_append_left _ (List.mem_append_right _ hn2)
            · exact hb9 e2 he2 hc2
      · rw [hmiss v0 c0 e he hcond] at h
        obtain ⟨add, ha1, ha2, ha3, ha4, ha5, ha6, ha7, ha8, ha9⟩ := ih v0 c0 v1 c1 h h1 h2 h3
        refine ⟨add, ha1, ha2, ha3, ha4, ha5, ha6, ?_, ha8, ?_⟩
        · intro x hx
          obtain ⟨e2, he2, hc2, hr2⟩ := ha7 x hx
          exact ⟨e2, List.mem_cons_of_mem _ he2, hc2, hr2⟩
        · intro e2 he2 hc2
          rcases List.mem_cons.mp he2 with he2 | he2
          · exact absurd (he2 ▸ hc2) hcond
          · exact ha9 e2 he2 hc2

theorem dfsCC_shape (g : AdjList) :
    ∀ (fuel : Nat) (node : String) (vis : List String) (comp : AdjList)
      (v' : List String) (c' : AdjList),
      dfsCC g fuel node vis comp = some (v', c') →
      (vis.Nodup ∧ (∀ x ∈ vis, x ∈ keysOf g) ∧ node ∉ vis ∧ keysOf comp ⊆ vis) →
      DfsCCPost g node vis comp v' c' := by
  intro fuel
  induction fuel with
  | zero =>
    intro node vis comp v' c' h _
    exact absurd h (by simp [dfsCC])
  | succ fuel ih =>
    intro node vis comp v' c' h hh
    obtain ⟨h1, h2, h3, h4⟩ := hh
    rw [dfsCC_succ] at h
    match hl : lookupA g node with
    | none => rw [hl] at h; exact absurd h (by simp)
    | some nbrs =>
      rw [hl] at h
      dsimp only at h
      have hnodeKey : node ∈ keysOf g := mem_keysOf_of_lookupA hl
      have hv1nodup : (vis ++ [node]).Nodup := by
        rw [List.nodup_append]
        exact ⟨h1, List.nodup_singleton _, fun a ha hb => by
          rw [List.mem_singleton] at hb
          exact h3 (hb ▸ ha)⟩
      have hv1keys : ∀ x ∈ vis ++ [node], x ∈ keysOf g := by
        intro x hx
        rcases List.mem_append.mp hx with hx | hx
        · exact h2 x hx
        · rw [List.mem_singleton] at hx
          exact hx ▸ hnodeKey
      have hcompKeys : keysOf (objSet comp node nbrs) = keysOf comp ++ [node] :=
        keysOf_objSet_of_not_mem nbrs (fun hc => h3 (h4 hc))
      have hcomp1 : keysOf (objSet comp node nbrs) ⊆ vis ++ [node] := by
        rw [hcompKeys]
        intro x hx
        rcases List.mem_append.mp hx with hx | hx
        · exact List.mem_append_left _ (h4 hx)
        · exact List.mem_append_right _ hx
      match hf : nbrs.foldl (ccFwdStep g fuel)
          (some (vis ++ [node], objSet comp node nbrs)) with
      | none => rw [hf] at h; exact absurd h (by simp)
      | some (v2, c2) =>
        rw [hf] at h
        have hrevEq : (keysOf g).foldl (ccRevStep g fuel node) (some (v2, c2))
            = some (v', c') := h
        obtain ⟨add1, ha1, ha2, ha3, ha4, ha5, ha6, ha7, ha8, ha9⟩ :=
          ccFoldAux_shape g fuel (fun _ => True) (ccFwdStep g fuel)
            (fun _ => rfl) (fun v c e he => by simp [ccFwdStep, he])
            (fun v c e he _ => by simp [ccFwdStep, he])
            (fun v c e _ hc => absurd trivial hc)
            (fun a b c d e hh hhh => ih a b c d e hh hhh)
            nbrs _ _ _ _ hf hv1nodup hv1keys hcomp1
        have hv2keys : ∀ x ∈ v2, x ∈ keysOf g := by
          intro x hx
          rw [ha1] at hx
          rcases List.mem_append.mp hx with hx | hx
          · exact hv1keys x hx
          · exact ha2 x hx
        have hc2sub : keysOf c2 ⊆ v2 := by
          intro x hx
          rw [ha4] at hx
          rw [ha1]
          rcases List.mem_append.mp hx with hx | hx
          · exact List.mem_append_left _ (hcomp1 hx)
          · exact List.mem_append_right _ hx
        obtain ⟨add2, hb1, hb2, hb3, hb4, hb5, hb6, hb7, hb8, hb9⟩ :=
          ccFoldAux_shape g fuel (fun k => node ∈ valD g k) (ccRevStep g fuel node)
            (fun _ => rfl) (fun v c e he => by simp [ccRevStep, he])
            (fun v c e he hc => by simp [ccRevStep, he, hc])
            (fun v c e he hc => by simp [ccRevStep, he, hc])
            (fun a b c d e hh hhh => ih a b c d e hh hhh)
            (keysOf g) _ _ _ _ hrevEq ha3 hv2keys hc2sub
        have hvshape : v' = vis ++ (node :: (add1 ++ add2)) := by
          rw [hb1, ha1]
          simp [List.append_assoc]
        have hNode1 : node ∉ add1 := by
          intro hc
          rw [ha1] at ha3
          rcases List.nodup_append.mp ha3 with ⟨-, -, hdisj⟩
          exact hdisj (List.mem_append_right _ (by simp)) hc
        have hNode2 : node ∉ add2 := by
          intro hc
          rw [hb1] at hb3
          rcases List.nodup_append.mp hb3 with ⟨-, -, hdisj⟩
          refine hdisj ?_ hc
          rw [ha1]
          exact List.mem_append_left _ (List.mem_append_right _ (by simp))
        have hAdd12 : ∀ x ∈ add1, x ∉ add2 := by
          intro x hx hc
          rw [hb1] at hb3
          rcases List.nodup_append.mp hb3 with ⟨-, -, hdisj⟩
          refine hdisj ?_ hc
          rw [ha1]
          exact List.mem_append_right _ hx
        refine ⟨node :: (add1 ++ add2), hvshape, by simp, ?_, hb3, ?_, ?_, ?_, ?_, ?_⟩
        · intro x hx
          rcases List.mem_cons.mp hx with hx | hx
          · exact hx ▸ hnodeKey
          · rcases List.mem_append.mp hx with hx | hx
            · exact ha2 x hx
            · exact hb2 x hx
        · rw [hb4, ha4, hcompKeys]
          simp [List.append_assoc]
        · intro k hk
          rcases List.mem_cons.mp hk with hk | hk
          · subst hk
            rw [hb6 k hNode2, ha6 k hNode1, lookupA_objSet_self, hl]
          · rcases List.mem_append.mp hk with hk | hk
            · rw [hb6 k (hAdd12 k hk), ha5 k hk]
            · exact hb5 k hk
        · intro k hk
          rw [List.mem_cons] at hk
          push_neg at hk
          obtain ⟨hk1, hk2⟩ := hk
          rw [List.mem_append] at hk2
          push_neg at hk2
          rw [hb6 k hk2.2, ha6 k hk2.1, lookupA_objSet_ne _ _ _ _ hk1]
        · intro x hx
          rcases List.mem_cons.mp hx with hx | hx
          · exact hx ▸ Relation.ReflTransGen.refl
          · rcases List.mem_append.mp hx with hx | hx
            · obtain ⟨nb, hnb, -, hr⟩ := ha7 x hx
              refine Relation.ReflTransGen.head (Or.inl ?_) hr
              rw [valD_eq_of_lookup hl]
              exact hnb
            · obtain ⟨k, -, hc, hr⟩ := hb7 x hx
              exact Relation.ReflTransGen.head (Or.inr hc) hr
        · intro x hx y hy
          rcases List.mem_cons.mp hx with hx | hx
          · subst hx
            rcases hy with hy | hy
            · rw [valD_eq_of_lookup hl] at hy
              have := ha9 y hy trivial
              rw [hb1]
              exact List.mem_append_left _ this
            · exact hb9 y (mem_keysOf_of_mem_valD hy) hy
          · rcases List.mem_append.mp hx with hx | hx
            · have := ha8 x hx y hy
              rw [hb1]
              exact List.mem_append_left _ this
            · exact hb8 x hx y hy

/-- The fragments of a components run are closed outward only into the
already-visited prefix: every weak neighbor of a fragment member was visited
no later than the end of that fragment's DFS. -/
def FragsClosed (g : AdjList) : List String → List AdjList → Prop
  | _, [] => True
  | pre, f :: fs => (∀ x ∈ keysOf f, ∀ y, weakAdj g x y → y ∈ pre ++ keysOf f) ∧
      FragsClosed g (pre ++ keysOf f) fs

theorem ccOuterFold_none (g : AdjList) (l : List String) :
    l.foldl (ccOuterStep g) none = none := by
  induction l with
  | nil => rfl
  | cons e rest ih => exact ih

theorem ccOuterFold_shape (g : AdjList) :
    ∀ (l : List String) (vis : List String) (comps : List AdjList)
      (v1 : List String) (cs1 : List AdjList),
      l.foldl (ccOuterStep g) (some (vis, comps)) = some (v1, cs1) →
      vis.Nodup → (∀ x ∈ vis, x ∈ keysOf g) →
      ∃ newcs, cs1 = comps ++ newcs ∧ v1 = vis ++ (newcs.map keysOf).flatten ∧
        v1.Nodup ∧ (∀ x ∈ v1, x ∈ keysOf g) ∧
        (∀ f ∈ newcs, ∀ k ∈ keysOf f, lookupA f k = lookupA g k) ∧
        (∀ f ∈ newcs, keysOf f ≠ []) ∧
        (∀ f ∈ newcs, ∃ r, r ∈ keysOf f ∧ ∀ x ∈ keysOf f, WeakReach g r x) ∧
        FragsClosed g vis newcs ∧
        (∀ e ∈ l, e ∈ v1) := by
  intro l
  induction l with
  | nil =>
    intro vis comps v1 cs1 h hn hk
    simp only [List.foldl_nil, Option.some.injEq, Prod.mk.injEq] at h
    obtain ⟨hv, hc⟩ := h
    subst hv; subst hc
    exact ⟨[], by simp, by simp, hn, hk, by simp, by simp, by simp,
      by exact trivial, by simp⟩
  | cons node rest ih =>
    intro vis comps v1 cs1 h hn hk
    rw [List.foldl_cons] at h
    by_cases hv : node ∈ vis
    · rw [show ccOuterStep g (some (vis, comps)) node = some (vis, comps) from by
        simp [ccOuterStep, hv]] at h
      obtain ⟨newcs, hc1, hc2, hc3, hc4, hc5, hc6, hc7, hc8, hc9⟩ :=
        ih vis comps v1 cs1 h hn hk
      refine ⟨newcs, hc1, hc2, hc3, hc4, hc5, hc6, hc7, hc8, ?_⟩
      intro e he
      rcases List.mem_cons.mp he with he | he
      · subst he
        rw [hc2]
        exact List.mem_append_left _ hv
      · exact hc9 e he
    · match hd : dfsCC g (g.length + 1) node vis [] with
      | none =>
        rw [show ccOuterStep g (some (vis, comps)) node = none from by
          simp [ccOuterStep, hv, hd]] at h
        rw [ccOuterFold_none] at h
        exact absurd h (by simp)
      | some (vm, cm) =>
        rw [show ccOuterStep g (some (vis, comps)) node = some (vm, comps ++ [cm]) from by
          simp [ccOuterStep, hv, hd]] at h
        obtain ⟨new, hn1, hn2, hn3, hn4, hn5, hn6, hn7, hn8, hn9⟩ :=
          dfsCC_shape g (g.length + 1) node vis [] vm cm hd
            ⟨hn, hk, hv, by simp [keysOf]⟩
        have hcmKeys : keysOf cm = new := by
          rw [hn5]
          rfl
        have hvmKeys : ∀ x ∈ vm, x ∈ keysOf g := by
          intro x hx
          rw [hn1] at hx
          rcases List.mem_append.mp hx with hx | hx
          · exact hk x hx
          · exact hn3 x hx
        obtain ⟨newcs, hc1, hc2, hc3, hc4, hc5, hc6, hc7, hc8, hc9⟩ :=
          ih vm (comps ++ [cm]) v1 cs1 h hn4 hvmKeys
        refine ⟨cm :: newcs, ?_, ?_, hc3, hc4, ?_, ?_, ?_, ?_, ?_⟩
        · rw [hc1, List.append_assoc]
          rfl
        · simp [hc2, hn1, List.map_cons, hcmKeys, List.append_assoc]
        · intro f hf k hkk
          rcases List.mem_cons.mp hf with hf | hf
          · subst hf
            rw [hcmKeys] at hkk
            exact hn6 k hkk
          · exact hc5 f hf k hkk
        · intro f hf
          rcases List.mem_cons.mp hf with hf | hf
          · subst hf
            rw [hcmKeys]
            intro hc
            rw [hc] at hn2
            simp at hn2
          · exact hc6 f hf
        · intro f hf
          rcases List.mem_cons.mp hf with hf | hf
          · subst hf
            rw [hcmKeys]
            exact ⟨node, hn2, hn8⟩
          · exact hc7 f hf
        · refine ⟨?_, ?_⟩
          · intro x hx y hy
            rw [hcmKeys] at hx
            have := hn9 x hx y hy
            rw [hn1] at this
            rw [hcmKeys]
            exact this
          · rw [hcmKeys, ← hn1]
            exact hc8
        · intro e he
          rcases List.mem_cons.mp he with he | he
          · subst he
            rw [hc2, hn1]
            exact List.mem_append_left _ (List.mem_append_right _ hn2)
          · exact hc9 e he

theorem getCC_shape (g : AdjList) (frags : List AdjList)
    (h : getConnectedComponents_directed g = some frags) :
    ((frags.map keysOf).flatten).Nodup ∧
    (∀ x, x ∈ (frags.map keysOf).flatten ↔ x ∈ keysOf g) ∧
    (∀ f ∈ frags, ∀ k ∈ keysOf f, lookupA f k = lookupA g k) ∧
    (∀ f ∈ frags, keysOf f ≠ []) ∧
    (∀ f ∈ frags, ∃ r, r ∈ keysOf f ∧ ∀ x ∈ keysOf f, WeakReach g r x) ∧
    FragsClosed g [] frags := by
  rw [getConnectedComponents_directed_eq] at h
  match hfold : (keysOf g).foldl (ccOuterStep g) (some ([], [])) with
  | none => rw [hfold] at h; exact absurd h (by simp)
  | some (v1, cs1) =>
    rw [hfold] at h
    simp only [Option.map_some', Option.some.injEq] at h
    obtain ⟨newcs, hc1, hc2, hc3, hc4, hc5, hc6, hc7, hc8, hc9⟩ :=
      ccOuterFold_shape g (keysOf g) [] [] v1 cs1 hfold (by simp) (by simp)
    rw [List.nil_append] at hc1
    rw [List.nil_append] at hc2
    subst hc1
    subst h
    rw [← hc2]
    refine ⟨hc3, fun x => ⟨fun hx => hc4 x hx, fun hx => hc9 x hx⟩, hc5, hc6, hc7, hc8⟩

theorem fragsClosed_self (g : AdjList) :
    ∀ (fs : List AdjList) (pre : List String),
      FragsClosed g pre fs → (pre ++ (fs.map keysOf).flatten).Nodup →
      (∀ z ∈ pre, ∀ y, weakAdj g z y → y ∈ pre) →
      ∀ f ∈ fs, ∀ x ∈ keysOf f, ∀ y, weakAdj g x y → y ∈ keysOf f := by
  intro fs
  induction fs with
  | nil =>
    intro pre _ _ _ f hf
    simp at hf
  | cons f0 rest ih =>
    intro pre hcl hnd hpre f hf
    obtain ⟨hcl0, hclrest⟩ := hcl
    have hself : ∀ x ∈ keysOf f0, ∀ y, weakAdj g x y → y ∈ keysOf f0 := by
      intro x hx y hy
      rcases List.mem_append.mp (hcl0 x hx y hy) with hm | hm
      · exfalso
        have hx2 := hpre y hm x (weakAdj_symm hy)
        rcases List.nodup_append.mp hnd with ⟨-, -, hdisj⟩
        refine hdisj hx2 ?_
        rw [List.mem_flatten]
        exact ⟨keysOf f0, List.mem_map_of_mem _ (List.mem_cons_self _ _), hx⟩
      · exact hm
    rcases List.mem_cons.mp hf with hf | hf
    · subst hf
      exact hself
    · refine ih (pre ++ keysOf f0) hclrest ?_ ?_ f hf
      · rw [List.append_assoc]
        simpa [List.append_assoc] using hnd
      · intro z hz y hy
        rcases List.mem_append.mp hz with hz | hz
        · exact List.mem_append_left _ (hpre z hz y hy)
        · exact List.mem_append_right _ (hself z hz y hy)

theorem frag_keys_iff_reach (g : AdjList) {frags : List AdjList}
    (h : getConnectedComponents_directed g = some frags) :
    ∀ f ∈ frags, ∀ r, r ∈ keysOf f → ∀ x, x ∈ keysOf f ↔ WeakReach g r x := by
  obtain ⟨hnd, hmem, hlk, hne, hreach, hclosed⟩ := getCC_shape g frags h
  have hself := fragsClosed_self g frags [] hclosed (by simpa using hnd) (by simp)
  intro f hf r hr x
  obtain ⟨r0, hr0, hall⟩ := hreach f hf
  constructor
  · intro hx
    exact Relation.ReflTransGen.trans (weakReach_symm (hall r hr)) (hall x hx)
  · intro hx
    induction hx with
    | refl => exact hr
    | tail hab hbc ihh => exact hself f hf _ ihh _ hbc

theorem getCC_disjoint (g : AdjList) {frags : List AdjList}
    (h : getConnectedComponents_directed g = some frags) :
    PartitionDisjoint frags ∧ (∀ f ∈ frags, (keysOf f).Nodup) := by
  obtain ⟨hnd, -, -, -, -, -⟩ := getCC_shape g frags h
  rw [List.nodup_flatten] at hnd
  obtain ⟨hall, hpw⟩ := hnd
  constructor
  · rw [List.pairwise_map] at hpw
    refine hpw.imp ?_
    intro a b hd x hx hx2
    exact hd hx hx2
  · intro f hf
    exact hall _ (List.mem_map_of_mem _ hf)

/-- Number of keys of `g` not yet visited: the DFS termination measure. -/
def unvisCount (g : AdjList) (vis : List String) : Nat :=
  ((keysOf g).filter (fun x => x ∉ vis)).length

theorem unvisCount_mono (g : AdjList) {v1 v2 : List String} (h : ∀ x ∈ v1, x ∈ v2) :
    unvisCount g v2 ≤ unvisCount g v1 := by
  unfold unvisCount
  refine List.Sublist.length_le (List.monotone_filter_right _ ?_)
  intro a ha
  simp only [decide_not, Bool.not_eq_true', decide_eq_false_iff_not] at ha ⊢
  exact fun hc => ha (h a hc)

theorem length_filter_ne_lt {l : List String} {a : String} (h : a ∈ l) :
    (l.filter (fun x => x ≠ a)).length < l.length := by
  induction l with
  | nil => simp at h
  | cons x xs ih =>
    by_cases hx : x = a
    · rw [List.filter_cons_of_neg (by simp [hx])]
      simp only [List.length_cons]
      exact Nat.lt_succ_of_le (List.length_filter_le _ _)
    · rcases List.mem_cons.mp h with hh | hh
      · exact absurd hh.symm hx
      · rw [List.filter_cons_of_pos (by simp [hx])]
        simp only [List.length_cons]
        exact Nat.succ_lt_succ (ih hh)

theorem unvisCount_strict (g : AdjList) {vis : List String} {node : String}
    (h1 : node ∈ keysOf g) (h2 : node ∉ vis) :
    unvisCount g (vis ++ [node]) < unvisCount g vis := by
  unfold unvisCount
  have heq : (keysOf g).filter (fun x => x ∉ vis ++ [node])
      = ((keysOf g).filter (fun x => x ∉ vis)).filter (fun x => x ≠ node) := by
    rw [List.filter_filter]
    apply List.filter_congr
    intro a _
    by_cases hav : a ∈ vis <;> by_cases han : a = node <;>
      simp [hav, han, List.mem_append]
  rw [heq]
  refine length_filter_ne_lt ?_
  rw [List.mem_filter]
  exact ⟨h1, by simpa using h2⟩

theorem ccFoldAux_success (g : AdjList) (fuel : Nat) (cond : String → Prop)
    (φ : Option (List String × AdjList) → String → Option (List String × AdjList))
    (hskip : ∀ v c e, e ∈ v → φ (some (v, c)) e = some (v, c))
    (hgo : ∀ v c e, e ∉ v → cond e → φ (some (v, c)) e = dfsCC g fuel e v c)
    (hmiss : ∀ v c e, e ∉ v → ¬ cond e → φ (some (v, c)) e = some (v, c))
    (IHsucc : ∀ (node : String) (vis : List String) (comp : AdjList),
      node ∈ keysOf g → node ∉ vis → vis.Nodup → (∀ x ∈ vis, x ∈ keysOf g) →
      keysOf comp ⊆ vis → unvisCount g vis < fuel →
      ∃ out, dfsCC g fuel node vis comp = some out)
    (IHshape : ∀ (node : String) (vis : List String) (comp : AdjList)
      (v' : List String) (c' : AdjList),
      dfsCC g fuel node vis comp = some (v', c') →
      (vis.Nodup ∧ (∀ x ∈ vis, x ∈ keysOf g) ∧ node ∉ vis ∧ keysOf comp ⊆ vis) →
      DfsCCPost g node vis comp v' c') :
    ∀ (l : List String) (v0 : List String) (c0 : AdjList),
      (∀ e ∈ l, cond e → e ∈ keysOf g) → v0.Nodup →
      (∀ x ∈ v0, x ∈ keysOf g) → keysOf c0 ⊆ v0 → unvisCount g v0 < fuel →
      ∃ v1 c1, l.foldl φ (some (v0, c0)) = some (v1, c1) := by
  intro l
  induction l with
  | nil => exact fun v0 c0 _ _ _ _ _ => ⟨v0, c0, rfl⟩
  | cons e rest ih =>
    intro v0 c0 hl h1 h2 h3 h4
    rw [List.foldl_cons]
    by_cases he : e ∈ v0
    · rw [hskip v0 c0 e he]
      exact ih v0 c0 (fun x hx hc => hl x (List.mem_cons_of_mem _ hx) hc) h1 h2 h3 h4
    · by_cases hcond : cond e
      · rw [hgo v0 c0 e he hcond]
        obtain ⟨out, hout⟩ := IHsucc e v0 c0 (hl e (List.mem_cons_self _ _) hcond)
          he h1 h2 h3 h4
        obtain ⟨vm, cm⟩ := out
        rw [hout]
        obtain ⟨new, hn1, hn2, hn3, hn4, hn5, hn6, hn7, hn8, hn9⟩ :=
          IHshape e v0 c0 vm cm hout ⟨h1, h2, he, h3⟩
        have hvmkeys : ∀ x ∈ vm, x ∈ keysOf g := by
          intro x hx
          rw [hn1] at hx
          rcases List.mem_append.mp hx with hx | hx
          · exact h2 x hx
          · exact hn3 x hx
        have hcm : keysOf cm ⊆ vm := by
          intro x hx
          rw [hn5] at hx
          rw [hn1]
          rcases List.mem_append.mp hx with hx | hx
          · exact List.mem_append_left _ (h3 hx)
          · exact List.mem_append_right _ hx
        have hfm : unvisCount g vm < fuel := by
          have hm1 : unvisCount g vm ≤ unvisCount g (v0 ++ [e]) := by
            refine unvisCount_mono g ?_
            intro x hx
            rw [hn1]
            rcases List.mem_append.mp hx with hx | hx
            · exact List.mem_append_left _ hx
            · rw [List.mem_singleton] at hx
              exact List.mem_append_right _ (hx ▸ hn2)
          have hm2 : unvisCount g (v0 ++ [e]) < unvisCount g v0 :=
            unvisCount_strict g (hl e (List.mem_cons_self _ _) hcond) he
          omega
        exact ih vm cm (fun x hx hc => hl x (List.mem_cons_of_mem _ hx) hc) hn4 hvmkeys hcm hfm
      · rw [hmiss v0 c0 e he hcond]
        exact ih v0 c0 (fun x hx hc => hl x (List.mem_cons_of_mem _ hx) hc) h1 h2 h3 h4

theorem dfsCC_success (g : AdjList) (hcl : NoDangling g) :
    ∀ (fuel : Nat) (node : String) (vis : List String) (comp : AdjList),
      node ∈ keysOf g → node ∉ vis → vis.Nodup → (∀ x ∈ vis, x ∈ keysOf g) →
      keysOf comp ⊆ vis → unvisCount g vis < fuel →
      ∃ out, dfsCC g fuel node vis comp = some out := by
  intro fuel
  induction fuel with
  | zero =>
    intro node vis comp _ _ _ _ _ hf
    exact absurd hf (by omega)
  | succ fuel ih =>
    intro node vis comp hkey hnv h1 h2 h3 hf
    obtain ⟨nbrs, hl⟩ := Option.isSome_iff_exists.mp ((lookupA_isSome_iff g node).mpr hkey)
    rw [dfsCC_succ, hl]
    dsimp only
    have hv1nodup : (vis ++ [node]).Nodup := by
      rw [List.nodup_append]
      exact ⟨h1, List.nodup_singleton _, fun a ha hb => by
        rw [List.mem_singleton] at hb
        exact hnv (hb ▸ ha)⟩
    have hv1keys : ∀ x ∈ vis ++ [node], x ∈ keysOf g := by
      intro x hx
      rcases List.mem_append.mp hx with hx | hx
      · exact h2 x hx
      · rw [List.mem_singleton] at hx
        exact hx ▸ hkey
    have hcomp1 : keysOf (objSet comp node nbrs) ⊆ vis ++ [node] := by
      rw [keysOf_objSet_of_not_mem nbrs (fun hc => hnv (h3 hc))]
      intro x hx
      rcases List.mem_append.mp hx with hx | hx
      · exact List.mem_append_left _ (h3 hx)
      · exact List.mem_append_right _ hx
    have hf1 : unvisCount g (vis ++ [node]) < fuel := by
      have := unvisCount_strict g hkey hnv
      omega
    obtain ⟨v2, c2, hfwd⟩ := ccFoldAux_success g fuel (fun _ => True) (ccFwdStep g fuel)
      (fun v c e he => by simp [ccFwdStep, he])
      (fun v c e he _ => by simp [ccFwdStep, he])
      (fun v c e _ hc => absurd trivial hc)
      (fun a b c ha hb hc hd he hff => ih a b c ha hb hc hd he hff)
      (fun a b c d e hh hhh => dfsCC_shape g fuel a b c d e hh hhh)
      nbrs (vis ++ [node]) (objSet comp node nbrs)
      (fun e he _ => hcl (node, nbrs) (lookupA_mem hl) e he)
      hv1nodup hv1keys hcomp1 hf1
    rw [hfwd]
    obtain ⟨add1, ha1, ha2, ha3, ha4, ha5, ha6, ha7, ha8, ha9⟩ :=
      ccFoldAux_shape g fuel (fun _ => True) (ccFwdStep g fuel)
        (fun _ => rfl) (fun v c e he => by simp [ccFwdStep, he])
        (fun v c e he _ => by simp [ccFwdStep, he])
        (fun v c e _ hc => absurd trivial hc)
        (fun a b c d e hh hhh => dfsCC_shape g fuel a b c d e hh hhh)
        nbrs _ _ _ _ hfwd hv1nodup hv1keys hcomp1
    have hv2keys : ∀ x ∈ v2, x ∈ keysOf g := by
      intro x hx
      rw [ha1] at hx
      rcases List.mem_append.mp hx with hx | hx
      · exact hv1keys x hx
      · exact ha2 x hx
    have hc2sub : keysOf c2 ⊆ v2 := by
      intro x hx
      rw [ha4] at hx
      rw [ha1]
      rcases List.mem_append.mp hx with hx | hx
      · exact List.mem_append_left _ (hcomp1 hx)
      · exact List.mem_append_right _ hx
    have hf2 : unvisCount g v2 < fuel := by
      have : unvisCount g v2 ≤ unvisCount g (vis ++ [node]) := by
        refine unvisCount_mono g ?_
        intro x hx
        rw [ha1]
        exact List.mem_append_left _ hx
      omega
    obtain ⟨v3, c3, hrev⟩ := ccFoldAux_success g fuel (fun k => node ∈ valD g k)
      (ccRevStep g fuel node)
      (fun v c e he => by simp [ccRevStep, he])
      (fun v c e he hc => by simp [ccRevStep, he, hc])
      (fun v c e he hc => by simp [ccRevStep, he, hc])
      (fun a b c ha hb hc hd he hff => ih a b c ha hb hc hd he hff)
      (fun a b c d e hh hhh => dfsCC_shape g fuel a b c d e hh hhh)
      (keysOf g) v2 c2 (fun e he _ => he) ha3 hv2keys hc2sub hf2
    exact ⟨(v3, c3), by rw [show ((some (v2, c2)).bind fun vc0 =>
      (keysOf g).foldl (ccRevStep g fuel node) (some vc0)) = (keysOf g).foldl
      (ccRevStep g fuel node) (some (v2, c2)) from rfl, hrev]⟩

theorem getCC_success (g : AdjList) (hcl : NoDangling g) :
    ∃ frags, getConnectedComponents_directed g = some frags := by
  have main : ∀ (l : List String) (vis : List String) (comps : List AdjList),
      (∀ e ∈ l, e ∈ keysOf g) → vis.Nodup → (∀ x ∈ vis, x ∈ keysOf g) →
      ∃ v1 cs1, l.foldl (ccOuterStep g) (some (vis, comps)) = some (v1, cs1) := by
    intro l
    induction l with
    | nil => exact fun vis comps _ _ _ => ⟨vis, comps, rfl⟩
    | cons e rest ih =>
      intro vis comps hl hn hk
      rw [List.foldl_cons]
      by_cases he : e ∈ vis
      · rw [show ccOuterStep g (some (vis, comps)) e = some (vis, comps) from by
          simp [ccOuterStep, he]]
        exact ih vis comps (fun x hx => hl x (List.mem_cons_of_mem _ hx)) hn hk
      · have hkey : e ∈ keysOf g := hl e (List.mem_cons_self _ _)
        have hfuel : unvisCount g vis < g.length + 1 := by
          have h1 : unvisCount g vis ≤ (keysOf g).length := List.length_filter_le _ _
          have h2 : (keysOf g).length = g.length := by simp [keysOf]
          omega
        obtain ⟨out, hout⟩ := dfsCC_success g hcl (g.length + 1) e vis [] hkey he hn hk
          (by simp [keysOf]) hfuel
        obtain ⟨vm, cm⟩ := out
        rw [show ccOuterStep g (some (vis, comps)) e = some (vm, comps ++ [cm]) from by
          simp [ccOuterStep, he, hout]]
        obtain ⟨new, hn1, hn2, hn3, hn4, hn5, hn6, hn7, hn8, hn9⟩ :=
          dfsCC_shape g (g.length + 1) e vis [] vm cm hout ⟨hn, hk, he, by simp [keysOf]⟩
        have hvmkeys : ∀ x ∈ vm, x ∈ keysOf g := by
          intro x hx
          rw [hn1] at hx
          rcases List.mem_append.mp hx with hx | hx
          · exact hk x hx
          · exact hn3 x hx
        exact ih vm (comps ++ [cm]) (fun x hx => hl x (List.mem_cons_of_mem _ hx)) hn4 hvmkeys
  obtain ⟨v1, cs1, h⟩ := main (keysOf g) [] [] (fun e he => he) (by simp) (by simp)
  refine ⟨cs1, ?_⟩
  rw [getConnectedComponents_directed_eq, h]
  rfl

/-!
## C3: split correctness of `removeEdgeFromAdjacencyListComponents`
-/

theorem mem_objSet_cases {β : Type} : ∀ (g : JsObj β) (n : String) (v : β)
    (kv : String × β), kv ∈ objSet g n v → kv ∈ g ∨ kv = (n, v) := by
  intro g
  induction g with
  | nil =>
    intro n v kv h
    simp only [objSet] at h
    rw [List.mem_singleton] at h
    exact Or.inr h
  | cons kw rest ih =>
    intro n v kv h
    obtain ⟨k, w⟩ := kw
    by_cases hk : k = n
    · simp only [objSet, if_pos hk] at h
      rcases List.mem_cons.mp h with h1 | h1
      · subst hk
        exact Or.inr (by rw [h1])
      · exact Or.inl (List.mem_cons_of_mem _ h1)
    · simp only [objSet, if_neg hk] at h
      rcases List.mem_cons.mp h with h1 | h1
      · exact Or.inl (h1 ▸ List.mem_cons_self _ _)
      · rcases ih n v kv h1 with h2 | h2
        · exact Or.inl (List.mem_cons_of_mem _ h2)
        · exact Or.inr h2

theorem removeEdgeOnce_keys_nodangling {g g1 : AdjList} {p c : String}
    (h : removeEdgeOnce g p c = some g1) :
    keysOf g1 = keysOf g ∧ (NoDangling g → NoDangling g1) := by
  unfold removeEdgeOnce at h
  match hl : lookupA g p with
  | none =>
    rw [hl] at h
    exact absurd h (by simp)
  | some l =>
    rw [hl] at h
    simp only [Option.map_some', Option.some.injEq] at h
    subst h
    have hp : p ∈ keysOf g := mem_keysOf_of_lookupA hl
    constructor
    · exact keysOf_objSet_of_mem _ hp
    · intro hN kv hkv nb hnb
      rw [keysOf_objSet_of_mem _ hp]
      rcases mem_objSet_cases g p _ kv hkv with hin | heq
      · exact hN kv hin nb hnb
      · subst heq
        exact hN (p, l) (lookupA_mem hl) nb (List.mem_of_mem_filter hnb)

theorem weakAdj_keys {g : AdjList} (hN : NoDangling g) {x y : String}
    (h : weakAdj g x y) : y ∈ keysOf g := by
  rcases h with h | h
  · exact noDangling_mem_valD hN h
  · exact mem_keysOf_of_mem_valD h

theorem reach_within_side {g : AdjList} (hN : NoDangling g) {A B : List String}
    (hcover : ∀ x ∈ keysOf g, x ∈ A ∨ x ∈ B)
    (hcross : ∀ a ∈ A, ∀ b ∈ B, ¬ weakAdj g a b)
    {r x : String} (hr : r ∈ A) (h : WeakReach g r x) : x ∈ A := by
  induction h with
  | refl => exact hr
  | tail hab hbc ih =>
    rcases hcover _ (weakAdj_keys hN hbc) with h1 | h1
    · exact h1
    · exact absurd hbc (hcross _ ih _ h1)

theorem same_side_contra {f1 f2 : AdjList} {S : List String}
    (h1 : ∀ x, x ∈ keysOf f1 ↔ x ∈ S) (h2 : ∀ x, x ∈ keysOf f2 ↔ x ∈ S)
    (hne : keysOf f1 ≠ []) (hd : disjointKeys f1 f2) : False := by
  obtain ⟨r, hr⟩ := List.exists_mem_of_ne_nil _ hne
  exact hd r hr ((h2 r).mpr ((h1 r).mp hr))

theorem removeEdgeComponents_run {cs : List AdjList} {p c : String} {i : Nat}
    {comp comp1 : AdjList} {frags : List AdjList}
    (hfind : cs.findIdx? (fun cp => decide (keyMem cp p ∧ keyMem cp c)) = some i)
    (hget : cs.get? i = some comp)
    (hrm : removeEdgeFromAdjacencyList comp p c false = some comp1)
    (hcc : getConnectedComponents_directed comp1 = some frags) :
    removeEdgeFromAdjacencyListComponents cs p c =
      some (if frags.length > 1 then (cs.eraseIdx i) ++ frags else cs.set i comp1) := by
  have hgc : getConnectedComponents comp1 false = some frags := by
    rw [show getConnectedComponents comp1 false = getConnectedComponents_directed comp1
      from rfl]
    exact hcc
  unfold removeEdgeFromAdjacencyListComponents
  rw [hfind]
  dsimp only
  rw [hget]
  simp only [Option.getD_some]
  rw [hrm]
  simp only [Option.some_bind]
  rw [hgc]
  simp only [Option.map_some']

/-- C3: `removeEdgeFromAdjacencyListComponents` split correctness.  When some
component of the partition contains both endpoints (the source's `find` picks
the first one, `comp`, at index `i`) and the edge removal succeeds with result
`comp1`: (a) if `comp1` is still weakly connected on the original node set,
the component is replaced in place and the component count is unchanged;
(b) if the removal separated the node set into two non-empty halves `A` and
`B` with no weak edge of `comp1` across and each half weakly connected, the
component is replaced by exactly two fragments whose key sets are precisely
`A` and `B` (in one of the two orders). -/
theorem removeEdge_split_correctness (cs : List AdjList) (p c : String) (i : Nat)
    (comp comp1 : AdjList)
    (hfind : cs.findIdx? (fun cp => decide (keyMem cp p ∧ keyMem cp c)) = some i)
    (hget : cs.get? i = some comp)
    (hrm : removeEdgeFromAdjacencyList comp p c false = some comp1)
    (hN : NoDangling comp) :
    ((∀ x ∈ keysOf comp, ∀ y ∈ keysOf comp, WeakReach comp1 x y) →
      removeEdgeFromAdjacencyListComponents cs p c = some (cs.set i comp1) ∧
      (cs.set i comp1).length = cs.length) ∧
    (∀ A B : List String,
      (∀ x, x ∈ keysOf comp ↔ x ∈ A ∨ x ∈ B) →
      (∀ x ∈ A, x ∉ B) → A ≠ [] → B ≠ [] →
      (∀ a ∈ A, ∀ b ∈ B, ¬ weakAdj comp1 a b) →
      (∀ x ∈ A, ∀ y ∈ A, WeakReach comp1 x y) →
      (∀ x ∈ B, ∀ y ∈ B, WeakReach comp1 x y) →
      ∃ f1 f2, removeEdgeFromAdjacencyListComponents cs p c =
          some ((cs.eraseIdx i) ++ [f1, f2]) ∧
        ((∀ x, (x ∈ keysOf f1 ↔ x ∈ A) ∧ (x ∈ keysOf f2 ↔ x ∈ B)) ∨
         (∀ x, (x ∈ keysOf f1 ↔ x ∈ B) ∧ (x ∈ keysOf f2 ↔ x ∈ A)))) := by
  have hrm1 : removeEdgeOnce comp p c = some comp1 := hrm
  obtain ⟨hkeys, hNimp⟩ := removeEdgeOnce_keys_nodangling hrm1
  have hN1 : NoDangling comp1 := hNimp hN
  obtain ⟨frags, hfr⟩ := getCC_success comp1 hN1
  have hrun := removeEdgeComponents_run hfind hget hrm hfr
  obtain ⟨hnd1, hmem, hlk, hfne, hroots, hclosed⟩ := getCC_shape comp1 frags hfr
  have hreach := frag_keys_iff_reach comp1 hfr
  obtain ⟨hpd, hfnd⟩ := getCC_disjoint comp1 hfr
  constructor
  · intro hconn
    have hconn1 : ∀ x ∈ keysOf comp1, ∀ y ∈ keysOf comp1, WeakReach comp1 x y := by
      intro x hx y hy
      rw [hkeys] at hx hy
      exact hconn x hx y hy
    have hfle : ¬ frags.length > 1 := by
      intro hgt
      rcases frags with _ | ⟨f1, frest⟩
      · simp at hgt
      rcases frest with _ | ⟨f2, rest⟩
      · simp at hgt
      obtain ⟨r1, hr1⟩ := List.exists_mem_of_ne_nil _ (hfne f1 (List.mem_cons_self _ _))
      obtain ⟨r2, hr2⟩ := List.exists_mem_of_ne_nil _
        (hfne f2 (List.mem_cons_of_mem _ (List.mem_cons_self _ _)))
      have hr1k : r1 ∈ keysOf comp1 := (hmem r1).mp
        (List.mem_flatten.mpr ⟨keysOf f1,
          List.mem_map_of_mem _ (List.mem_cons_self _ _), hr1⟩)
      have hr2k : r2 ∈ keysOf comp1 := (hmem r2).mp
        (List.mem_flatten.mpr ⟨keysOf f2,
          List.mem_map_of_mem _ (List.mem_cons_of_mem _ (List.mem_cons_self _ _)), hr2⟩)
      have hin1 : r2 ∈ keysOf f1 :=
        (hreach f1 (List.mem_cons_self _ _) r1 hr1 r2).mpr (hconn1 r1 hr1k r2 hr2k)
      have hd12 : disjointKeys f1 f2 :=
        (List.pairwise_cons.mp hpd).1 f2 (List.mem_cons_self _ _)
      exact hd12 r2 hin1 hr2
    rw [if_neg hfle] at hrun
    exact ⟨hrun, List.length_set cs i comp1⟩
  · intro A B hcover hdAB hAne hBne hcross hAconn hBconn
    have hcover1 : ∀ x ∈ keysOf comp1, x ∈ A ∨ x ∈ B := by
      intro x hx
      rw [hkeys] at hx
      exact (hcover x).mp hx
    have hcover1' : ∀ x ∈ keysOf comp1, x ∈ B ∨ x ∈ A :=
      fun x hx => (hcover1 x hx).symm
    have hcross' : ∀ b ∈ B, ∀ a ∈ A, ¬ weakAdj comp1 b a :=
      fun b hb a ha hw => hcross a ha b hb (weakAdj_symm hw)
    have hside : ∀ f ∈ frags,
        (∀ x, x ∈ keysOf f ↔ x ∈ A) ∨ (∀ x, x ∈ keysOf f ↔ x ∈ B) := by
      intro f hf
      obtain ⟨r, hr⟩ := List.exists_mem_of_ne_nil _ (hfne f hf)
      have hrk : r ∈ keysOf comp1 := (hmem r).mp
        (List.mem_flatten.mpr ⟨keysOf f, List.mem_map_of_mem _ hf, hr⟩)
      rcases hcover1 r hrk with hrA | hrB
      · refine Or.inl (fun x => ⟨?_, ?_⟩)
        · intro hx
          exact reach_within_side hN1 hcover1 hcross hrA
            ((hreach f hf r hr x).mp hx)
        · intro hx
          exact (hreach f hf r hr x).mpr (hAconn r hrA x hx)
      · refine Or.inr (fun x => ⟨?_, ?_⟩)
        · intro hx
          exact reach_within_side hN1 hcover1' hcross' hrB
            ((hreach f hf r hr x).mp hx)
        · intro hx
          exact (hreach f hf r hr x).mpr (hBconn r hrB x hx)
    obtain ⟨a0, ha0⟩ := List.exists_mem_of_ne_nil _ hAne
    obtain ⟨b0, hb0⟩ := List.exists_mem_of_ne_nil _ hBne
    have ha0k : a0 ∈ keysOf comp1 := by
      rw [hkeys]
      exact (hcover a0).mpr (Or.inl ha0)
    have hb0k : b0 ∈ keysOf comp1 := by
      rw [hkeys]
      exact (hcover b0).mpr (Or.inr hb0)
    rcases frags with _ | ⟨f1, frest⟩
    · exfalso
      have := (hmem a0).mpr ha0k
      simp at this
    rcases frest with _ | ⟨f2, rest⟩
    · exfalso
      have haf : a0 ∈ keysOf f1 := by simpa using (hmem a0).mpr ha0k
      have hbf : b0 ∈ keysOf f1 := by simpa using (hmem b0).mpr hb0k
      rcases hside f1 (List.mem_cons_self _ _) with hs | hs
      · exact hdAB b0 ((hs b0).mp hbf) hb0
      · exact hdAB a0 ha0 ((hs a0).mp haf)
    rcases rest with _ | ⟨f3, rest'⟩
    · have hm1 : f1 ∈ [f1, f2] := List.mem_cons_self _ _
      have hm2 : f2 ∈ [f1, f2] := List.mem_cons_of_mem _ (List.mem_cons_self _ _)
      have hd12 : disjointKeys f1 f2 :=
        (List.pairwise_cons.mp hpd).1 f2 (List.mem_cons_self _ _)
      rw [if_pos (show ([f1, f2] : List AdjList).length > 1 by simp)] at hrun
      rcases hside f1 hm1 with hs1 | hs1 <;> rcases hside f2 hm2 with hs2 | hs2
      · exact (same_side_contra hs1 hs2 (hfne f1 hm1) hd12).elim
      · exact ⟨f1, f2, hrun, Or.inl (fun x => ⟨hs1 x, hs2 x⟩)⟩
      · exact ⟨f1, f2, hrun, Or.inr (fun x => ⟨hs1 x, hs2 x⟩)⟩
      · exact (same_side_contra hs1 hs2 (hfne f1 hm1) hd12).elim
    · exfalso
      have hm1 : f1 ∈ f1 :: f2 :: f3 :: rest' := List.mem_cons_self _ _
      have hm2 : f2 ∈ f1 :: f2 :: f3 :: rest' :=
        List.mem_cons_of_mem _ (List.mem_cons_self _ _)
      have hm3 : f3 ∈ f1 :: f2 :: f3 :: rest' :=
        List.mem_cons_of_mem _ (List.mem_cons_of_mem _ (List.mem_cons_self _ _))
      obtain ⟨hd1, hpd2⟩ := List.pairwise_cons.mp hpd
      obtain ⟨hd2, -⟩ := List.pairwise_cons.mp hpd2
      have hd12 : disjointKeys f1 f2 := hd1 f2 (List.mem_cons_self _ _)
      have hd13 : disjointKeys f1 f3 :=
        hd1 f3 (List.mem_cons_of_mem _ (List.mem_cons_self _ _))
      have hd23 : disjointKeys f2 f3 := hd2 f3 (List.mem_cons_self _ _)
      rcases hside f1 hm1 with h1 | h1 <;> rcases hside f2 hm2 with h2 | h2 <;>
        rcases hside f3 hm3 with h3 | h3
      · exact same_side_contra h1 h2 (hfne f1 hm1) hd12
      · exact same_side_contra h1 h2 (hfne f1 hm1) hd12
      · exact same_side_contra h1 h3 (hfne f1 hm1) hd13
      · exact same_side_contra h2 h3 (hfne f2 hm2) hd23
      · exact same_side_contra h2 h3 (hfne f2 hm2) hd23
      · exact same_side_contra h1 h3 (hfne f1 hm1) hd13
      · exact same_side_contra h1 h2 (hfne f1 hm1) hd12
      · exact same_side_contra h1 h2 (hfne f1 hm1) hd12

/-- C3 witness: on the partition `[{"0":["2"],"2":[]}]`, removing the sole
bridging edge `"0"→"2"` splits the single component into two fragments whose
key sets are exactly `{"0"}` and `{"2"}`. -/
theorem removeEdge_split_correctness_witness :
    (([[("0", ["2"]), ("2", [])]] : List AdjList).findIdx?
        (fun cp => decide (keyMem cp "0" ∧ keyMem cp "2")) = some 0) ∧
    ([[("0", ["2"]), ("2", [])]] : List AdjList).get? 0 = some [("0", ["2"]), ("2", [])] ∧
    removeEdgeFromAdjacencyList [("0", ["2"]), ("2", [])] "0" "2" false =
      some [("0", []), ("2", [])] ∧
    NoDangling [("0", ["2"]), ("2", [])] ∧
    (∃ f1 f2, removeEdgeFromAdjacencyListComponents [[("0", ["2"]), ("2", [])]] "0" "2" =
        some (([[("0", ["2"]), ("2", [])]] : List AdjList).eraseIdx 0 ++ [f1, f2]) ∧
      ((∀ x, (x ∈ keysOf f1 ↔ x ∈ ["0"]) ∧ (x ∈ keysOf f2 ↔ x ∈ ["2"])) ∨
       (∀ x, (x ∈ keysOf f1 ↔ x ∈ ["2"]) ∧ (x ∈ keysOf f2 ↔ x ∈ ["0"])))) := by
  refine ⟨by decide, by decide, by decide, by decide, ?_⟩
  exact (removeEdge_split_correctness [[("0", ["2"]), ("2", [])]] "0" "2" 0
      [("0", ["2"]), ("2", [])] [("0", []), ("2", [])]
      (by decide) (by decide) (by decide) (by decide)).2
    ["0"] ["2"]
    (by intro x; simp [keysOf])
    (by decide) (by decide) (by decide)
    (by decide)
    (by
      intro x hx y hy
      rw [List.mem_singleton] at hx hy
      subst hx
      subst hy
      exact Relation.ReflTransGen.refl)
    (by
      intro x hx y hy
      rw [List.mem_singleton] at hx hy
      subst hx
      subst hy
      exact Relation.ReflTransGen.refl)

/-!
## C1: the partition invariant of the component-level operations
-/

theorem findIdx?_go_get {α : Type} (p : α → Bool) :
    ∀ (l : List α) (s i : Nat), List.findIdx? p l s = some i →
      s ≤ i ∧ ∃ a, l.get? (i - s) = some a ∧ p a = true := by
  intro l
  induction l with
  | nil => intro s i h; simp [List.findIdx?] at h
  | cons x xs ih =>
    intro s i h
    rw [List.findIdx?_cons] at h
    by_cases hx : p x
    · rw [if_pos hx] at h
      injection h with h
      subst h
      exact ⟨Nat.le_refl _, x, by simp, hx⟩
    · rw [if_neg hx] at h
      obtain ⟨hs, a, ha, hpa⟩ := ih (s + 1) i h
      refine ⟨by omega, a, ?_, hpa⟩
      rw [show i - s = (i - (s + 1)) + 1 from by omega]
      simpa using ha

theorem findIdx?_some_get {α : Type} {p : α → Bool} {l : List α} {i : Nat}
    (h : l.findIdx? p = some i) : ∃ a, l.get? i = some a ∧ p a = true := by
  obtain ⟨-, a, ha, hpa⟩ := findIdx?_go_get p l 0 i h
  exact ⟨a, by simpa using ha, hpa⟩

theorem findIdx?_go_of_exists {α : Type} (p : α → Bool) :
    ∀ (l : List α) (s : Nat), (∃ x ∈ l, p x = true) →
      ∃ i, List.findIdx? p l s = some i := by
  intro l
  induction l with
  | nil => intro s h; simp at h
  | cons x xs ih =>
    intro s h
    rw [List.findIdx?_cons]
    by_cases hx : p x
    · exact ⟨s, by rw [if_pos hx]⟩
    · rw [if_neg hx]
      obtain ⟨y, hy, hpy⟩ := h
      rcases List.mem_cons.mp hy with h1 | h1
      · exact absurd (h1 ▸ hpy) hx
      · exact ih (s + 1) ⟨y, h1, hpy⟩

theorem findIdx?_of_exists {α : Type} {p : α → Bool} {l : List α}
    (h : ∃ x ∈ l, p x = true) : ∃ i, l.findIdx? p = some i :=
  findIdx?_go_of_exists p l 0 h

theorem mem_eraseIdx_or {α : Type} :
    ∀ (cs : List α) (i : Nat) (comp : α), cs.get? i = some comp →
      ∀ z ∈ cs, z ∈ cs.eraseIdx i ∨ z = comp := by
  intro cs
  induction cs with
  | nil => intro i comp h; simp at h
  | cons c rest ih =>
    intro i comp h z hz
    match i with
    | 0 =>
      have hc : c = comp := by simpa using h
      rcases List.mem_cons.mp hz with h1 | h1
      · exact Or.inr (h1.trans hc)
      · exact Or.inl (by simpa [List.eraseIdx] using h1)
    | i + 1 =>
      rcases List.mem_cons.mp hz with h1 | h1
      · exact Or.inl (by rw [h1]; simp [List.eraseIdx])
      · rcases ih i comp (by simpa using h) z h1 with h2 | h2
        · refine Or.inl ?_
          rw [show (c :: rest).eraseIdx (i + 1) = c :: rest.eraseIdx i from rfl]
          exact List.mem_cons_of_mem _ h2
        · exact Or.inr h2

theorem pairwise_eraseIdx_rel {R : AdjList → AdjList → Prop}
    (hsymm : ∀ {a b : AdjList}, R a b → R b a) :
    ∀ (cs : List AdjList) (i : Nat) (comp : AdjList),
      cs.get? i = some comp → List.Pairwise R cs →
      ∀ d ∈ cs.eraseIdx i, R d comp := by
  intro cs
  induction cs with
  | nil => intro i comp h; simp at h
  | cons c rest ih =>
    intro i comp h hp d hd
    obtain ⟨hhead, htail⟩ := List.pairwise_cons.mp hp
    match i with
    | 0 =>
      have hc : c = comp := by simpa using h
      rw [show (c :: rest).eraseIdx 0 = rest from rfl] at hd
      exact hsymm (hc ▸ hhead d hd)
    | i + 1 =>
      rw [show (c :: rest).eraseIdx (i + 1) = c :: rest.eraseIdx i from rfl] at hd
      rcases List.mem_cons.mp hd with h1 | h1
      · subst h1
        exact hhead comp (List.get?_mem (by simpa using h))
      · exact ih i comp (by simpa using h) htail d h1

theorem get?_eraseIdx_ne {α : Type} :
    ∀ (l : List α) (a b : Nat), a ≠ b →
      (l.eraseIdx a).get? (if a < b then b - 1 else b) = l.get? b := by
  intro l
  induction l with
  | nil => intro a b hab; simp [List.eraseIdx]
  | cons x xs ih =>
    intro a b hab
    match a, b with
    | 0, 0 => exact absurd rfl hab
    | 0, b + 1 =>
      rw [if_pos (by omega)]
      simp [List.eraseIdx]
    | a + 1, 0 =>
      rw [if_neg (by omega)]
      simp [List.eraseIdx]
    | a + 1, b + 1 =>
      have hab2 : a ≠ b := by omega
      have hrec := ih a b hab2
      rw [show ((x :: xs).eraseIdx (a + 1)) = x :: xs.eraseIdx a from rfl]
      by_cases hlt : a < b
      · rw [if_pos (show a + 1 < b + 1 by omega)]
        rw [if_pos hlt] at hrec
        rw [show b + 1 - 1 = (b - 1) + 1 from by omega]
        rw [List.get?_cons_succ, List.get?_cons_succ]
        exact hrec
      · rw [if_neg (show ¬ a + 1 < b + 1 by omega)]
        rw [if_neg hlt] at hrec
        rw [List.get?_cons_succ, List.get?_cons_succ]
        exact hrec

theorem disjointKeys_symm {a b : AdjList} (h : disjointKeys a b) : disjointKeys b a :=
  fun x hx hc => h x hc hx

theorem partitionDisjoint_set :
    ∀ (cs : List AdjList) (i : Nat) (comp comp1 : AdjList),
      cs.get? i = some comp → PartitionDisjoint cs →
      (∀ x ∈ keysOf comp1, x ∈ keysOf comp) →
      PartitionDisjoint (cs.set i comp1) := by
  intro cs
  induction cs with
  | nil => intro i comp comp1 h; simp at h
  | cons c rest ih =>
    intro i comp comp1 h hpd hsub
    obtain ⟨hhead, htail⟩ := List.pairwise_cons.mp hpd
    match i with
    | 0 =>
      have hc : c = comp := by simpa using h
      subst hc
      rw [List.set_cons_zero]
      exact List.pairwise_cons.mpr
        ⟨fun d hd x hx hc2 => hhead d hd x (hsub x hx) hc2, htail⟩
    | i + 1 =>
      rw [List.set_cons_succ]
      refine List.pairwise_cons.mpr ⟨?_, ih i comp comp1 (by simpa using h) htail hsub⟩
      intro d hd
      rcases List.mem_or_eq_of_mem_set hd with h1 | h1
      · exact hhead d h1
      · subst h1
        intro x hx hc2
        exact hhead comp (List.get?_mem (by simpa using h)) x hx (hsub _ hc2)

theorem inPartition_set :
    ∀ (cs : List AdjList) (i : Nat) (comp comp1 : AdjList),
      cs.get? i = some comp → (∀ x, x ∈ keysOf comp1 ↔ x ∈ keysOf comp) →
      ∀ x, inPartition (cs.set i comp1) x ↔ inPartition cs x := by
  intro cs
  induction cs with
  | nil => intro i comp comp1 h; simp at h
  | cons c rest ih =>
    intro i comp comp1 h hkeys x
    match i with
    | 0 =>
      have hc : c = comp := by simpa using h
      subst hc
      rw [List.set_cons_zero]
      unfold inPartition
      simp only [List.mem_cons]
      constructor
      · rintro ⟨d, (hd | hd), hx⟩
        · exact ⟨c, Or.inl rfl, (hkeys x).mp (hd ▸ hx)⟩
        · exact ⟨d, Or.inr hd, hx⟩
      · rintro ⟨d, (hd | hd), hx⟩
        · exact ⟨comp1, Or.inl rfl, (hkeys x).mpr (hd ▸ hx)⟩
        · exact ⟨d, Or.inr hd, hx⟩
    | i + 1 =>
      rw [List.set_cons_succ]
      have hrest := ih i comp comp1 (by simpa using h) hkeys x
      unfold inPartition at hrest ⊢
      simp only [List.mem_cons]
      constructor
      · rintro ⟨d, (hd | hd), hx⟩
        · exact ⟨d, Or.inl hd, hx⟩
        · obtain ⟨e, he, hxe⟩ := hrest.mp ⟨d, hd, hx⟩
          exact ⟨e, Or.inr he, hxe⟩
      · rintro ⟨d, (hd | hd), hx⟩
        · exact ⟨d, Or.inl hd, hx⟩
        · obtain ⟨e, he, hxe⟩ := hrest.mpr ⟨d, hd, hx⟩
          exact ⟨e, Or.inr he, hxe⟩

theorem objAssign_foldl_lookup_skip (b : AdjList) (k : String) (h : k ∉ keysOf b) :
    ∀ acc : AdjList,
      lookupA (b.foldl (fun acc kv => objSet acc kv.1 kv.2) acc) k = lookupA acc k := by
  induction b with
  | nil => intro acc; rfl
  | cons kv rest ih =>
    intro acc
    have hk : kv.1 ≠ k := fun hc =>
      h (by rw [← hc]; exact List.mem_map_of_mem _ (List.mem_cons_self _ _))
    have hrest : k ∉ keysOf rest := fun hc =>
      h (by simpa [keysOf] using Or.inr (by simpa [keysOf] using hc))
    rw [List.foldl_cons, ih hrest, lookupA_objSet_ne _ _ _ _ (Ne.symm hk)]

theorem objAssign_lookup_left (a b : AdjList) (k : String) (h : k ∉ keysOf b) :
    lookupA (objAssign a b) k = lookupA a k :=
  objAssign_foldl_lookup_skip b k h a

theorem objAssign_lookup_right (k : String) :
    ∀ (b : AdjList), (keysOf b).Nodup → k ∈ keysOf b →
      ∀ a : AdjList, lookupA (objAssign a b) k = lookupA b k := by
  intro b
  induction b with
  | nil => intro _ h; simp [keysOf] at h
  | cons kv rest ih =>
    intro hb h a
    obtain ⟨k0, v0⟩ := kv
    have hstep : objAssign a ((k0, v0) :: rest) = objAssign (objSet a k0 v0) rest := rfl
    rw [hstep]
    have hnodup : k0 ∉ keysOf rest ∧ (keysOf rest).Nodup := by simpa [keysOf] using hb
    by_cases hk : k0 = k
    · subst hk
      rw [objAssign_lookup_left _ rest k0 hnodup.1, lookupA_objSet_self]
      simp [lookupA]
    · have hr : k ∈ keysOf rest := by
        have h2 : k = k0 ∨ k ∈ keysOf rest := by simpa [keysOf] using h
        rcases h2 with h2 | h2
        · exact absurd h2.symm hk
        · exact h2
      rw [ih hnodup.2 hr (objSet a k0 v0)]
      simp [lookupA, hk]

theorem merge_foldl_lookup_skip (k : String) :
    ∀ (ls : List AdjList), (∀ g ∈ ls, k ∉ keysOf g) →
      ∀ acc : AdjList, lookupA (ls.foldl objAssign acc) k = lookupA acc k := by
  intro ls
  induction ls with
  | nil => intro _ acc; rfl
  | cons g rest ih =>
    intro h acc
    rw [List.foldl_cons, ih (fun e he => h e (List.mem_cons_of_mem _ he)),
      objAssign_lookup_left acc g k (h g (List.mem_cons_self _ _))]

theorem merge_foldl_lookup (k : String) :
    ∀ (ls : List AdjList), List.Pairwise disjointKeys ls →
      (∀ g ∈ ls, (keysOf g).Nodup) →
      ∀ f ∈ ls, k ∈ keysOf f →
        ∀ acc : AdjList, lookupA (ls.foldl objAssign acc) k = lookupA f k := by
  intro ls
  induction ls with
  | nil => intro _ _ f hf; simp at hf
  | cons g rest ih =>
    intro hpd hnd f hf hk acc
    obtain ⟨hhead, htail⟩ := List.pairwise_cons.mp hpd
    rw [List.foldl_cons]
    rcases List.mem_cons.mp hf with h1 | h1
    · subst h1
      rw [merge_foldl_lookup_skip k rest (fun e he => hhead e he k hk) _]
      exact objAssign_lookup_right k f (hnd f (List.mem_cons_self _ _)) hk acc
    · exact ih htail (fun e he => hnd e (List.mem_cons_of_mem _ he)) f h1 hk _

theorem merge_lookup (k : String) (ls : List AdjList)
    (hpd : List.Pairwise disjointKeys ls) (hnd : ∀ g ∈ ls, (keysOf g).Nodup)
    (f : AdjList) (hf : f ∈ ls) (hk : k ∈ keysOf f) :
    lookupA (mergeAdjacencyListsOfUnconnectedGraphs ls) k = lookupA f k :=
  merge_foldl_lookup k ls hpd hnd f hf hk []

theorem merge_noDangling (ls : List AdjList) (hpd : List.Pairwise disjointKeys ls)
    (hnd : ∀ g ∈ ls, (keysOf g).Nodup) (hN : ∀ g ∈ ls, NoDangling g) :
    NoDangling (mergeAdjacencyListsOfUnconnectedGraphs ls) := by
  intro kv hkv nb hnb
  have hndm := merge_keys_nodup ls
  have hlk : lookupA (mergeAdjacencyListsOfUnconnectedGraphs ls) kv.1 = some kv.2 :=
    lookupA_of_mem_nodup hndm hkv
  have hk1 : kv.1 ∈ keysOf (mergeAdjacencyListsOfUnconnectedGraphs ls) :=
    List.mem_map_of_mem _ hkv
  obtain ⟨f, hf, hkf⟩ := (merge_mem_keysOf ls kv.1).mp hk1
  have hlkf : lookupA f kv.1 = some kv.2 := by
    rw [← merge_lookup kv.1 ls hpd hnd f hf hkf]
    exact hlk
  rw [merge_mem_keysOf]
  exact ⟨f, hf, hN f hf (kv.1, kv.2) (lookupA_mem hlkf) nb hnb⟩

theorem mem_registerNbrs_cases : ∀ (nbrs : List String) (g : AdjList)
    (kv : String × List String), kv ∈ registerNbrs g nbrs → kv ∈ g ∨ kv.2 = [] := by
  intro nbrs
  induction nbrs with
  | nil => intro g kv h; exact Or.inl h
  | cons nb rest ih =>
    intro g kv h
    have hstep : registerNbrs g (nb :: rest)
        = registerNbrs (if keyMem g nb then g else g ++ [(nb, [])]) rest := rfl
    rw [hstep] at h
    by_cases hm : keyMem g nb
    · rw [if_pos hm] at h
      exact ih g kv h
    · rw [if_neg hm] at h
      rcases ih _ kv h with h1 | h1
      · rcases List.mem_append.mp h1 with h2 | h2
        · exact Or.inl h2
        · rw [List.mem_singleton] at h2
          rw [h2]
          exact Or.inr rfl
      · exact Or.inr h1

theorem addNode_noDangling {g : AdjList} (n : String) (nbrs : List String)
    (hN : NoDangling g) : NoDangling (addNodeToAdjacencyList g n nbrs) := by
  intro kv hkv nb hnb
  rw [addNode_mem_keysOf]
  unfold addNodeToAdjacencyList at hkv
  rcases mem_objSet_cases _ _ _ kv hkv with h1 | h1
  · rcases mem_registerNbrs_cases nbrs g kv h1 with h2 | h2
    · exact Or.inl (hN kv h2 nb hnb)
    · rw [h2] at hnb
      simp at hnb
  · subst h1
    match hl : lookupA (registerNbrs g nbrs) n with
    | none =>
      rw [hl] at hnb
      dsimp at hnb
      exact Or.inr (Or.inr hnb)
    | some old =>
      rw [hl] at hnb
      dsimp at hnb
      rw [mem_dedupFirst] at hnb
      rcases List.mem_append.mp hnb with h3 | h3
      · rcases mem_registerNbrs_cases nbrs g (n, old) (lookupA_mem hl) with h4 | h4
        · exact Or.inl (hN (n, old) h4 nb h3)
        · dsimp at h4
          rw [h4] at h3
          simp at h3
      · exact Or.inr (Or.inr h3)

theorem removeNode_noDangling {g : AdjList} {n : String} (hN : NoDangling g) :
    NoDangling (removeNodeFromAdjacencyList g n) := by
  intro kv hkv nb hnb
  unfold removeNodeFromAdjacencyList at hkv
  rw [List.mem_filter] at hkv
  obtain ⟨hkv1, hkv2⟩ := hkv
  rw [List.mem_map] at hkv1
  obtain ⟨kv0, hkv0, hmap⟩ := hkv1
  rw [← hmap] at hnb
  dsimp at hnb
  rw [List.mem_filter] at hnb
  obtain ⟨hnb1, hnb2⟩ := hnb
  rw [removeNode_keysOf, List.mem_filter]
  exact ⟨hN kv0 hkv0 nb hnb1, hnb2⟩

theorem getCC_frag_wf (g : AdjList) {frags : List AdjList}
    (h : getConnectedComponents_directed g = some frags) :
    ∀ f ∈ frags, NoDangling f := by
  obtain ⟨hnd, hmem, hlk, hne, hroots, hclosed⟩ := getCC_shape g frags h
  have hself := fragsClosed_self g frags [] hclosed (by simpa using hnd) (by simp)
  obtain ⟨-, hfnd⟩ := getCC_disjoint g h
  intro f hf kv hkv nb hnb
  have hk1 : kv.1 ∈ keysOf f := List.mem_map_of_mem _ hkv
  have hlkf : lookupA f kv.1 = some kv.2 := lookupA_of_mem_nodup (hfnd f hf) hkv
  have hgl : lookupA g kv.1 = some kv.2 := by
    rw [← hlk f hf kv.1 hk1]
    exact hlkf
  refine hself f hf kv.1 hk1 nb (Or.inl ?_)
  rw [valD, hgl]
  exact hnb

theorem getCC_package (g : AdjList) (hN : NoDangling g) :
    ∃ frags, getConnectedComponents_directed g = some frags ∧
      PartitionDisjoint frags ∧ (∀ f ∈ frags, (keysOf f).Nodup) ∧
      (∀ f ∈ frags, NoDangling f) ∧
      (∀ x, (∃ f ∈ frags, x ∈ keysOf f) ↔ x ∈ keysOf g) := by
  obtain ⟨frags, hfr⟩ := getCC_success g hN
  obtain ⟨hpd, hnd⟩ := getCC_disjoint g hfr
  have hNfr := getCC_frag_wf g hfr
  obtain ⟨-, hmem, -, -, -, -⟩ := getCC_shape g frags hfr
  refine ⟨frags, hfr, hpd, hnd, hNfr, ?_⟩
  intro x
  rw [← hmem x]
  constructor
  · rintro ⟨f, hf, hx⟩
    exact List.mem_flatten.mpr ⟨keysOf f, List.mem_map_of_mem _ hf, hx⟩
  · intro hx
    obtain ⟨l, hl, hxl⟩ := List.mem_flatten.mp hx
    obtain ⟨f, hf, hfl⟩ := List.mem_map.mp hl
    exact ⟨f, hf, hfl ▸ hxl⟩

theorem removeFirstContaining_none :
    ∀ (l : List AdjList) (nb : String), removeFirstContaining l nb = none →
      ∀ c ∈ l, nb ∉ keysOf c := by
  intro l
  induction l with
  | nil => intro nb _ c hc; simp at hc
  | cons c0 tail ih =>
    intro nb h c hc
    unfold removeFirstContaining at h
    by_cases hk : keyMem c0 nb
    · rw [if_pos hk] at h
      exact absurd h (by simp)
    · rw [if_neg hk] at h
      rcases List.mem_cons.mp hc with h1 | h1
      · subst h1
        exact fun hc2 => hk ((keyMem_iff_mem_keysOf c nb).mpr hc2)
      · match hrec : removeFirstContaining tail nb with
        | none => exact ih nb hrec c h1
        | some cr =>
          rw [hrec] at h
          simp at h

theorem removeFirstContaining_some :
    ∀ (l : List AdjList) (nb : String) (c : AdjList) (rest : List AdjList),
      removeFirstContaining l nb = some (c, rest) →
      nb ∈ keysOf c ∧ (c :: rest).Perm l ∧ List.Sublist rest l := by
  intro l
  induction l with
  | nil => intro nb c rest h; simp [removeFirstContaining] at h
  | cons c0 tail ih =>
    intro nb c rest h
    unfold removeFirstContaining at h
    by_cases hk : keyMem c0 nb
    · rw [if_pos hk] at h
      have h2 : c0 = c ∧ tail = rest := by simpa using h
      obtain ⟨h3, h4⟩ := h2
      subst h3
      subst h4
      exact ⟨(keyMem_iff_mem_keysOf c0 nb).mp hk, List.Perm.refl _,
        List.sublist_cons_self _ _⟩
    · rw [if_neg hk] at h
      match hrec : removeFirstContaining tail nb with
      | none =>
        rw [hrec] at h
        simp at h
      | some (c1, rest1) =>
        rw [hrec] at h
        simp only [Option.map_some', Option.some.injEq, Prod.mk.injEq] at h
        obtain ⟨h3, h4⟩ := h
        subst h3
        subst h4
        obtain ⟨hm, hp, hs⟩ := ih nb c1 rest1 hrec
        refine ⟨hm, ?_, List.Sublist.cons₂ _ hs⟩
        exact (List.Perm.swap c0 c1 rest1).trans (List.Perm.cons c0 hp)

/-- The fold step of `gatherNeighborComponents`, named for proofs. -/
def gatherStep (rg : List AdjList × List AdjList) (nb : String) :
    List AdjList × List AdjList :=
  match removeFirstContaining rg.1 nb with
  | some cr => (cr.2, rg.2 ++ [cr.1])
  | none => rg

theorem gatherNeighborComponents_eq (cs : List AdjList) (nbrs : List String) :
    gatherNeighborComponents cs nbrs = nbrs.foldl gatherStep (cs, []) := rfl

theorem gather_fold_spec :
    ∀ (nbrs : List String) (r g : List AdjList), List.Pairwise disjointKeys r →
      List.Sublist (nbrs.foldl gatherStep (r, g)).1 r ∧
      ((nbrs.foldl gatherStep (r, g)).1 ++ (nbrs.foldl gatherStep (r, g)).2).Perm (r ++ g) ∧
      (∀ nb ∈ nbrs, ∀ d ∈ (nbrs.foldl gatherStep (r, g)).1, nb ∉ keysOf d) := by
  intro nbrs
  induction nbrs with
  | nil =>
    intro r g _
    exact ⟨List.Sublist.refl _, List.Perm.refl _, by simp⟩
  | cons nb rest ih =>
    intro r g hpd
    rw [List.foldl_cons]
    match hrm : removeFirstContaining r nb with
    | none =>
      rw [show gatherStep (r, g) nb = (r, g) from by simp [gatherStep, hrm]]
      obtain ⟨hs, hp, hn⟩ := ih r g hpd
      refine ⟨hs, hp, ?_⟩
      intro e he d hd
      rcases List.mem_cons.mp he with h1 | h1
      · subst h1
        exact removeFirstContaining_none r e hrm d (hs.subset hd)
      · exact hn e h1 d hd
    | some (c, rest1) =>
      rw [show gatherStep (r, g) nb = (rest1, g ++ [c]) from by simp [gatherStep, hrm]]
      obtain ⟨hmc, hperm, hsub⟩ := removeFirstContaining_some r nb c rest1 hrm
      have hpd1 : List.Pairwise disjointKeys rest1 := hpd.sublist hsub
      have hpdc : List.Pairwise disjointKeys (c :: rest1) :=
        (hperm.pairwise_iff (fun h => disjointKeys_symm h)).mpr hpd
      have hcfree : ∀ d ∈ rest1, nb ∉ keysOf d := by
        intro d hd
        exact (List.pairwise_cons.mp hpdc).1 d hd nb hmc
      obtain ⟨hs, hp, hn⟩ := ih rest1 (g ++ [c]) hpd1
      refine ⟨hs.trans hsub, ?_, ?_⟩
      · refine hp.trans ?_
        rw [← List.append_assoc]
        exact List.perm_append_comm.trans (hperm.append_right g)
      · intro e he d hd
        rcases List.mem_cons.mp he with h1 | h1
        · subst h1
          exact hcfree d (hs.subset hd)
        · exact hn e h1 d hd

/-- Well-formedness of a components list: no key is shared between two
components, every component's key list is duplicate-free (true JS objects),
and no component has a dangling neighbor. -/
def CompsWF (cs : List AdjList) : Prop :=
  PartitionDisjoint cs ∧ (∀ c ∈ cs, (keysOf c).Nodup) ∧ (∀ c ∈ cs, NoDangling c)

instance (cs : List AdjList) : Decidable (CompsWF cs) := by
  unfold CompsWF; infer_instance

/-- The four component-level insert/remove operations of `src/tree.js`. -/
inductive GOp : Type where
  | insNode (n : String) (nbrs : List String)
  | remNode (n : String)
  | insEdge (p c : String)
  | remEdge (p c : String)

/-- Dispatch one operation to the corresponding `src/tree.js` function
(`addNodetoAdjacencyListComponents` never throws, the other three can). -/
def applyOp (cs : List AdjList) : GOp → Option (List AdjList)
  | .insNode n nbrs => some (addNodetoAdjacencyListComponents cs n nbrs)
  | .remNode n => removeNodeFromAdjacencyListComponents cs n
  | .insEdge p c => addEdgeToAdjacencyListComponents cs p c
  | .remEdge p c => removeEdgeFromAdjacencyListComponents cs p c

/-- Sanity preconditions of one operation: an inserted node id must be fresh,
an inserted edge's endpoints must already be present, and a removed edge's
endpoints must sit in one common component. -/
def okOp (cs : List AdjList) : GOp → Prop
  | .insNode n _ => ¬ inPartition cs n
  | .remNode _ => True
  | .insEdge p c => inPartition cs p ∧ inPartition cs c
  | .remEdge p c => ∃ comp ∈ cs, p ∈ keysOf comp ∧ c ∈ keysOf comp

instance (cs : List AdjList) (op : GOp) : Decidable (okOp cs op) := by
  cases op <;> (unfold okOp; infer_instance)

/-- The node universe after one operation: an insert adds the node and its
referenced neighbors, a node removal deletes the id, edge operations leave
the universe unchanged. -/
def opUniverse (S : List String) : GOp → List String
  | .insNode n nbrs => S ++ n :: nbrs
  | .remNode n => S.filter (fun x => x ≠ n)
  | .insEdge _ _ => S
  | .remEdge _ _ => S

theorem insNode_preserves {cs : List AdjList} {n : String} {nbrs : List String}
    (hwf : CompsWF cs) (hok : ¬ inPartition cs n) :
    CompsWF (addNodetoAdjacencyListComponents cs n nbrs) ∧
    (∀ x, inPartition (addNodetoAdjacencyListComponents cs n nbrs) x ↔
      inPartition cs x ∨ x = n ∨ x ∈ nbrs) := by
  obtain ⟨hpd, hnd, hN⟩ := hwf
  by_cases hemp : nbrs.isEmpty
  · have hnil : nbrs = [] := by simpa using hemp
    subst hnil
    have hform : addNodetoAdjacencyListComponents cs n [] = cs ++ [[(n, [])]] := rfl
    rw [hform]
    constructor
    · refine ⟨?_, ?_, ?_⟩
      · rw [PartitionDisjoint, List.pairwise_append]
        refine ⟨hpd, List.pairwise_singleton _ _, ?_⟩
        intro d hd b hb
        rw [List.mem_singleton] at hb
        subst hb
        intro x hx hc
        have hxn : x = n := by simpa [keysOf] using hc
        subst hxn
        exact hok ⟨d, hd, hx⟩
      · intro e he
        rcases List.mem_append.mp he with h1 | h1
        · exact hnd e h1
        · rw [List.mem_singleton] at h1
          subst h1
          simp [keysOf]
      · intro e he
        rcases List.mem_append.mp he with h1 | h1
        · exact hN e h1
        · rw [List.mem_singleton] at h1
          subst h1
          intro kv hkv nb hnb
          rw [List.mem_singleton] at hkv
          subst hkv
          simp at hnb
    · intro x
      unfold inPartition
      constructor
      · rintro ⟨d, hd, hx⟩
        rcases List.mem_append.mp hd with h1 | h1
        · exact Or.inl ⟨d, h1, hx⟩
        · rw [List.mem_singleton] at h1
          subst h1
          have hxn : x = n := by simpa [keysOf] using hx
          exact Or.inr (Or.inl hxn)
      · rintro (⟨d, hd, hx⟩ | h | h)
        · exact ⟨d, List.mem_append_left _ hd, hx⟩
        · exact ⟨[(n, [])], List.mem_append_right _ (List.mem_singleton_self _),
            by simp [keysOf, h]⟩
        · simp at h
  · have hform : addNodetoAdjacencyListComponents cs n nbrs
        = (nbrs.foldl gatherStep (cs, [])).1 ++
          [addNodeToAdjacencyList
            (mergeAdjacencyListsOfUnconnectedGraphs (nbrs.foldl gatherStep (cs, [])).2)
            n nbrs] := by
      unfold addNodetoAdjacencyListComponents
      rw [if_neg hemp]
      rfl
    obtain ⟨hsub, hperm0, hnbfree⟩ := gather_fold_spec nbrs cs [] hpd
    rw [List.append_nil] at hperm0
    rw [hform]
    have hpwAll : List.Pairwise disjointKeys
        ((nbrs.foldl gatherStep (cs, [])).1 ++ (nbrs.foldl gatherStep (cs, [])).2) :=
      (hperm0.pairwise_iff (fun h => disjointKeys_symm h)).mpr hpd
    obtain ⟨hpr, hpg, hcross⟩ := List.pairwise_append.mp hpwAll
    have hmemr : ∀ z ∈ (nbrs.foldl gatherStep (cs, [])).1, z ∈ cs := fun z hz =>
      hsub.subset hz
    have hmemg : ∀ z ∈ (nbrs.foldl gatherStep (cs, [])).2, z ∈ cs := fun z hz =>
      hperm0.mem_iff.mp (List.mem_append_right _ hz)
    have hgnd : ∀ e ∈ (nbrs.foldl gatherStep (cs, [])).2, (keysOf e).Nodup :=
      fun e he => hnd e (hmemg e he)
    have hgN : ∀ e ∈ (nbrs.foldl gatherStep (cs, [])).2, NoDangling e :=
      fun e he => hN e (hmemg e he)
    have hnewkeys : ∀ x, x ∈ keysOf (addNodeToAdjacencyList
        (mergeAdjacencyListsOfUnconnectedGraphs (nbrs.foldl gatherStep (cs, [])).2) n nbrs)
        ↔ (∃ f ∈ (nbrs.foldl gatherStep (cs, [])).2, x ∈ keysOf f) ∨ x = n ∨ x ∈ nbrs := by
      intro x
      rw [addNode_mem_keysOf, merge_mem_keysOf]
    constructor
    · refine ⟨?_, ?_, ?_⟩
      · rw [PartitionDisjoint, List.pairwise_append]
        refine ⟨hpr, List.pairwise_singleton _ _, ?_⟩
        intro d hd b hb
        rw [List.mem_singleton] at hb
        subst hb
        intro x hx hc
        rcases (hnewkeys x).mp hc with ⟨f, hf, hxf⟩ | hxn | hxnb
        · exact hcross d hd f hf x hx hxf
        · subst hxn
          exact hok ⟨d, hmemr d hd, hx⟩
        · exact hnbfree x hxnb d hd hx
      · intro e he
        rcases List.mem_append.mp he with h1 | h1
        · exact hnd e (hmemr e h1)
        · rw [List.mem_singleton] at h1
          subst h1
          exact addNode_keys_nodup _ _ _ (merge_keys_nodup _)
      · intro e he
        rcases List.mem_append.mp he with h1 | h1
        · exact hN e (hmemr e h1)
        · rw [List.mem_singleton] at h1
          subst h1
          exact addNode_noDangling n nbrs (merge_noDangling _ hpg hgnd hgN)
    · intro x
      unfold inPartition
      constructor
      · rintro ⟨d, hd, hx⟩
        rcases List.mem_append.mp hd with h1 | h1
        · exact Or.inl ⟨d, hmemr d h1, hx⟩
        · rw [List.mem_singleton] at h1
          subst h1
          rcases (hnewkeys x).mp hx with ⟨f, hf, hxf⟩ | hxn | hxnb
          · exact Or.inl ⟨f, hmemg f hf, hxf⟩
          · exact Or.inr (Or.inl hxn)
          · exact Or.inr (Or.inr hxnb)
      · rintro (⟨d, hd, hx⟩ | h | h)
        · rcases List.mem_append.mp (hperm0.mem_iff.mpr hd) with h1 | h1
          · exact ⟨d, List.mem_append_left _ h1, hx⟩
          · refine ⟨_, List.mem_append_right _ (List.mem_singleton_self _), ?_⟩
            exact (hnewkeys x).mpr (Or.inl ⟨d, h1, hx⟩)
        · exact ⟨_, List.mem_append_right _ (List.mem_singleton_self _),
            (hnewkeys x).mpr (Or.inr (Or.inl h))⟩
        · exact ⟨_, List.mem_append_right _ (List.mem_singleton_self _),
            (hnewkeys x).mpr (Or.inr (Or.inr h))⟩

theorem inPartition_cons (c : AdjList) (cs : List AdjList) (x : String) :
    inPartition (c :: cs) x ↔ x ∈ keysOf c ∨ inPartition cs x := by
  unfold inPartition
  constructor
  · rintro ⟨d, hd, hx⟩
    rcases List.mem_cons.mp hd with h1 | h1
    · exact Or.inl (h1 ▸ hx)
    · exact Or.inr ⟨d, h1, hx⟩
  · rintro (h | ⟨d, hd, hx⟩)
    · exact ⟨c, List.mem_cons_self _ _, h⟩
    · exact ⟨d, List.mem_cons_of_mem _ hd, hx⟩

theorem inPartition_append (l1 l2 : List AdjList) (x : String) :
    inPartition (l1 ++ l2) x ↔ inPartition l1 x ∨ inPartition l2 x := by
  unfold inPartition
  constructor
  · rintro ⟨d, hd, hx⟩
    rcases List.mem_append.mp hd with h1 | h1
    · exact Or.inl ⟨d, h1, hx⟩
    · exact Or.inr ⟨d, h1, hx⟩
  · rintro (⟨d, hd, hx⟩ | ⟨d, hd, hx⟩)
    · exact ⟨d, List.mem_append_left _ hd, hx⟩
    · exact ⟨d, List.mem_append_right _ hd, hx⟩

theorem remNode_preserves :
    ∀ (cs : List AdjList) (n : String), CompsWF cs →
      ∃ cs1, removeNodeFromAdjacencyListComponents cs n = some cs1 ∧ CompsWF cs1 ∧
        (∀ x, inPartition cs1 x ↔ inPartition cs x ∧ x ≠ n) := by
  intro cs
  induction cs with
  | nil =>
    intro n _
    refine ⟨[], rfl, ⟨List.Pairwise.nil, by simp, by simp⟩, ?_⟩
    intro x
    unfold inPartition
    simp
  | cons c rest ih =>
    intro n hwf
    obtain ⟨hpd, hnd, hN⟩ := hwf
    obtain ⟨hhead, htail⟩ := List.pairwise_cons.mp hpd
    have hwfrest : CompsWF rest :=
      ⟨htail, fun e he => hnd e (List.mem_cons_of_mem _ he),
        fun e he => hN e (List.mem_cons_of_mem _ he)⟩
    by_cases hkm : keyMem c n
    · have hcn : n ∈ keysOf c := (keyMem_iff_mem_keysOf c n).mp hkm
      have hc1nd : (keysOf (removeNodeFromAdjacencyList c n)).Nodup := by
        rw [removeNode_keysOf]
        exact (hnd c (List.mem_cons_self _ _)).filter _
      have hc1N : NoDangling (removeNodeFromAdjacencyList c n) :=
        removeNode_noDangling (hN c (List.mem_cons_self _ _))
      have hc1memiff : ∀ x, x ∈ keysOf (removeNodeFromAdjacencyList c n)
          ↔ x ∈ keysOf c ∧ x ≠ n := by
        intro x
        rw [removeNode_keysOf, List.mem_filter]
        simp
      have hrestne : ∀ x, inPartition rest x → x ≠ n := by
        rintro x ⟨d, hd, hx⟩ heq
        subst heq
        exact hhead d hd x hcn hx
      have hdef : removeNodeFromAdjacencyListComponents (c :: rest) n
          = (if (removeNodeFromAdjacencyList c n).isEmpty = true then some rest
             else (getConnectedComponents (removeNodeFromAdjacencyList c n) false).map
               (fun frags => if frags.length > 1
                 then rest ++ frags else removeNodeFromAdjacencyList c n :: rest)) := by
        unfold removeNodeFromAdjacencyListComponents
        rw [if_pos hkm]
      by_cases hempc : (removeNodeFromAdjacencyList c n).isEmpty = true
      · rw [if_pos hempc] at hdef
        refine ⟨rest, hdef, hwfrest, ?_⟩
        intro x
        constructor
        · intro hx
          refine ⟨(inPartition_cons c rest x).mpr (Or.inr hx), hrestne x hx⟩
        · rintro ⟨hx, hxn⟩
          rcases (inPartition_cons c rest x).mp hx with h1 | h1
          · exfalso
            have hx1 : x ∈ keysOf (removeNodeFromAdjacencyList c n) :=
              (hc1memiff x).mpr ⟨h1, hxn⟩
            rw [show removeNodeFromAdjacencyList c n = [] by simpa using hempc] at hx1
            simp [keysOf] at hx1
          · exact h1
      · rw [if_neg hempc] at hdef
        obtain ⟨frags, hfr, hfpd, hfnd, hfN, hfmem⟩ :=
          getCC_package (removeNodeFromAdjacencyList c n) hc1N
        have hgc : getConnectedComponents (removeNodeFromAdjacencyList c n) false
            = some frags := hfr
        rw [hgc, Option.map_some'] at hdef
        by_cases hlen : frags.length > 1
        · rw [if_pos hlen] at hdef
          refine ⟨rest ++ frags, hdef, ⟨?_, ?_, ?_⟩, ?_⟩
          · rw [PartitionDisjoint, List.pairwise_append]
            refine ⟨htail, hfpd, ?_⟩
            intro d hd f hf x hx hc2
            have hxc1 := (hfmem x).mp ⟨f, hf, hc2⟩
            exact hhead d hd x ((hc1memiff x).mp hxc1).1 hx
          · intro e he
            rcases List.mem_append.mp he with h1 | h1
            · exact hnd e (List.mem_cons_of_mem _ h1)
            · exact hfnd e h1
          · intro e he
            rcases List.mem_append.mp he with h1 | h1
            · exact hN e (List.mem_cons_of_mem _ h1)
            · exact hfN e h1
          · intro x
            rw [inPartition_append]
            constructor
            · rintro (hx | ⟨f, hf, hx⟩)
              · exact ⟨(inPartition_cons c rest x).mpr (Or.inr hx), hrestne x hx⟩
              · have hxc1 := (hfmem x).mp ⟨f, hf, hx⟩
                obtain ⟨hxc, hxn⟩ := (hc1memiff x).mp hxc1
                exact ⟨(inPartition_cons c rest x).mpr (Or.inl hxc), hxn⟩
            · rintro ⟨hx, hxn⟩
              rcases (inPartition_cons c rest x).mp hx with h1 | h1
              · exact Or.inr ((hfmem x).mpr ((hc1memiff x).mpr ⟨h1, hxn⟩))
              · exact Or.inl h1
        · rw [if_neg hlen] at hdef
          refine ⟨_, hdef, ⟨?_, ?_, ?_⟩, ?_⟩
          · refine List.pairwise_cons.mpr ⟨?_, htail⟩
            intro d hd x hx hc2
            exact hhead d hd x ((hc1memiff x).mp hx).1 hc2
          · intro e he
            rcases List.mem_cons.mp he with h1 | h1
            · exact h1 ▸ hc1nd
            · exact hnd e (List.mem_cons_of_mem _ h1)
          · intro e he
            rcases List.mem_cons.mp he with h1 | h1
            · exact h1 ▸ hc1N
            · exact hN e (List.mem_cons_of_mem _ h1)
          · intro x
            rw [inPartition_cons]
            constructor
            · rintro (hx | hx)
              · obtain ⟨hxc, hxn⟩ := (hc1memiff x).mp hx
                exact ⟨(inPartition_cons c rest x).mpr (Or.inl hxc), hxn⟩
              · exact ⟨(inPartition_cons c rest x).mpr (Or.inr hx), hrestne x hx⟩
            · rintro ⟨hx, hxn⟩
              rcases (inPartition_cons c rest x).mp hx with h1 | h1
              · exact Or.inl ((hc1memiff x).mpr ⟨h1, hxn⟩)
              · exact Or.inr h1
    · have hncn : n ∉ keysOf c := fun hc2 => hkm ((keyMem_iff_mem_keysOf c n).mpr hc2)
      have hdef : removeNodeFromAdjacencyListComponents (c :: rest) n
          = (removeNodeFromAdjacencyListComponents rest n).map (fun cs1 => c :: cs1) := by
        rw [show removeNodeFromAdjacencyListComponents (c :: rest) n
            = (if keyMem c n then
                (if (removeNodeFromAdjacencyList c n).isEmpty = true then some rest
                 else (getConnectedComponents (removeNodeFromAdjacencyList c n) false).map
                   (fun frags => if frags.length > 1
                     then rest ++ frags else removeNodeFromAdjacencyList c n :: rest))
               else (removeNodeFromAdjacencyListComponents rest n).map
                 (fun cs1 => c :: cs1)) from rfl]
        rw [if_neg hkm]
      obtain ⟨cs1, hcs1, hwf1, huniv⟩ := ih n hwfrest
      rw [hcs1, Option.map_some'] at hdef
      refine ⟨c :: cs1, hdef, ⟨?_, ?_, ?_⟩, ?_⟩
      · refine List.pairwise_cons.mpr ⟨?_, hwf1.1⟩
        intro d hd x hx hc2
        obtain ⟨e, he, hxe⟩ := ((huniv x).mp ⟨d, hd, hc2⟩).1
        exact hhead e he x hx hxe
      · intro e he
        rcases List.mem_cons.mp he with h1 | h1
        · exact h1 ▸ hnd c (List.mem_cons_self _ _)
        · exact hwf1.2.1 e h1
      · intro e he
        rcases List.mem_cons.mp he with h1 | h1
        · exact h1 ▸ hN c (List.mem_cons_self _ _)
        · exact hwf1.2.2 e h1
      · intro x
        rw [inPartition_cons]
        constructor
        · rintro (hx | hx)
          · refine ⟨(inPartition_cons c rest x).mpr (Or.inl hx), ?_⟩
            intro heq
            subst heq
            exact hncn hx
          · obtain ⟨hr, hxn⟩ := (huniv x).mp hx
            exact ⟨(inPartition_cons c rest x).mpr (Or.inr hr), hxn⟩
        · rintro ⟨hx, hxn⟩
          rcases (inPartition_cons c rest x).mp hx with h1 | h1
          · exact Or.inl h1
          · exact Or.inr ((huniv x).mpr ⟨h1, hxn⟩)

theorem inPartition_singleton (d : AdjList) (x : String) :
    inPartition [d] x ↔ x ∈ keysOf d := by
  rw [inPartition_cons]
  unfold inPartition
  simp

theorem insEdge_preserves {cs : List AdjList} {p c : String}
    (hwf : CompsWF cs) (hp : inPartition cs p) (hc : inPartition cs c) :
    ∃ cs1, addEdgeToAdjacencyListComponents cs p c = some cs1 ∧ CompsWF cs1 ∧
      (∀ x, inPartition cs1 x ↔ inPartition cs x) := by
  obtain ⟨hpd, hnd, hN⟩ := hwf
  obtain ⟨dp, hdp, hdpk⟩ := hp
  obtain ⟨dc, hdc, hdck⟩ := hc
  obtain ⟨ia, hia⟩ := @findIdx?_of_exists AdjList (fun comp => decide (keyMem comp p)) cs
    ⟨dp, hdp, decide_eq_true ((keyMem_iff_mem_keysOf dp p).mpr hdpk)⟩
  obtain ⟨compA, hgetA, hpA⟩ := findIdx?_some_get hia
  have hkA : p ∈ keysOf compA := (keyMem_iff_mem_keysOf compA p).mp (of_decide_eq_true hpA)
  obtain ⟨ib, hib⟩ := @findIdx?_of_exists AdjList (fun comp => decide (keyMem comp c)) cs
    ⟨dc, hdc, decide_eq_true ((keyMem_iff_mem_keysOf dc c).mpr hdck)⟩
  obtain ⟨compB, hgetB, hpB⟩ := findIdx?_some_get hib
  have hkB : c ∈ keysOf compB := (keyMem_iff_mem_keysOf compB c).mp (of_decide_eq_true hpB)
  have hmemA : compA ∈ cs := List.get?_mem hgetA
  have hmemB : compB ∈ cs := List.get?_mem hgetB
  have haddE : ∀ g : AdjList, addEdgeToAdjacencyList g p c false
      = some (addNodeToAdjacencyList g p [c]) := fun g => rfl
  have hdef0 : addEdgeToAdjacencyListComponents cs p c
      = (match cs.findIdx? (fun comp => decide (keyMem comp p)),
               cs.findIdx? (fun comp => decide (keyMem comp c)) with
         | none, none => none
         | some a, some b =>
           if a = b then
             (addEdgeToAdjacencyList ((cs.get? a).getD []) p c false).map
               (fun comp1 => cs.set a comp1)
           else
             (addEdgeToAdjacencyList
               (objAssign (objAssign [] ((cs.get? a).getD [])) ((cs.get? b).getD []))
               p c false).map
               (fun merged1 =>
                 ((cs.eraseIdx a).eraseIdx (if a < b then b - 1 else b)) ++ [merged1])
         | some a, none =>
           (addEdgeToAdjacencyList (objAssign [] ((cs.get? a).getD [])) p c false).map
             (fun merged1 => ((cs.eraseIdx a).dropLast) ++ [merged1])
         | none, some b =>
           (addEdgeToAdjacencyList (objAssign [] ((cs.get? b).getD [])) p c false).map
             (fun merged1 =>
               (if b = cs.length - 1 then cs.dropLast.dropLast
                else (cs.dropLast).eraseIdx b) ++ [merged1])) := rfl
  rw [hdef0, hia, hib]
  dsimp only
  by_cases hab : ia = ib
  · subst hab
    rw [if_pos rfl, hgetA]
    simp only [Option.getD_some]
    rw [haddE]
    simp only [Option.map_some']
    have hABeq : compA = compB := by
      rw [hgetA] at hgetB
      exact Option.some.inj hgetB
    have hkBA : c ∈ keysOf compA := hABeq ▸ hkB
    have hkiff : ∀ x, x ∈ keysOf (addNodeToAdjacencyList compA p [c])
        ↔ x ∈ keysOf compA := by
      intro x
      rw [addNode_mem_keysOf]
      constructor
      · rintro (h | h | h)
        · exact h
        · exact h ▸ hkA
        · rw [List.mem_singleton] at h
          exact h ▸ hkBA
      · exact Or.inl
    refine ⟨_, rfl, ⟨?_, ?_, ?_⟩, ?_⟩
    · exact partitionDisjoint_set cs ia compA _ hgetA hpd (fun x hx => (hkiff x).mp hx)
    · intro e he
      rcases List.mem_or_eq_of_mem_set he with h1 | h1
      · exact hnd e h1
      · subst h1
        exact addNode_keys_nodup _ _ _ (hnd compA hmemA)
    · intro e he
      rcases List.mem_or_eq_of_mem_set he with h1 | h1
      · exact hN e h1
      · subst h1
        exact addNode_noDangling _ _ (hN compA hmemA)
    · exact inPartition_set cs ia compA _ hgetA hkiff
  · rw [if_neg hab, hgetA, hgetB]
    simp only [Option.getD_some]
    rw [haddE]
    simp only [Option.map_some']
    have hgetB2 : (cs.eraseIdx ia).get? (if ia < ib then ib - 1 else ib) = some compB := by
      rw [get?_eraseIdx_ne cs ia ib hab]
      exact hgetB
    have hpdE : List.Pairwise disjointKeys (cs.eraseIdx ia) :=
      hpd.sublist (List.eraseIdx_sublist cs ia)
    have hdBA : disjointKeys compB compA :=
      pairwise_eraseIdx_rel (fun h => disjointKeys_symm h) cs ia compA hgetA hpd
        compB (List.get?_mem hgetB2)
    have hdAB : disjointKeys compA compB := disjointKeys_symm hdBA
    have hmergedEq : objAssign (objAssign [] compA) compB
        = mergeAdjacencyListsOfUnconnectedGraphs [compA, compB] := rfl
    have hlsPd : List.Pairwise disjointKeys [compA, compB] := by
      refine List.pairwise_cons.mpr ⟨?_, List.pairwise_singleton _ _⟩
      intro e he
      rw [List.mem_singleton] at he
      exact he ▸ hdAB
    have hlsNd : ∀ g ∈ [compA, compB], (keysOf g).Nodup := by
      intro g hg
      rcases List.mem_cons.mp hg with h1 | h1
      · exact h1 ▸ hnd compA hmemA
      · rw [List.mem_singleton] at h1
        exact h1 ▸ hnd compB hmemB
    have hlsN : ∀ g ∈ [compA, compB], NoDangling g := by
      intro g hg
      rcases List.mem_cons.mp hg with h1 | h1
      · exact h1 ▸ hN compA hmemA
      · rw [List.mem_singleton] at h1
        exact h1 ▸ hN compB hmemB
    have hmkeys : ∀ x, x ∈ keysOf (objAssign (objAssign [] compA) compB)
        ↔ x ∈ keysOf compA ∨ x ∈ keysOf compB := by
      intro x
      rw [hmergedEq, merge_mem_keysOf]
      constructor
      · rintro ⟨f, hf, hx⟩
        rcases List.mem_cons.mp hf with h1 | h1
        · exact Or.inl (h1 ▸ hx)
        · rw [List.mem_singleton] at h1
          exact Or.inr (h1 ▸ hx)
      · rintro (h | h)
        · exact ⟨compA, List.mem_cons_self _ _, h⟩
        · exact ⟨compB, List.mem_cons_of_mem _ (List.mem_singleton_self _), h⟩
    have hnewkeys : ∀ x, x ∈ keysOf (addNodeToAdjacencyList
        (objAssign (objAssign [] compA) compB) p [c])
        ↔ x ∈ keysOf compA ∨ x ∈ keysOf compB := by
      intro x
      rw [addNode_mem_keysOf, hmkeys x]
      constructor
      · rintro ((h | h) | h | h)
        · exact Or.inl h
        · exact Or.inr h
        · exact Or.inl (h ▸ hkA)
        · rw [List.mem_singleton] at h
          exact Or.inr (h ▸ hkB)
      · rintro (h | h)
        · exact Or.inl (Or.inl h)
        · exact Or.inl (Or.inr h)
    have hnewnd : (keysOf (addNodeToAdjacencyList
        (objAssign (objAssign [] compA) compB) p [c])).Nodup := by
      refine addNode_keys_nodup _ _ _ ?_
      rw [hmergedEq]
      exact merge_keys_nodup _
    have hnewN : NoDangling (addNodeToAdjacencyList
        (objAssign (objAssign [] compA) compB) p [c]) := by
      refine addNode_noDangling _ _ ?_
      rw [hmergedEq]
      exact merge_noDangling _ hlsPd hlsNd hlsN
    have hmem2 : ∀ d ∈ (cs.eraseIdx ia).eraseIdx (if ia < ib then ib - 1 else ib),
        d ∈ cs := fun d hd =>
      (List.eraseIdx_sublist cs ia).subset ((List.eraseIdx_sublist _ _).subset hd)
    have hd2A : ∀ d ∈ (cs.eraseIdx ia).eraseIdx (if ia < ib then ib - 1 else ib),
        disjointKeys d compA := fun d hd =>
      pairwise_eraseIdx_rel (fun h => disjointKeys_symm h) cs ia compA hgetA hpd d
        ((List.eraseIdx_sublist _ _).subset hd)
    have hd2B : ∀ d ∈ (cs.eraseIdx ia).eraseIdx (if ia < ib then ib - 1 else ib),
        disjointKeys d compB := fun d hd =>
      pairwise_eraseIdx_rel (fun h => disjointKeys_symm h) (cs.eraseIdx ia) _ compB
        hgetB2 hpdE d hd
    have hsplit : ∀ z ∈ cs,
        z ∈ (cs.eraseIdx ia).eraseIdx (if ia < ib then ib - 1 else ib)
          ∨ z = compA ∨ z = compB := by
      intro z hz
      rcases mem_eraseIdx_or cs ia compA hgetA z hz with h1 | h1
      · rcases mem_eraseIdx_or (cs.eraseIdx ia) _ compB hgetB2 z h1 with h2 | h2
        · exact Or.inl h2
        · exact Or.inr (Or.inr h2)
      · exact Or.inr (Or.inl h1)
    refine ⟨_, rfl, ⟨?_, ?_, ?_⟩, ?_⟩
    · rw [PartitionDisjoint, List.pairwise_append]
      refine ⟨hpdE.sublist (List.eraseIdx_sublist _ _), List.pairwise_singleton _ _, ?_⟩
      intro d hd b hb
      rw [List.mem_singleton] at hb
      subst hb
      intro x hx hc2
      rcases (hnewkeys x).mp hc2 with h1 | h1
      · exact hd2A d hd x hx h1
      · exact hd2B d hd x hx h1
    · intro e he
      rcases List.mem_append.mp he with h1 | h1
      · exact hnd e (hmem2 e h1)
      · rw [List.mem_singleton] at h1
        exact h1 ▸ hnewnd
    · intro e he
      rcases List.mem_append.mp he with h1 | h1
      · exact hN e (hmem2 e h1)
      · rw [List.mem_singleton] at h1
        exact h1 ▸ hnewN
    · intro x
      rw [inPartition_append, inPartition_singleton]
      constructor
      · rintro (⟨d, hd, hx⟩ | hx)
        · exact ⟨d, hmem2 d hd, hx⟩
        · rcases (hnewkeys x).mp hx with h1 | h1
          · exact ⟨compA, hmemA, h1⟩
          · exact ⟨compB, hmemB, h1⟩
      · rintro ⟨d, hd, hx⟩
        rcases hsplit d hd with h1 | h1 | h1
        · exact Or.inl ⟨d, h1, hx⟩
        · subst h1
          exact Or.inr ((hnewkeys x).mpr (Or.inl hx))
        · subst h1
          exact Or.inr ((hnewkeys x).mpr (Or.inr hx))

theorem remEdge_preserves {cs : List AdjList} {p c : String}
    (hwf : CompsWF cs) (hok : ∃ comp ∈ cs, p ∈ keysOf comp ∧ c ∈ keysOf comp) :
    ∃ cs1, removeEdgeFromAdjacencyListComponents cs p c = some cs1 ∧ CompsWF cs1 ∧
      (∀ x, inPartition cs1 x ↔ inPartition cs x) := by
  obtain ⟨hpd, hnd, hN⟩ := hwf
  obtain ⟨d0, hd0, hd0p, hd0c⟩ := hok
  obtain ⟨i, hfind⟩ := @findIdx?_of_exists AdjList
    (fun comp => decide (keyMem comp p ∧ keyMem comp c)) cs
    ⟨d0, hd0, decide_eq_true ⟨(keyMem_iff_mem_keysOf d0 p).mpr hd0p,
      (keyMem_iff_mem_keysOf d0 c).mpr hd0c⟩⟩
  obtain ⟨comp, hget, hpredc⟩ := findIdx?_some_get hfind
  obtain ⟨hkmp, hkmc⟩ := of_decide_eq_true hpredc
  have hkp : p ∈ keysOf comp := (keyMem_iff_mem_keysOf comp p).mp hkmp
  have hmemc : comp ∈ cs := List.get?_mem hget
  obtain ⟨l, hl⟩ := Option.isSome_iff_exists.mp ((lookupA_isSome_iff comp p).mpr hkp)
  obtain ⟨comp1, hrm⟩ : ∃ comp1,
      removeEdgeFromAdjacencyList comp p c false = some comp1 := by
    show ∃ comp1, removeEdgeOnce comp p c = some comp1
    unfold removeEdgeOnce
    rw [hl]
    exact ⟨_, rfl⟩
  obtain ⟨hkeys1, hNimp⟩ := removeEdgeOnce_keys_nodangling hrm
  have hN1 : NoDangling comp1 := hNimp (hN comp hmemc)
  have hnd1 : (keysOf comp1).Nodup := by
    rw [hkeys1]
    exact hnd comp hmemc
  obtain ⟨frags, hfr, hfpd, hfnd, hfN, hfmem⟩ := getCC_package comp1 hN1
  have hrun := removeEdgeComponents_run hfind hget hrm hfr
  have hkiff : ∀ x, x ∈ keysOf comp1 ↔ x ∈ keysOf comp := fun x => by rw [hkeys1]
  by_cases hlen : frags.length > 1
  · rw [if_pos hlen] at hrun
    have hdErel : ∀ d ∈ cs.eraseIdx i, disjointKeys d comp := fun d hd =>
      pairwise_eraseIdx_rel (fun h => disjointKeys_symm h) cs i comp hget hpd d hd
    refine ⟨_, hrun, ⟨?_, ?_, ?_⟩, ?_⟩
    · rw [PartitionDisjoint, List.pairwise_append]
      refine ⟨hpd.sublist (List.eraseIdx_sublist cs i), hfpd, ?_⟩
      intro d hd f hf x hx hc2
      exact hdErel d hd x hx ((hkiff x).mp ((hfmem x).mp ⟨f, hf, hc2⟩))
    · intro e he
      rcases List.mem_append.mp he with h1 | h1
      · exact hnd e ((List.eraseIdx_sublist cs i).subset h1)
      · exact hfnd e h1
    · intro e he
      rcases List.mem_append.mp he with h1 | h1
      · exact hN e ((List.eraseIdx_sublist cs i).subset h1)
      · exact hfN e h1
    · intro x
      rw [inPartition_append]
      constructor
      · rintro (⟨d, hd, hx⟩ | ⟨f, hf, hx⟩)
        · exact ⟨d, (List.eraseIdx_sublist cs i).subset hd, hx⟩
        · exact ⟨comp, hmemc, (hkiff x).mp ((hfmem x).mp ⟨f, hf, hx⟩)⟩
      · rintro ⟨d, hd, hx⟩
        rcases mem_eraseIdx_or cs i comp hget d hd with h1 | h1
        · exact Or.inl ⟨d, h1, hx⟩
        · subst h1
          exact Or.inr ((hfmem x).mpr ((hkiff x).mpr hx))
  · rw [if_neg hlen] at hrun
    refine ⟨_, hrun, ⟨?_, ?_, ?_⟩, ?_⟩
    · exact partitionDisjoint_set cs i comp comp1 hget hpd (fun x hx => (hkiff x).mp hx)
    · intro e he
      rcases List.mem_or_eq_of_mem_set he with h1 | h1
      · exact hnd e h1
      · exact h1 ▸ hnd1
    · intro e he
      rcases List.mem_or_eq_of_mem_set he with h1 | h1
      · exact hN e h1
      · exact h1 ▸ hN1
    · exact inPartition_set cs i comp comp1 hget hkiff

/-- The node universe of one operation, as a membership predicate relative to
the pre-state. -/
def opMem (cs : List AdjList) (op : GOp) (x : String) : Prop :=
  match op with
  | .insNode n nbrs => inPartition cs x ∨ x = n ∨ x ∈ nbrs
  | .remNode n => inPartition cs x ∧ x ≠ n
  | .insEdge _ _ => inPartition cs x
  | .remEdge _ _ => inPartition cs x

theorem applyOp_preserves {cs : List AdjList} {op : GOp}
    (hwf : CompsWF cs) (hok : okOp cs op) :
    ∃ cs1, applyOp cs op = some cs1 ∧ CompsWF cs1 ∧
      (∀ x, inPartition cs1 x ↔ opMem cs op x) := by
  match op with
  | .insNode n nbrs =>
    obtain ⟨h1, h2⟩ := @insNode_preserves cs n nbrs hwf hok
    exact ⟨_, rfl, h1, h2⟩
  | .remNode n =>
    obtain ⟨cs1, ha, h1, h2⟩ := remNode_preserves cs n hwf
    exact ⟨cs1, ha, h1, h2⟩
  | .insEdge p c =>
    obtain ⟨cs1, ha, h1, h2⟩ := insEdge_preserves hwf hok.1 hok.2
    exact ⟨cs1, ha, h1, h2⟩
  | .remEdge p c =>
    obtain ⟨cs1, ha, h1, h2⟩ := remEdge_preserves hwf hok
    exact ⟨cs1, ha, h1, h2⟩

/-- Run a sequence of operations left to right, stopping at the first fault. -/
def runOps : List AdjList → List GOp → Option (List AdjList)
  | cs, [] => some cs
  | cs, op :: ops => (applyOp cs op).bind (fun cs1 => runOps cs1 ops)

/-- Every operation of the sequence satisfies its precondition in the state
where it executes. -/
def OkRun : List AdjList → List GOp → Prop
  | _, [] => True
  | cs, op :: ops =>
    okOp cs op ∧ (match applyOp cs op with
      | none => True
      | some cs1 => OkRun cs1 ops)

def okRunDecAux : ∀ (cs : List AdjList) (ops : List GOp), Decidable (OkRun cs ops)
  | _, [] => isTrue trivial
  | cs, op :: ops =>
    have hd : Decidable (match applyOp cs op with
        | none => True
        | some cs1 => OkRun cs1 ops) :=
      match applyOp cs op with
      | none => isTrue trivial
      | some cs1 => okRunDecAux cs1 ops
    @instDecidableAnd _ _ inferInstance hd

instance (cs : List AdjList) (ops : List GOp) : Decidable (OkRun cs ops) :=
  okRunDecAux cs ops

/-- C1 (amended): the partition invariant of the component-level operations.
Starting from a well-formed components list whose keys are exactly the
universe `S`, for any operation sequence whose operations respect their
sanity preconditions (inserted node ids are fresh, inserted edges connect
present nodes, removed edges have both endpoints in one component), after
EVERY prefix of the run: the run has not faulted, no node id is a key of two
distinct components (and the components stay well-formed), and the union of
the component key sets is exactly the inserted-so-far universe minus the
removed nodes, as computed by `opUniverse`.  (The unrestricted claim is
false: see the duplicate-insert counterexample.) -/
theorem components_partition_invariant :
    ∀ (ops : List GOp) (cs : List AdjList) (S : List String),
      CompsWF cs → (∀ x, inPartition cs x ↔ x ∈ S) → OkRun cs ops →
      ∀ k, k ≤ ops.length →
        ∃ csk, runOps cs (ops.take k) = some csk ∧ CompsWF csk ∧
          (∀ x, inPartition csk x ↔ x ∈ (ops.take k).foldl opUniverse S) := by
  intro ops
  induction ops with
  | nil =>
    intro cs S hwf hS _ k _
    refine ⟨cs, ?_, hwf, ?_⟩
    · rw [List.take_nil]
      rfl
    · rw [List.take_nil]
      exact hS
  | cons op rest ih =>
    intro cs S hwf hS hrun k hk
    match k with
    | 0 => exact ⟨cs, rfl, hwf, by simpa using hS⟩
    | k + 1 =>
      obtain ⟨hok, hnext⟩ := hrun
      obtain ⟨cs1, happ, hwf1, hmem1⟩ := applyOp_preserves hwf hok
      rw [happ] at hnext
      dsimp only at hnext
      have hS1 : ∀ x, inPartition cs1 x ↔ x ∈ opUniverse S op := by
        intro x
        rw [hmem1 x]
        match op with
        | .insNode n nbrs =>
          show inPartition cs x ∨ x = n ∨ x ∈ nbrs ↔ x ∈ S ++ n :: nbrs
          rw [List.mem_append, List.mem_cons, hS x]
        | .remNode n =>
          show inPartition cs x ∧ x ≠ n ↔ x ∈ S.filter (fun y => y ≠ n)
          rw [List.mem_filter, hS x]
          simp
        | .insEdge a b => exact hS x
        | .remEdge a b => exact hS x
      obtain ⟨csk, hrunk, hwfk, hmemk⟩ := ih cs1 (opUniverse S op) hwf1 hS1 hnext k
        (by simpa using hk)
      refine ⟨csk, ?_, hwfk, ?_⟩
      · show (applyOp cs op).bind (fun c1 => runOps c1 (rest.take k)) = some csk
        rw [happ]
        exact hrunk
      · intro x
        rw [show (op :: rest).take (k + 1) = op :: rest.take k from rfl, List.foldl_cons]
        exact hmemk x

/-- C1 witness: a concrete five-operation run (two inserts, an edge insert,
an edge removal that splits the component, and a node removal) keeps the
partition invariant at the full prefix. -/
theorem components_partition_invariant_witness :
    CompsWF ([] : List AdjList) ∧
    OkRun [] [GOp.insNode "a" [], GOp.insNode "b" ["a"], GOp.insEdge "a" "b",
      GOp.remEdge "a" "b", GOp.remNode "a"] ∧
    (∃ csk, runOps [] ([GOp.insNode "a" [], GOp.insNode "b" ["a"], GOp.insEdge "a" "b",
        GOp.remEdge "a" "b", GOp.remNode "a"].take 5) = some csk ∧ CompsWF csk ∧
      (∀ x, inPartition csk x ↔ x ∈ ([GOp.insNode "a" [], GOp.insNode "b" ["a"],
        GOp.insEdge "a" "b", GOp.remEdge "a" "b", GOp.remNode "a"].take 5).foldl
          opUniverse [])) := by
  refine ⟨by decide, by decide, ?_⟩
  exact components_partition_invariant
    [GOp.insNode "a" [], GOp.insNode "b" ["a"], GOp.insEdge "a" "b",
      GOp.remEdge "a" "b", GOp.remNode "a"] [] []
    (by decide) (by intro x; unfold inPartition; simp) (by decide) 5 (by decide)
